import Mathlib

/-!
# Verification of the voice-container-counter dictation pipeline

Shallow embedding of the core of the `voice-container-counter` repository:
the dictation normalizer and segment extractor (`backend/src/index.ts`),
the arithmetic-speech normalizer, safe expression evaluator and streaming
session dispatcher (`frontend/src/App.tsx`), and the per-item aggregation
(`backend/src/parsing.ts` / the summary route).

Strings are modelled as `List Char`.  JavaScript regular expressions are
embedded as dedicated scanners that reproduce the semantics actually used
by the source patterns: leftmost match, scanning resumes after each match,
`\b` computed over ASCII word characters `[A-Za-z0-9_]` (the source uses
no `u` flag), `\s` the ECMAScript whitespace set, case-insensitivity via
Latin-1 lowercasing.  JavaScript numbers are modelled as exact rationals
represented by explicit integer fractions (`Frac`); non-finite
intermediate results (division by zero) are tracked with `Option Frac`
where `none` stands for a non-finite value.
-/

namespace VCC

/-- ASCII word character, the `\w` / `\b` alphabet of a JS regex without
the `u` flag: `[A-Za-z0-9_]`.  Accented letters such as `é` are NOT word
characters. -/
def wordChar (c : Char) : Bool :=
  (97 ≤ c.toNat && c.toNat ≤ 122) || (65 ≤ c.toNat && c.toNat ≤ 90) ||
  (48 ≤ c.toNat && c.toNat ≤ 57) || c.toNat = 95

/-- `\w`-ness of an optional context character; out of range counts as
non-word. -/
def wcO : Option Char → Bool
  | none => false
  | some c => wordChar c

/-- ECMAScript `\s` (also the set trimmed by `String.prototype.trim`). -/
def jsSpace (c : Char) : Bool :=
  c.toNat = 32 || c.toNat = 9 || c.toNat = 10 || c.toNat = 11 || c.toNat = 12 ||
  c.toNat = 13 || c.toNat = 0xa0 || c.toNat = 0x1680 ||
  (0x2000 ≤ c.toNat && c.toNat ≤ 0x200a) || c.toNat = 0x2028 || c.toNat = 0x2029 ||
  c.toNat = 0x202f || c.toNat = 0x205f || c.toNat = 0x3000 || c.toNat = 0xfeff

/-- JS line terminators, the characters `.` does not match. -/
def lineTerm (c : Char) : Bool :=
  c.toNat = 10 || c.toNat = 13 || c.toNat = 0x2028 || c.toNat = 0x2029

/-- ASCII decimal digit (`\d` of a JS regex without the `u` flag). -/
def digitChar (c : Char) : Bool := 48 ≤ c.toNat && c.toNat ≤ 57

/-- `String.prototype.toLowerCase`, restricted to ASCII and Latin-1
(`A`–`Z` and `À`–`Þ` except `×`); other characters are left unchanged. -/
def latin1Lower (c : Char) : Char :=
  if 'A' ≤ c && c ≤ 'Z' then Char.ofNat (c.toNat + 32)
  else if 0xc0 ≤ c.toNat && c.toNat ≤ 0xde && c.toNat ≠ 0xd7 then Char.ofNat (c.toNat + 32)
  else c

/-- Case-insensitive character comparison as performed by a `/i` regex on
Latin-1 text. -/
def ciEq (a b : Char) : Bool := latin1Lower a = latin1Lower b

/-- `String.prototype.trim` on a character list. -/
def jsTrim (l : List Char) : List Char :=
  ((l.dropWhile jsSpace).reverse.dropWhile jsSpace).reverse

/-- Numeric value of a list of ASCII digits (the `parseInt(_, 10)` of a
`\d+` capture). -/
def digitsToNat (l : List Char) : Nat :=
  l.foldl (fun acc c => acc * 10 + (c.toNat - '0'.toNat)) 0

/-- Case-insensitive literal match: `matchCI w l = some (m, rest)` when
`l` starts with the word `w` up to case; `m` is the matched original
text. -/
def matchCI : List Char → List Char → Option (List Char × List Char)
  | [], l => some ([], l)
  | _ :: _, [] => none
  | w :: ws, c :: cs =>
    if ciEq w c then
      match matchCI ws cs with
      | some (m, rest) => some (c :: m, rest)
      | none => none
    else none

/-- Case-sensitive literal match. -/
def matchLit : List Char → List Char → Option (List Char)
  | [], l => some l
  | _ :: _, [] => none
  | w :: ws, c :: cs => if w = c then matchLit ws cs else none

/-! ## Generic global-replace scanner

`scanF M fuel prev l` walks `l` from the left, carrying the previous
original character `prev` (for `\b` context).  At each position the
matcher `M` either matches a non-empty prefix — producing a replacement,
the last original character of the match, and the rest of the input — or
fails, in which case the current character is copied.  This reproduces
`String.prototype.replace` with a `g` regex: leftmost match, scanning
resumes after the matched text, matches are found over the original
string.  Fuel `l.length` suffices for every matcher that consumes at
least one character. -/

def scanF (M : Option Char → List Char → Option (List Char × Char × List Char)) :
    Nat → Option Char → List Char → List Char
  | 0, _, l => l
  | _ + 1, _, [] => []
  | n + 1, prev, c :: rest =>
    match M prev (c :: rest) with
    | some (repl, lastc, rest') => repl ++ scanF M n (some lastc) rest'
    | none => c :: scanF M n (some c) rest

/-- Run a global replace over a whole string. -/
def runScan (M : Option Char → List Char → Option (List Char × Char × List Char))
    (l : List Char) : List Char :=
  scanF M l.length none l

/-! ## Segment extractor (`backend/src/index.ts`, `extractQuantityAndLabel`)

Each of the five strategies of the source is embedded as its own
function; the extractor tries them in order, first success wins, exactly
as the source's sequence of early returns. -/

/-- The `FR_NUM` table mapping French number words to integers. -/
def frNum (w : String) : Option Nat :=
  if w = "zero" then some 0 else if w = "zéro" then some 0
  else if w = "un" then some 1 else if w = "une" then some 1
  else if w = "deux" then some 2 else if w = "trois" then some 3
  else if w = "quatre" then some 4 else if w = "cinq" then some 5
  else if w = "six" then some 6 else if w = "sept" then some 7
  else if w = "huit" then some 8 else if w = "neuf" then some 9
  else if w = "dix" then some 10 else if w = "onze" then some 11
  else if w = "douze" then some 12 else if w = "treize" then some 13
  else if w = "quatorze" then some 14 else if w = "quinze" then some 15
  else if w = "seize" then some 16 else if w = "vingt" then some 20
  else none

/-- Character class `[A-Za-zÀ-ÿ-]` of `parseLeadingNumberWord`'s regex. -/
def leadClass (c : Char) : Bool :=
  (65 ≤ c.toNat && c.toNat ≤ 90) || (97 ≤ c.toNat && c.toNat ≤ 122) ||
  (0xc0 ≤ c.toNat && c.toNat ≤ 0xff) || c.toNat = 45

/-- Backtracking search for the longest class-run prefix ending at a `\b`:
`cutBackRev preRev suf` receives the candidate prefix reversed and what
follows it, shortening from the right until the trailing word boundary
holds (greedy `+` followed by `\b`). -/
def cutBackRev : List Char → List Char → Option (List Char × List Char)
  | [], _ => none
  | c :: preRev, suf =>
    if wordChar c != wcO suf.head? then some ((c :: preRev).reverse, suf)
    else cutBackRev preRev (c :: suf)

/-- `s.match(/^([A-Za-zÀ-ÿ-]+)\b/)`: longest prefix of class characters
whose end sits at an ASCII word boundary. -/
def leadWordMatch (s : List Char) : Option (List Char × List Char) :=
  cutBackRev (s.takeWhile leadClass).reverse (s.dropWhile leadClass)

/-- `parseLeadingNumberWord`: quantity from a leading French number word,
plus the trimmed remainder (the source returns `{qty?, rest}`). -/
def parseLeadingNumberWord (seg : List Char) : Option Nat × List Char :=
  let s := jsTrim seg
  match leadWordMatch s with
  | none => (none, s)
  | some (m, _) =>
    match frNum (String.mk (m.map latin1Lower)) with
    | none => (none, s)
    | some q => (some q, jsTrim (s.drop m.length))

/-- Strategy 1, `/^(\d+)\s+(.+)$/`: leading digit run, whitespace, rest
(`.` does not match line terminators).  Returns `none` both when the
regex fails and when the quantity/label guards fail, as either way the
source falls through. -/
def strat1 (s : List Char) : Option (Nat × List Char) :=
  let d := s.takeWhile digitChar
  let r := s.dropWhile digitChar
  if d = [] then none
  else
    let w := r.takeWhile jsSpace
    let rest := r.dropWhile jsSpace
    if w = [] then none
    else if rest ≠ [] && rest.all (fun c => !lineTerm c) then
      let q := digitsToNat d
      let lab := jsTrim rest
      if q > 0 && lab ≠ [] then some (q, lab) else none
    else none

/-- Strategy 2: leading number word via `parseLeadingNumberWord`. -/
def strat2 (s : List Char) : Option (Nat × List Char) :=
  match parseLeadingNumberWord s with
  | (some q, rest) => if q > 0 && rest ≠ [] then some (q, jsTrim rest) else none
  | (none, _) => none

/-- Suffix matcher for strategy 3: `(?:\s+)?x\s*(\d+)\s*$`
(case-insensitive `x`). -/
def tailMatch3 (t : List Char) : Option Nat :=
  match t.dropWhile jsSpace with
  | [] => none
  | c :: t2 =>
    if c = 'x' || c = 'X' then
      let t3 := t2.dropWhile jsSpace
      let d := t3.takeWhile digitChar
      let t4 := t3.dropWhile digitChar
      if d ≠ [] && (t4.dropWhile jsSpace).isEmpty then some (digitsToNat d) else none
    else none

/-- Lazy scan of `^(.*?)(?:\s+)?x\s*(\d+)\s*$/i`: shortest prefix (of
non-line-terminator characters) whose suffix matches `tailMatch3`. -/
def strat3go : List Char → List Char → Option (List Char × Nat)
  | preRev, suf =>
    match tailMatch3 suf with
    | some q => some (preRev.reverse, q)
    | none =>
      match suf with
      | [] => none
      | c :: rest => if lineTerm c then none else strat3go (c :: preRev) rest

/-- Strategy 3: trailing multiplier `"vis M6x20 x 10"` / `"vis M6x20 x10"`. -/
def strat3 (s : List Char) : Option (Nat × List Char) :=
  match strat3go [] s with
  | some (pre, q) =>
    let lab := jsTrim pre
    if q > 0 && lab ≠ [] then some (q, lab) else none
  | none => none

/-- Suffix matcher for strategy 4: `\s+(\d+)\s*$`. -/
def tailMatch4 (t : List Char) : Option Nat :=
  match t with
  | [] => none
  | c :: _ =>
    if jsSpace c then
      let t1 := t.dropWhile jsSpace
      let d := t1.takeWhile digitChar
      let t2 := t1.dropWhile digitChar
      if d ≠ [] && (t2.dropWhile jsSpace).isEmpty then some (digitsToNat d) else none
    else none

/-- Lazy scan of `^(.+?)\s+(\d+)\s*$`: shortest non-empty prefix whose
suffix matches `tailMatch4`. -/
def strat4go : List Char → List Char → Option (List Char × Nat)
  | preRev, suf =>
    match tailMatch4 suf with
    | some q => some (preRev.reverse, q)
    | none =>
      match suf with
      | [] => none
      | c :: rest => if lineTerm c then none else strat4go (c :: preRev) rest

/-- Strategy 4: trailing digit run `"vis M6x20 10"`. -/
def strat4 (s : List Char) : Option (Nat × List Char) :=
  match s with
  | [] => none
  | c :: rest =>
    if lineTerm c then none
    else
      match strat4go [c] rest with
      | some (pre, q) =>
        let lab := jsTrim pre
        if q > 0 && lab ≠ [] then some (q, lab) else none
      | none => none

/-- Tokenization `s.split(/\s+/)` for an already-trimmed `s`: split on
whitespace runs, no empty tokens. -/
def splitWs (l : List Char) : List (List Char) :=
  (l.splitOnP (fun c => jsSpace c)).filter (fun t => !t.isEmpty)

/-- The unit-of-length words excluded by strategy 5's guard, compared
against the lowercased following token. -/
def isUnitWord (w : List Char) : Bool :=
  let s := String.mk (w.map latin1Lower)
  s = "mm" || s = "millimetre" || s = "millimètre" ||
  s = "millimetres" || s = "millimètres"

/-- Strategy 5 loop: find the first standalone digit token, skipping
those followed by a unit word and those parsing to `0`; `pre` holds the
tokens already passed over (the source's `tokens.splice` removes the
found token, the label is the space-join of the others). -/
def strat5go (pre : List (List Char)) : List (List Char) → Option (Nat × List Char)
  | [] => none
  | tok :: rest =>
    if tok ≠ [] && tok.all digitChar then
      let nextLow := match rest with
        | [] => ([] : List Char)
        | t :: _ => t.map latin1Lower
      if isUnitWord nextLow then strat5go (pre ++ [tok]) rest
      else
        let q := digitsToNat tok
        if q = 0 then strat5go (pre ++ [tok]) rest
        else
          let lab := jsTrim (List.intercalate [' '] (pre ++ rest))
          if lab ≠ [] then some (q, lab) else strat5go pre rest
    else strat5go (pre ++ [tok]) rest

/-- Strategy 5: fallback scan over whitespace-separated tokens. -/
def strat5 (s : List Char) : Option (Nat × List Char) :=
  strat5go [] (splitWs s)

/-- `extractQuantityAndLabel` (`index.ts` lines 91–145): trim, then try
the five strategies in priority order, first success wins. -/
def extractQuantityAndLabel (segment : List Char) : Option (Nat × List Char) :=
  let s := jsTrim segment
  if s = [] then none
  else
    match strat1 s with
    | some r => some r
    | none =>
      match strat2 s with
      | some r => some r
      | none =>
        match strat3 s with
        | some r => some r
        | none =>
          match strat4 s with
          | some r => some r
          | none => strat5 s

/-- String-level wrapper for the extractor. -/
def extractQL (segment : String) : Option (Nat × String) :=
  (extractQuantityAndLabel segment.data).map (fun r => (r.1, String.mk r.2))


/-! ## Expression evaluator (`frontend/src/App.tsx`, `evalExprSafe`)

The recursive-descent evaluator is embedded with a fuel parameter: the
source's mutually recursive `factor`/`term`/`expr_` always advance the
cursor before re-entering `factor`, so `4 * length + 8` units of fuel are
never exhausted; the fuel-exhaustion branch reuses the source's catch-all
message `"Erreur de calcul"`.

JS numbers are modelled as exact rationals represented by explicit
integer fractions (`Frac`, interpreted by `Frac.toRat`; every operation
keeps the denominator non-zero), and `none` stands for a non-finite JS
number (the result of dividing by zero), which the source detects at the
end with `Number.isFinite`. -/

/-- An unreduced integer fraction `num / den`; the embedding of a finite
JS number.  All arithmetic below keeps `den ≠ 0`. -/
structure Frac where
  num : Int
  den : Int
deriving DecidableEq, Repr

/-- The rational value of a fraction. -/
def Frac.toRat (f : Frac) : ℚ := (f.num : ℚ) / (f.den : ℚ)

/-- The embedding of a JS integer literal. -/
def Frac.ofNat (n : Nat) : Frac := ⟨n, 1⟩

/-- `value <= 0`, for a fraction with non-zero denominator. -/
def Frac.leZero (f : Frac) : Bool := f.num * f.den ≤ 0

/-- Lifted addition: non-finite operands propagate. -/
def jsAdd : Option Frac → Option Frac → Option Frac
  | some a, some b => some ⟨a.num * b.den + b.num * a.den, a.den * b.den⟩
  | _, _ => none

/-- Lifted subtraction. -/
def jsSub : Option Frac → Option Frac → Option Frac
  | some a, some b => some ⟨a.num * b.den - b.num * a.den, a.den * b.den⟩
  | _, _ => none

/-- Lifted multiplication. -/
def jsMul : Option Frac → Option Frac → Option Frac
  | some a, some b => some ⟨a.num * b.num, a.den * b.den⟩
  | _, _ => none

/-- Lifted division; dividing by zero yields a non-finite value. -/
def jsDiv : Option Frac → Option Frac → Option Frac
  | some a, some b => if b.num = 0 then none else some ⟨a.num * b.den, a.den * b.num⟩
  | _, _ => none

/-- Lifted negation. -/
def jsNeg : Option Frac → Option Frac
  | some a => some ⟨-a.num, a.den⟩
  | none => none

/-- The evaluator's `skip()`: it skips only the literal space character. -/
def skipSp (l : List Char) : List Char := l.dropWhile (fun c => c = ' ')

/-- `number()`: skip spaces, read a digit run, error `"Nombre attendu"`
when empty.  Digit runs are read exactly (`Number` of a digit string). -/
def evalNumber (l : List Char) : Except String (Option Frac × List Char) :=
  let l1 := skipSp l
  let d := l1.takeWhile digitChar
  if d.isEmpty then Except.error "Nombre attendu"
  else Except.ok (some (Frac.ofNat (digitsToNat d)), l1.dropWhile digitChar)

mutual

/-- `factor()`: unary `+`/`-`, parenthesised expression, or number. -/
def evalFactor : Nat → List Char → Except String (Option Frac × List Char)
  | 0, _ => Except.error "Erreur de calcul"
  | n + 1, l =>
    match skipSp l with
    | '+' :: rest => evalFactor n rest
    | '-' :: rest =>
      match evalFactor n rest with
      | Except.ok (v, r) => Except.ok (jsNeg v, r)
      | Except.error e => Except.error e
    | '(' :: rest =>
      match evalExprP n rest with
      | Except.ok (v, r) =>
        match skipSp r with
        | ')' :: r2 => Except.ok (v, r2)
        | _ => Except.error "Parenthèse manquante"
      | Except.error e => Except.error e
    | l1 => evalNumber l1

/-- `term()`'s while-loop over `*` and `/`. -/
def evalTermLoop : Nat → Option Frac → List Char → Except String (Option Frac × List Char)
  | 0, _, _ => Except.error "Erreur de calcul"
  | n + 1, v, l =>
    match skipSp l with
    | '*' :: rest =>
      match evalFactor n rest with
      | Except.ok (rhs, r) => evalTermLoop n (jsMul v rhs) r
      | Except.error e => Except.error e
    | '/' :: rest =>
      match evalFactor n rest with
      | Except.ok (rhs, r) => evalTermLoop n (jsDiv v rhs) r
      | Except.error e => Except.error e
    | l1 => Except.ok (v, l1)

/-- `term()`: a factor followed by the `*`/`/` loop. -/
def evalTerm : Nat → List Char → Except String (Option Frac × List Char)
  | 0, _ => Except.error "Erreur de calcul"
  | n + 1, l =>
    match evalFactor n l with
    | Except.ok (v, r) => evalTermLoop n v r
    | Except.error e => Except.error e

/-- `expr_()`'s while-loop over `+` and `-`. -/
def evalExprLoop : Nat → Option Frac → List Char → Except String (Option Frac × List Char)
  | 0, _, _ => Except.error "Erreur de calcul"
  | n + 1, v, l =>
    match skipSp l with
    | '+' :: rest =>
      match evalTerm n rest with
      | Except.ok (rhs, r) => evalExprLoop n (jsAdd v rhs) r
      | Except.error e => Except.error e
    | '-' :: rest =>
      match evalTerm n rest with
      | Except.ok (rhs, r) => evalExprLoop n (jsSub v rhs) r
      | Except.error e => Except.error e
    | l1 => Except.ok (v, l1)

/-- `expr_()`: a term followed by the `+`/`-` loop. -/
def evalExprP : Nat → List Char → Except String (Option Frac × List Char)
  | 0, _ => Except.error "Erreur de calcul"
  | n + 1, l =>
    match evalTerm n l with
    | Except.ok (v, r) => evalExprLoop n v r
    | Except.error e => Except.error e

end

/-- Result record of `evalExprSafe`: `{ value, error? }`. -/
structure EvalResult where
  value : Frac
  error : Option String
deriving DecidableEq, Repr

/-- `evalExprSafe` (`App.tsx` lines 46–115): trim, run the
recursive-descent parser, reject trailing characters, reject non-finite
results. -/
def evalExprSafe (expr : String) : EvalResult :=
  let s := jsTrim expr.data
  if s.isEmpty then ⟨⟨0, 1⟩, some "Expression vide"⟩
  else
    match evalExprP (4 * s.length + 8) s with
    | Except.error msg => ⟨⟨0, 1⟩, some msg⟩
    | Except.ok (v, r) =>
      match skipSp r with
      | c :: _ => ⟨⟨0, 1⟩, some ("Caractère inattendu: \"" ++ String.singleton c ++ "\"")⟩
      | [] =>
        match v with
        | none => ⟨⟨0, 1⟩, some "Résultat invalide"⟩
        | some q => ⟨q, none⟩


/-! ## Arithmetic-speech normalizer (`App.tsx`, `normalizeMathSpeech`)

Word replacements here are case-sensitive (the source patterns carry no
`/i` flag; the text is lowercased first). -/

/-- Matcher for `\b<word>\b` → `repl` over the original text.  The
boundary before the match compares the previous character's wordness
with the first pattern character's; the boundary after compares the last
pattern character's with the next character's (so for a pattern ending
in a non-word character such as `é`, the following character must be a
word character — faithfully reproducing ASCII `\b`). -/
def mWordCS (w : List Char) (repl : List Char) (prev : Option Char) (l : List Char) :
    Option (List Char × Char × List Char) :=
  match w with
  | [] => none
  | w0 :: _ =>
    if wcO prev == wordChar w0 then none
    else
      match matchLit w l with
      | some rest =>
        let lastc := w.getLastD ' '
        if wordChar lastc != wcO rest.head? then some (repl, lastc, rest) else none
      | none => none

/-- Matcher for `/(\d)\s*x\s*(\d)/g` → `$1*$2` (single digits, literal
lowercase `x`). -/
def mDigXDig (_prev : Option Char) (l : List Char) :
    Option (List Char × Char × List Char) :=
  match l with
  | [] => none
  | d1 :: rest =>
    if digitChar d1 then
      match rest.dropWhile jsSpace with
      | 'x' :: r2 =>
        match r2.dropWhile jsSpace with
        | d2 :: r4 =>
          if digitChar d2 then some ([d1, '*', d2], d2, r4) else none
        | [] => none
      | _ => none
    else none

/-- The character class kept by the final filter `[0-9+\-*/().]`. -/
def keepMath (c : Char) : Bool :=
  digitChar c || c = '+' || c = '-' || c = '*' || c = '/' || c = '(' || c = ')' || c = '.'

/-- `normalizeMathSpeech` (`App.tsx` lines 25–43): lowercase, replace the
spoken operator words, drop `par`, collapse `<digit> x <digit>` to
`<digit>*<digit>`, keep only expression characters, drop whitespace. -/
def normalizeMathSpeech (text : String) : String :=
  let t0 := text.data.map latin1Lower
  let t1 := runScan (mWordCS "plus".data "+".data) t0
  let t2 := runScan (mWordCS "moins".data "-".data) t1
  let t3 := runScan (mWordCS "fois".data "*".data) t2
  let t4 := runScan (mWordCS "multiplie".data "*".data) t3
  let t5 := runScan (mWordCS "divise".data "/".data) t4
  let t6 := runScan (mWordCS "divisé".data "/".data) t5
  let t7 := runScan (mWordCS "par".data [] ) t6
  let t8 := runScan mDigXDig t7
  let t9 := t8.filter keepMath
  String.mk (t9.filter (fun c => !jsSpace c))


/-! ## Streaming session (`App.tsx`, `handleSegment` / `processBuffer`)

The React component state relevant to the dispatcher is embedded as
`SState`; calls to the external collaborator (container creation, line
addition) are recorded as `SAction`s.  The collaborator itself (HTTP
layer, store) is out of scope per the specification; its calls are
modelled as always succeeding.  Numeric interpolations inside status
messages are omitted (status text is never load-bearing below).

`useState` semantics: every read of a state variable inside
`handleSegment` observes the value captured by the render closure in
which `processBuffer` started, while every `setX` call only queues a
write that becomes visible to a later render.  All `handleSegment`
calls of one `processBuffer` drain therefore read the SAME stale state.
The dispatchers below take two states: `stR`, the render-closure state
all reads observe, and `stA`, the accumulated queued writes onto which
new writes are applied. -/

/-- An action emitted to the external collaborator. -/
inductive SAction where
  | createContainer (label : String)
  | addLine (itemLabel : String) (qty : Frac)
deriving DecidableEq, Repr

/-- The dispatcher-relevant component state. -/
structure SState where
  activeItem : String
  exprDraft : String
  status : String
  qtyInput : Frac
  containerLabel : String
deriving DecidableEq, Repr

/-- The initial component state (`useState` initial values). -/
def initialState : SState :=
  ⟨"", "", "", ⟨1, 1⟩, "Contenant 001"⟩

/-- One step of the alternation `(contenant|container|carton|bac)` or
`(référence|reference|ref|article)` of the prefix-stripping replaces:
try each word in order at the position after leading whitespace. -/
def stripCmdGo : List (List Char) → List Char → Option (List Char)
  | [], _ => none
  | w :: ws, s1 =>
    match matchCI w s1 with
    | some (_, rest) => some (rest.dropWhile jsSpace)
    | none => stripCmdGo ws s1

/-- `seg.replace(/^(\s*(w1|w2|…)\s*)/i, "")`: drop the leading command
word with surrounding whitespace; unchanged when nothing matches. -/
def stripCmd (words : List (List Char)) (seg : List Char) : List Char :=
  match stripCmdGo words (seg.dropWhile jsSpace) with
  | some r => r
  | none => seg

/-- The container command words, in the source's alternation order. -/
def containerWords : List (List Char) :=
  ["contenant".data, "container".data, "carton".data, "bac".data]

/-- The reference command words, in the source's alternation order. -/
def refWords : List (List Char) :=
  ["référence".data, "reference".data, "ref".data, "article".data]

/-- Does the lowercased segment start with one of the words? -/
def startsWithOne (words : List (List Char)) (low : List Char) : Bool :=
  words.any (fun w => w.isPrefixOf low)

/-- The container branch of the dispatcher (`App.tsx` lines 204–209,
with the success path of `createContainer`, lines 143–164): the
`containerLabel` fallback is read from the render closure `stR`; the
writes land on `stA`. -/
def dispatchContainer (stR stA : SState) (seg : List Char) : SState × List SAction :=
  let stripped := jsTrim (stripCmd containerWords seg)
  let label := if stripped.isEmpty then stR.containerLabel.data else stripped
  let st1 := { stA with containerLabel := String.mk label }
  let lbl := jsTrim label
  if lbl.isEmpty then (st1, [])
  else
    ({ st1 with activeItem := "", exprDraft := "", qtyInput := ⟨1, 1⟩,
                status := "Contenant créé: " ++ String.mk lbl },
     [SAction.createContainer (String.mk lbl)])

/-- The reference branch of the dispatcher (`App.tsx` lines 212–224);
it reads no state, so it only takes the accumulated write state. -/
def dispatchRef (st : SState) (seg : List Char) : SState × List SAction :=
  let label := jsTrim (stripCmd refWords seg)
  if label.isEmpty then
    ({ st with status := "Référence vide (dis: “référence … OK”)" }, [])
  else
    ({ st with activeItem := String.mk label, exprDraft := "", qtyInput := ⟨1, 1⟩,
               status := "Référence active: " ++ String.mk label }, [])

/-- The no-active-reference branch (`App.tsx` lines 227–230); it reads
no state, so it only takes the accumulated write state. -/
def dispatchNoRef (st : SState) (seg : List Char) : SState × List SAction :=
  ({ st with status := "Aucune référence active. Dis: “référence … OK” puis ton calcul “5+10 … OK”. (Segment: \"" ++ String.mk seg ++ "\")" }, [])

/-- The arithmetic branch, split on the evaluation result (the source
reads `r.error` / `r.value`; destructuring the record is equivalent):
error → report, value ≤ 0 → report, value > 0 → add a line.  The
`activeItem` passed to `addLine` (and interpolated into the status) is
read from the render closure `stR`; the writes land on `stA`. -/
def dispatchCalcRes (stR stA : SState) (seg : List Char) (expr : String) :
    EvalResult → SState × List SAction
  | ⟨_, some msg⟩ =>
    ({ stA with exprDraft := expr,
                status := "Erreur calcul: " ++ msg ++ " (segment=\"" ++ String.mk seg ++ "\")" }, [])
  | ⟨v, none⟩ =>
    if v.leZero then
      ({ stA with exprDraft := expr, status := "Résultat <= 0 : rien ajouté." }, [])
    else
      ({ stA with exprDraft := "", qtyInput := v, status := "Ajout: × " ++ stR.activeItem },
       [SAction.addLine stR.activeItem v])

/-- The arithmetic branch (`App.tsx` lines 232–248): normalize, store
the draft, evaluate, and add a line exactly when the evaluation succeeds
with a positive value. -/
def dispatchCalc (stR stA : SState) (seg : List Char) : SState × List SAction :=
  dispatchCalcRes stR stA seg (normalizeMathSpeech (String.mk seg))
    (evalExprSafe (normalizeMathSpeech (String.mk seg)))

/-- `handleSegment` (`App.tsx` lines 197–249) as called inside a drain:
dispatch one confirmed segment, reading state from the render closure
`stR` and applying the queued writes to `stA`; returns the new
accumulated state and the collaborator actions emitted.  The branch
test `!activeItem.trim()` reads the closure's `activeItem`.  The
success path of the async collaborator calls is modelled (failures are
glue-layer concerns, §7 of the spec). -/
def handleSegmentRW (stR stA : SState) (raw : String) : SState × List SAction :=
  let seg := jsTrim raw.data
  if seg.isEmpty then (stA, [])
  else
    let low := seg.map latin1Lower
    if startsWithOne containerWords low then dispatchContainer stR stA seg
    else if startsWithOne refWords low then dispatchRef stA seg
    else if (jsTrim stR.activeItem.data).isEmpty then dispatchNoRef stA seg
    else dispatchCalc stR stA seg

/-- A single `handleSegment` call from the render whose closure holds
`st` (the first call of a drain, or a call outside a drain): reads and
queued writes both start from `st`. -/
def handleSegment (st : SState) (raw : String) : SState × List SAction :=
  handleSegmentRW st st raw

/-- The apostrophe character (U+0027). -/
def apoChar : Char := Char.ofNat 39

/-- The confirmation-marker alternatives of
`/\b(ok|okay|okey|d'accord|dac)\b/i`, in alternation order. -/
def okWords : List (List Char) :=
  ["ok".data, "okay".data, "okey".data,
   ['d', apoChar, 'a', 'c', 'c', 'o', 'r', 'd'], "dac".data]

/-- Try the marker alternatives at the current position (all start and
end with word characters, so both boundaries reduce to the neighbours
being non-word). -/
def tryOkList : List (List Char) → List Char → Option (List Char)
  | [], _ => none
  | w :: ws, l =>
    match matchCI w l with
    | some (_, rest) => if !wcO rest.head? then some rest else tryOkList ws l
    | none => tryOkList ws l

/-- Leftmost match of the confirmation-marker regex: returns the text
before the match and the text after it. -/
def findOkGo (prevC : Option Char) (preRev : List Char) :
    List Char → Option (List Char × List Char)
  | [] => none
  | c :: rest =>
    match (if !wcO prevC then tryOkList okWords (c :: rest) else none) with
    | some after => some (preRev.reverse, after)
    | none => findOkGo (some c) (c :: preRev) rest

/-- `processBuffer`'s while-loop: as long as a confirmation marker is
found, dispatch the confirmed segment before it and continue on the
trimmed remainder.  Every `handleSegment` call of the drain reads the
same render-closure state `stR`; only the queued writes (`stA`) thread
through.  Each iteration removes at least the marker from the buffer,
so fuel `length + 1` is never exhausted. -/
def processBufGo : Nat → SState → SState → List Char → SState × List SAction × List Char
  | 0, _, stA, buf => (stA, [], buf)
  | n + 1, stR, stA, buf =>
    match findOkGo none [] buf with
    | none => (stA, [], buf)
    | some (pre, after) =>
      let (st1, a1) := handleSegmentRW stR stA (String.mk (jsTrim pre))
      let (st2, a2, bufF) := processBufGo n stR st1 (jsTrim after)
      (st2, a1 ++ a2, bufF)

/-- `processBuffer` over a whole buffer, draining from the render whose
closure holds `st`. -/
def processBuffer (st : SState) (buf : List Char) : SState × List SAction × List Char :=
  processBufGo (buf.length + 1) st st buf

/-- The transcript-arrival effect: append the new fragment (space-joined)
to the buffer, then drain (`App.tsx` lines 276–286). -/
def ingest (st : SState) (buf : String) (frag : String) :
    SState × List SAction × List Char :=
  processBuffer st (jsTrim (buf.data ++ ' ' :: frag.data))


/-! ## Dictation normalizer (`backend/src/index.ts`, `normalizeDictation`)

Seven global replaces applied in the source's order, each embedded as a
matcher for the generic scanner. -/

/-- The operator characters of the class `[+−-]` (plus, Unicode minus
U+2212, hyphen-minus). -/
def isOpChar (c : Char) : Bool := c.toNat = 43 || c.toNat = 45 || c.toNat = 0x2212

/-- Matcher for `/\bpoint[\s-]?virgule\b/gi` → `";"`. -/
def mPointVirgule (prev : Option Char) (l : List Char) :
    Option (List Char × Char × List Char) :=
  if wcO prev then none
  else
    match matchCI "point".data l with
    | none => none
    | some (_, r1) =>
      match r1 with
      | [] => none
      | c :: r2 =>
        if jsSpace c || c = '-' then
          match matchCI "virgule".data r2 with
          | some (m2, r3) =>
            if !wcO r3.head? then some (";".data, m2.getLastD 'e', r3) else none
          | none => none
        else
          match matchCI "virgule".data r1 with
          | some (m2, r3) =>
            if !wcO r3.head? then some (";".data, m2.getLastD 'e', r3) else none
          | none => none

/-- Matcher for `/\bvirgule\b/gi` → `","`. -/
def mVirgule (prev : Option Char) (l : List Char) :
    Option (List Char × Char × List Char) :=
  if wcO prev then none
  else
    match matchCI "virgule".data l with
    | some (m, rest) =>
      if !wcO rest.head? then some (",".data, m.getLastD 'e', rest) else none
    | none => none

/-- The number alternatives of the `et`-rule lookahead
(`\d+|un|une|…|vingt`; note: no `zero`). -/
def etNumWords : List (List Char) :=
  ["un".data, "une".data, "deux".data, "trois".data, "quatre".data, "cinq".data,
   "six".data, "sept".data, "huit".data, "neuf".data, "dix".data, "onze".data,
   "douze".data, "treize".data, "quatorze".data, "quinze".data, "seize".data,
   "vingt".data]

/-- The lookahead `(?=(\d+|un|…|vingt)\b)`: a digit run or number word
starting here and ending at a word boundary. -/
def lookNum (l : List Char) : Bool :=
  (!(l.takeWhile digitChar).isEmpty && !wcO (l.dropWhile digitChar).head?) ||
  etNumWords.any (fun w =>
    match matchCI w l with
    | some (_, r) => !wcO r.head?
    | none => false)

/-- Matcher for `/\bet\s+(?=(number)\b)/gi` → `", "` (the lookahead is
not consumed). -/
def mEt (prev : Option Char) (l : List Char) :
    Option (List Char × Char × List Char) :=
  if wcO prev then none
  else
    match matchCI "et".data l with
    | none => none
    | some (_, r1) =>
      let w := r1.takeWhile jsSpace
      if w.isEmpty then none
      else
        let r2 := r1.dropWhile jsSpace
        if lookNum r2 then some (", ".data, w.getLastD ' ', r2) else none

/-- Matcher for `/\s*[+−-]\s*/g` → `", "`. -/
def mOps (_prev : Option Char) (l : List Char) :
    Option (List Char × Char × List Char) :=
  match l.dropWhile jsSpace with
  | [] => none
  | c :: r2 =>
    if isOpChar c then
      let w2 := r2.takeWhile jsSpace
      let rest := r2.dropWhile jsSpace
      some (", ".data, (if w2.isEmpty then c else w2.getLastD ' '), rest)
    else none

/-- Matcher for `/\bfois\b/gi` → `"x"`. -/
def mFois (prev : Option Char) (l : List Char) :
    Option (List Char × Char × List Char) :=
  if wcO prev then none
  else
    match matchCI "fois".data l with
    | some (m, rest) =>
      if !wcO rest.head? then some ("x".data, m.getLastD 's', rest) else none
    | none => none

/-- The multiplication marks accepted by `[x×]` under `/i`. -/
def isXChar (c : Char) : Bool := c.toNat = 120 || c.toNat = 88 || c.toNat = 0xd7

/-- Matcher for `/\bm\s*(\d+)\s*[x×]\s*(\d+)\b/gi` → `M$1x$2`. -/
def mMx (prev : Option Char) (l : List Char) :
    Option (List Char × Char × List Char) :=
  if wcO prev then none
  else
    match l with
    | [] => none
    | c :: r1 =>
      if ciEq 'm' c then
        let r2 := r1.dropWhile jsSpace
        let d1 := r2.takeWhile digitChar
        if d1.isEmpty then none
        else
          let r3 := (r2.dropWhile digitChar).dropWhile jsSpace
          match r3 with
          | [] => none
          | x :: r4 =>
            if isXChar x then
              let r5 := r4.dropWhile jsSpace
              let d2 := r5.takeWhile digitChar
              if d2.isEmpty then none
              else
                let r6 := r5.dropWhile digitChar
                if !wcO r6.head? then
                  some ('M' :: (d1 ++ 'x' :: d2), d2.getLastD '0', r6)
                else none
            else none
      else none

/-- Matcher for `/\bm\s*(\d+)\b/gi` → `M$1`. -/
def mBareM (prev : Option Char) (l : List Char) :
    Option (List Char × Char × List Char) :=
  if wcO prev then none
  else
    match l with
    | [] => none
    | c :: r1 =>
      if ciEq 'm' c then
        let r2 := r1.dropWhile jsSpace
        let d1 := r2.takeWhile digitChar
        if d1.isEmpty then none
        else
          let r3 := r2.dropWhile digitChar
          if !wcO r3.head? then some ('M' :: d1, d1.getLastD '0', r3) else none
      else none

/-- `/\s+/g` → `" "`: collapse whitespace runs to single spaces; the
Boolean records whether the previous character was part of a run. -/
def collapseGo : Bool → List Char → List Char
  | _, [] => []
  | inWs, c :: r =>
    if jsSpace c then
      if inWs then collapseGo true r else ' ' :: collapseGo true r
    else c :: collapseGo false r

/-- `normalizeDictation` (`index.ts` lines 52–78). -/
def normalizeDictation (raw : String) : String :=
  let t0 := jsTrim raw.data
  let t1 := runScan mPointVirgule t0
  let t2 := runScan mVirgule t1
  let t3 := runScan mEt t2
  let t4 := runScan mOps t3
  let t5 := runScan mFois t4
  let t6 := runScan mMx t5
  let t7 := runScan mBareM t6
  String.mk (jsTrim (collapseGo false t7))


/-! ## Scan transcripts and fixpoint predicates (for C4)

`Tr M prev l out` is the transcript of the scanner `scanF M` on input
`l` in boundary context `prev`: the output is built from copied
characters and replacements.  `NoM M prev l` says the scan matches
nowhere, `SelfM M prev l` that every match replaces the matched text
with itself; either makes the scan the identity. -/

inductive Tr (M : Option Char → List Char → Option (List Char × Char × List Char)) :
    Option Char → List Char → List Char → Prop where
  | nil : ∀ prev, Tr M prev [] []
  | copy : ∀ prev c rest out, M prev (c :: rest) = none →
      Tr M (some c) rest out → Tr M prev (c :: rest) (c :: out)
  | repl : ∀ prev c rest r lastc rest' out,
      M prev (c :: rest) = some (r, lastc, rest') →
      Tr M (some lastc) rest' out →
      Tr M prev (c :: rest) (r ++ out)

inductive NoM (M : Option Char → List Char → Option (List Char × Char × List Char)) :
    Option Char → List Char → Prop where
  | nil : ∀ prev, NoM M prev []
  | cons : ∀ prev c rest, M prev (c :: rest) = none →
      NoM M (some c) rest → NoM M prev (c :: rest)

inductive SelfM (M : Option Char → List Char → Option (List Char × Char × List Char)) :
    Option Char → List Char → Prop where
  | nil : ∀ prev, SelfM M prev []
  | copy : ∀ prev c rest, M prev (c :: rest) = none →
      SelfM M (some c) rest → SelfM M prev (c :: rest)
  | self : ∀ prev c rest r lastc rest',
      M prev (c :: rest) = some (r, lastc, rest') →
      r ++ rest' = c :: rest → r ≠ [] →
      SelfM M (some lastc) rest' → SelfM M prev (c :: rest)

/-- Whitespace is in normal form: every whitespace character is a plain
space and no whitespace character is followed by another. -/
def noRun : List Char → Prop
  | [] => True
  | c :: r =>
    (jsSpace c = true → c = ' ' ∧ ∀ d, r.head? = some d → jsSpace d = false) ∧ noRun r

/-- Pairwise case-insensitive equality of a pattern and a matched text
(the relation underlying `matchCI`). -/
def ciEqList : List Char → List Char → Bool
  | [], [] => true
  | a :: w, c :: m => ciEq a c && ciEqList w m
  | _, _ => false

/-- The boundary context after scanning past `w`: the last character of
`w`, or the incoming context if `w` is empty. -/
def ctxAfter (ctx : Option Char) (w : List Char) : Option Char :=
  match w.getLast? with
  | none => ctx
  | some a => some a

/-- Characters that can start one of the number words of the `et`-rule
lookahead (case-insensitively). -/
def nwHead (d : Char) : Bool :=
  etNumWords.any (fun nw =>
    match nw.head? with
    | some e => ciEq e d
    | none => false)

/-- A canonical string: every pass of the normalizer leaves it
unchanged (the two `m`-rules may match, but only replacing a match with
itself). -/
def Canon (l : List Char) : Prop :=
  NoM mPointVirgule none l ∧ NoM mVirgule none l ∧ NoM mEt none l ∧
  NoM mOps none l ∧ NoM mFois none l ∧ SelfM mMx none l ∧ SelfM mBareM none l ∧
  collapseGo false l = l ∧ jsTrim l = l

/-- Pointwise form of `SelfM`: at every position of `l` (with the boundary
context accumulated from `ctx`), a match of `M` replaces the matched text
with itself. -/
def SelfAt (M : Option Char → List Char → Option (List Char × Char × List Char))
    (ctx : Option Char) (l : List Char) : Prop :=
  ∀ pre rest, l = pre ++ rest → ∀ r lc rest2,
    M (ctxAfter ctx pre) rest = some (r, lc, rest2) → r ++ rest2 = rest

/-- The whitespace-collapse pass `/\s+/g` → `" "` as a scanner matcher:
at a whitespace character it consumes the maximal run and emits a single
space. -/
def mCol (_prev : Option Char) (l : List Char) :
    Option (List Char × Char × List Char) :=
  match l with
  | [] => none
  | c :: r =>
    if jsSpace c then
      some ([' '], (c :: r.takeWhile jsSpace).getLastD ' ', r.dropWhile jsSpace)
    else none

/-! ## Aggregator (`backend/src/parsing.ts`, `getSummary`; also the
`/containers/:id/summary` route of `index.ts`)

A JS `Map` is embedded as an insertion-ordered association list (`set`
of a fresh key appends, `set` of a present key updates in place), which
is exactly the iteration order `Array.from(map.entries())` observes.

The stored quantities are JS numbers, i.e. IEEE-754 binary64 doubles;
a finite double is embedded as a `Frac` whose value (`Frac.toRat`) is
the double's exact rational value, and the `+` of the aggregation loop
is binary64 addition (`addF64`): exact rational addition of the
operands' values followed by `round64F`, the round-to-nearest-ties-to-
even rounding onto the binary64 grid (subnormal range included).
Overflow to an infinity — a sum whose rounded magnitude reaches
`2 ^ 1024` — is outside the model and never reached by any value
considered below.

The final `.sort((a, b) => a.itemLabel.localeCompare(b.itemLabel))` is
locale-dependent (`localeCompare` may even return 0 on distinct
labels), so it is not modelled; the theorems below only concern the
totals map the route serializes. -/

/-- Round the non-negative rational `a / b` to the nearest natural
number, ties to even (`b` is non-zero at every use site). -/
def rneNat (a b : Nat) : Nat :=
  let q := a / b
  let r := a % b
  if 2 * r < b then q
  else if b < 2 * r then q + 1
  else if q % 2 = 0 then q else q + 1

/-- Fuelled bit-length recursion; with fuel at least the bit length of
`n` it computes the bit length of `n` exactly. -/
def bitsF : Nat → Nat → Nat
  | 0, _ => 0
  | fuel + 1, n => if n = 0 then 0 else bitsF fuel (n / 2) + 1

/-- The bit length of `n` (the least `k` with `n < 2 ^ k`); `n` itself
always suffices as fuel. -/
def natBits (n : Nat) : Nat := bitsF n n

/-- Binary64 round-to-nearest-ties-to-even of a fraction: the IEEE-754
double nearest to the value of `f`, as a fraction `± m / 2 ^ k` or
`± m * 2 ^ k` whose numerator `m` is the rounded significand.  With
`e = ⌊log₂ |f|⌋` (computed from the bit lengths of numerator and
denominator with a one-step correction), the rounding grid is
`2 ^ (e - 52)` for normal magnitudes and is clamped at the subnormal
grid `2 ^ (-1074)`; ties go to the even multiple.  A carry to
`2 ^ (e + 1)` stays exact, so no second pass is needed; the overflow
range (magnitudes rounding to `2 ^ 1024`, which JS turns into an
infinity) is outside the model. -/
def round64F (f : Frac) : Frac :=
  if f.num = 0 then ⟨0, 1⟩
  else
    let n := f.num.natAbs
    let d := f.den.natAbs
    let e0 : ℤ := (natBits n : ℤ) - (natBits d : ℤ)
    let e : ℤ := if (d * 2 ^ e0.toNat : ℤ) ≤ n * 2 ^ (-e0).toNat then e0 else e0 - 1
    let ulp : ℤ := max e (-1022) - 52
    let m := rneNat (n * 2 ^ (-ulp).toNat) (d * 2 ^ ulp.toNat)
    let s : Int := if f.num * f.den < 0 then -1 else 1
    if 0 ≤ ulp then ⟨s * m * 2 ^ ulp.toNat, 1⟩ else ⟨s * m, 2 ^ (-ulp).toNat⟩

/-- JS `+` on finite doubles (with a finite result): exact rational
addition of the operands' values followed by binary64 rounding. -/
def addF64 (a b : Frac) : Frac :=
  round64F ⟨a.num * b.den + b.num * a.den, a.den * b.den⟩

/-- A container line as stored by the collaborator; `quantity` is the
stored double, embedded by its exact rational value. -/
structure CLine where
  itemLabel : String
  quantity : Frac
deriving DecidableEq, Repr

/-- `map.get(k)` on the association-list model. -/
def mapGet (m : List (String × Frac)) (k : String) : Option Frac :=
  (m.find? (fun p => p.1 = k)).map (fun p => p.2)

/-- `map.set(k, v)` on the association-list model: update in place or
append. -/
def mapSet (m : List (String × Frac)) (k : String) (v : Frac) : List (String × Frac) :=
  if m.any (fun p => p.1 = k) then
    m.map (fun p => if p.1 = k then (k, v) else p)
  else m ++ [(k, v)]

/-- One line folded into the totals map:
`agg.set(key, (agg.get(key) ?? 0) + l.quantity)`, the `+` being
binary64 addition. -/
def aggStep (m : List (String × Frac)) (l : CLine) : List (String × Frac) :=
  mapSet m l.itemLabel (addF64 ((mapGet m l.itemLabel).getD ⟨0, 1⟩) l.quantity)

/-- The totals map of a line sequence (the loop of `getSummary`). -/
def aggMap (lines : List CLine) : List (String × Frac) :=
  lines.foldl aggStep []

/-- A parse result whose error message, if any, is non-empty (used to
state that the evaluator only produces structured, human-readable
errors). -/
def ErrOk (r : Except String (Option Frac × List Char)) : Prop :=
  ∀ m, r = Except.error m → m ≠ ""

/-! # Theorems for the specification claims -/

lemma evalNumber_err (l : List Char) : ErrOk (evalNumber l) := by
  intro m h
  simp only [evalNumber] at h
  split at h
  · injection h with h'
    subst h'
    decide
  · exact absurd h (by simp)

/-- All parser-level error messages are non-empty, at every fuel level. -/
lemma evalAux_err (n : Nat) :
    (∀ l, ErrOk (evalFactor n l)) ∧ (∀ v l, ErrOk (evalTermLoop n v l)) ∧
    (∀ l, ErrOk (evalTerm n l)) ∧ (∀ v l, ErrOk (evalExprLoop n v l)) ∧
    (∀ l, ErrOk (evalExprP n l)) := by
  induction n with
  | zero =>
    refine ⟨fun l m h => ?_, fun v l m h => ?_, fun l m h => ?_,
            fun v l m h => ?_, fun l m h => ?_⟩ <;>
    · simp only [evalFactor, evalTermLoop, evalTerm, evalExprLoop, evalExprP] at h
      injection h with h'
      subst h'
      decide
  | succ n ih =>
    obtain ⟨ihF, ihTL, ihT, ihEL, ihE⟩ := ih
    refine ⟨?_, ?_, ?_, ?_, ?_⟩
    · -- evalFactor
      intro l m h
      simp only [evalFactor] at h
      split at h
      · exact ihF _ m h
      · split at h
        · exact absurd h (by simp)
        · rename_i heq
          injection h with h'
          exact h' ▸ ihF _ _ heq
      · split at h
        · split at h
          · exact absurd h (by simp)
          · injection h with h'
            subst h'
            decide
        · rename_i heq
          injection h with h'
          exact h' ▸ ihE _ _ heq
      · exact evalNumber_err _ m h
    · -- evalTermLoop
      intro v l m h
      simp only [evalTermLoop] at h
      split at h
      · split at h
        · exact ihTL _ _ m h
        · rename_i heq
          injection h with h'
          exact h' ▸ ihF _ _ heq
      · split at h
        · exact ihTL _ _ m h
        · rename_i heq
          injection h with h'
          exact h' ▸ ihF _ _ heq
      · exact absurd h (by simp)
    · -- evalTerm
      intro l m h
      simp only [evalTerm] at h
      split at h
      · exact ihTL _ _ m h
      · rename_i heq
        injection h with h'
        exact h' ▸ ihF _ _ heq
    · -- evalExprLoop
      intro v l m h
      simp only [evalExprLoop] at h
      split at h
      · split at h
        · exact ihEL _ _ m h
        · rename_i heq
          injection h with h'
          exact h' ▸ ihT _ _ heq
      · split at h
        · exact ihEL _ _ m h
        · rename_i heq
          injection h with h'
          exact h' ▸ ihT _ _ heq
      · exact absurd h (by simp)
    · -- evalExprP
      intro l m h
      simp only [evalExprP] at h
      split at h
      · exact ihEL _ _ m h
      · rename_i heq
        injection h with h'
        exact h' ▸ ihT _ _ heq

/-- C7: the expression evaluator is total over strings: every input
produces either a successful numeric value or a structured error with a
non-empty human-readable message; in particular division by zero yields
the structured error `"Résultat invalide"`, never an unstructured
failure. -/
theorem claim_C7 :
    (∀ s : String, (evalExprSafe s).error = none ∨
      ∃ m, (evalExprSafe s).error = some m ∧ m ≠ "") ∧
    evalExprSafe "1/0" = ⟨⟨0, 1⟩, some "Résultat invalide"⟩ := by
  refine ⟨fun s => ?_, by decide⟩
  simp only [evalExprSafe]
  split
  · exact Or.inr ⟨"Expression vide", rfl, by decide⟩
  · split
    · rename_i msg heq
      exact Or.inr ⟨msg, rfl, (evalAux_err _).2.2.2.2 _ msg heq⟩
    · split
      · rename_i c _ _
        refine Or.inr ⟨_, rfl, ?_⟩
        intro hcon
        have : ("Caractère inattendu: \"" ++ String.singleton c ++ "\"").length = 0 := by
          rw [hcon]
          rfl
        simp [String.length_append] at this
      · split
        · exact Or.inr ⟨"Résultat invalide", rfl, by decide⟩
        · exact Or.inl rfl

lemma leZero_false_iff (f : Frac) : Frac.leZero f = false ↔ 0 < f.toRat := by
  simp only [Frac.leZero, Frac.toRat, decide_eq_false_iff_not, not_le]
  constructor
  · intro hpos
    rcases mul_pos_iff.mp hpos with ⟨h1, h2⟩ | ⟨h1, h2⟩
    · exact div_pos (by exact_mod_cast h1) (by exact_mod_cast h2)
    · exact div_pos_of_neg_of_neg (by exact_mod_cast h1) (by exact_mod_cast h2)
  · intro hpos
    rcases div_pos_iff.mp hpos with ⟨h1, h2⟩ | ⟨h1, h2⟩
    · exact mul_pos (by exact_mod_cast h1) (by exact_mod_cast h2)
    · exact mul_pos_of_neg_of_neg (by exact_mod_cast h1) (by exact_mod_cast h2)

/-- C8 (counterexample): the claim states that whenever no line is added
only the status message changes; but on an evaluator error the source has
already stored the normalized segment in the expression draft
(`setExprDraft(expr)` precedes the error return), so the draft changes
too.  Concretely: active item `"a"`, empty draft, segment `"5)"` adds no
line yet sets the draft to `"5)"`. -/
theorem claim_C8_counterexample :
    (handleSegment ⟨"a", "", "", ⟨1, 1⟩, "c"⟩ "5)").2 = [] ∧
      (handleSegment ⟨"a", "", "", ⟨1, 1⟩, "c"⟩ "5)").1.exprDraft = "5)" ∧
      (SState.mk "a" "" "" ⟨1, 1⟩ "c").exprDraft ≠ "5)" := by decide

/-- C8 (amended): for every confirmed segment that does not match a
container or reference prefix, an add-line action is emitted iff an
active item label is set and evaluating the normalized segment succeeds
with a value strictly greater than 0; in every other case no line is
added, no other action is emitted, and only the status message and the
expression draft change (the active item, container label and quantity
field are unchanged). -/
theorem claim_C8_amended (st : SState) (seg : String)
    (hc : startsWithOne containerWords ((jsTrim seg.data).map latin1Lower) = false)
    (hr : startsWithOne refWords ((jsTrim seg.data).map latin1Lower) = false) :
    ((handleSegment st seg).2
        = [SAction.addLine st.activeItem
            (evalExprSafe (normalizeMathSpeech (String.mk (jsTrim seg.data)))).value]
      ↔ (jsTrim st.activeItem.data ≠ [] ∧
         (evalExprSafe (normalizeMathSpeech (String.mk (jsTrim seg.data)))).error = none ∧
         0 < (evalExprSafe (normalizeMathSpeech (String.mk (jsTrim seg.data)))).value.toRat)) ∧
    ((handleSegment st seg).2 = [] ∨
      (handleSegment st seg).2
        = [SAction.addLine st.activeItem
            (evalExprSafe (normalizeMathSpeech (String.mk (jsTrim seg.data)))).value]) ∧
    ((handleSegment st seg).2 = [] →
      (handleSegment st seg).1.activeItem = st.activeItem ∧
      (handleSegment st seg).1.containerLabel = st.containerLabel ∧
      (handleSegment st seg).1.qtyInput = st.qtyInput) := by
  by_cases hE : (jsTrim seg.data).isEmpty
  · have h0 : jsTrim seg.data = [] := by
      cases hl : jsTrim seg.data with
      | nil => rfl
      | cons a l => rw [hl] at hE; simp [List.isEmpty] at hE
    have hh : handleSegment st seg = (st, []) := by
      unfold handleSegment handleSegmentRW
      rw [if_pos hE]
    rw [hh, h0]
    refine ⟨?_, Or.inl rfl, fun _ => ⟨rfl, rfl, rfl⟩⟩
    constructor
    · intro h
      exact absurd h (by simp)
    · rintro ⟨-, herr, -⟩
      exact absurd herr (by decide)
  · have hh : handleSegment st seg =
        (if (jsTrim st.activeItem.data).isEmpty then dispatchNoRef st (jsTrim seg.data)
         else dispatchCalc st st (jsTrim seg.data)) := by
      unfold handleSegment handleSegmentRW
      rw [if_neg hE, if_neg (by rw [hc]; exact Bool.false_ne_true),
        if_neg (by rw [hr]; exact Bool.false_ne_true)]
    rw [hh]
    by_cases hA : (jsTrim st.activeItem.data).isEmpty
    · have hA0 : jsTrim st.activeItem.data = [] := by
        cases hl : jsTrim st.activeItem.data with
        | nil => rfl
        | cons a l => rw [hl] at hA; simp [List.isEmpty] at hA
      rw [if_pos hA]
      refine ⟨?_, Or.inl rfl, fun _ => ⟨rfl, rfl, rfl⟩⟩
      constructor
      · intro h
        exact absurd h (by simp [dispatchNoRef])
      · rintro ⟨hne, -, -⟩
        exact absurd hA0 hne
    · have hA' : jsTrim st.activeItem.data ≠ [] := by
        intro hcon
        rw [hcon] at hA
        simp [List.isEmpty] at hA
      rw [if_neg hA]
      unfold dispatchCalc
      cases hre : evalExprSafe (normalizeMathSpeech (String.mk (jsTrim seg.data))) with
      | mk v e =>
        cases e with
        | some msg => simp [dispatchCalcRes]
        | none =>
          cases hlz : Frac.leZero v with
          | true =>
            have hnp : ¬(0 < Frac.toRat v) := by
              intro hpos
              have hlf : Frac.leZero v = false := (leZero_false_iff v).mpr hpos
              rw [hlz] at hlf
              exact absurd hlf (by simp)
            simp [dispatchCalcRes, hlz, hnp]
          | false =>
            have hpos : 0 < Frac.toRat v := (leZero_false_iff v).mp hlz
            simp [dispatchCalcRes, hlz, hA', hpos]

/-! ## Scanner analysis (for C10 and C4) -/

lemma space_not_op (c : Char) (h : jsSpace c = true) : isOpChar c = false := by
  simp only [jsSpace, Bool.or_eq_true, Bool.and_eq_true, decide_eq_true_eq] at h
  simp only [isOpChar, Bool.or_eq_false_iff, decide_eq_false_iff_not]
  omega

lemma digit_not_op (c : Char) (h : digitChar c = true) : isOpChar c = false := by
  simp only [digitChar, Bool.and_eq_true, decide_eq_true_eq] at h
  simp only [isOpChar, Bool.or_eq_false_iff, decide_eq_false_iff_not]
  omega

lemma matchCI_some : ∀ (w l m rest : List Char), matchCI w l = some (m, rest) →
    rest.length + w.length = l.length ∧ rest ⊆ l := by
  intro w
  induction w with
  | nil =>
    intro l m rest h
    simp only [matchCI, Option.some.injEq, Prod.mk.injEq] at h
    obtain ⟨-, rfl⟩ := h
    exact ⟨by simp, fun c hc => hc⟩
  | cons a ws ih =>
    intro l m rest h
    cases l with
    | nil => exact absurd h (by simp [matchCI])
    | cons c cs =>
      simp only [matchCI] at h
      by_cases hci : ciEq a c = true
      · rw [if_pos hci] at h
        cases hm : matchCI ws cs with
        | none => rw [hm] at h; exact absurd h (by simp)
        | some t =>
          obtain ⟨m2, rest2⟩ := t
          rw [hm] at h
          simp only [Option.some.injEq, Prod.mk.injEq] at h
          obtain ⟨-, hr⟩ := h
          rw [← hr]
          obtain ⟨hlen, hsub⟩ := ih cs m2 rest2 hm
          constructor
          · simp only [List.length_cons]
            omega
          · exact fun d hd => List.mem_cons_of_mem c (hsub hd)
      · rw [if_neg hci] at h
        exact absurd h (by simp)

lemma mOps_some (prev : Option Char) (l repl : List Char) (lastc : Char)
    (rest' : List Char) (h : mOps prev l = some (repl, lastc, rest')) :
    repl = ", ".data ∧ rest'.length < l.length ∧ rest' ⊆ l := by
  unfold mOps at h
  split at h
  · simp at h
  · rename_i c r2 hd
    split at h
    · simp only [Option.some.injEq, Prod.mk.injEq] at h
      obtain ⟨rfl, -, rfl⟩ := h
      have hsub : (c :: r2) ⊆ l := by
        rw [← hd]
        exact (List.dropWhile_sublist _).subset
      have hlen : (c :: r2).length ≤ l.length := by
        rw [← hd]
        exact (List.dropWhile_sublist _).length_le
      refine ⟨rfl, ?_, ?_⟩
      · have h2 : (r2.dropWhile jsSpace).length ≤ r2.length :=
          (List.dropWhile_sublist _).length_le
        simp only [List.length_cons] at hlen
        omega
      · intro d hd2
        exact hsub (List.mem_cons_of_mem c ((List.dropWhile_sublist _).subset hd2))
    · simp at h

lemma mOps_none_head (prev : Option Char) (a : Char) (r : List Char)
    (h : mOps prev (a :: r) = none) : isOpChar a = false := by
  by_cases ha : jsSpace a = true
  · exact space_not_op a ha
  · by_cases hop : isOpChar a = true
    · exfalso
      unfold mOps at h
      rw [List.dropWhile_cons, if_neg (by simp [ha])] at h
      simp [hop] at h
    · simpa using hop

/-- Output of the operator-removal scan contains no operator characters
(each operator is consumed by a match and replaced with `", "`). -/
lemma scanF_mOps_no_op :
    ∀ (n : Nat) (l : List Char) (prev : Option Char), l.length ≤ n →
      ∀ c ∈ scanF mOps n prev l, isOpChar c = false := by
  intro n
  induction n with
  | zero =>
    intro l prev hlen c hc
    have h0 : l = [] := List.length_eq_zero.mp (Nat.le_zero.mp hlen)
    subst h0
    simp [scanF] at hc
  | succ n ih =>
    intro l prev hlen c hc
    cases l with
    | nil => simp [scanF] at hc
    | cons a r =>
      simp only [scanF] at hc
      cases hm : mOps prev (a :: r) with
      | none =>
        rw [hm] at hc
        simp only [List.mem_cons] at hc
        rcases hc with rfl | hc
        · exact mOps_none_head prev c r hm
        · exact ih r (some a) (by simpa using hlen) c hc
      | some t =>
        obtain ⟨repl, lastc, rest'⟩ := t
        rw [hm] at hc
        obtain ⟨hrepl, hlt, -⟩ := mOps_some prev (a :: r) repl lastc rest' hm
        rcases List.mem_append.mp hc with hcr | hcr
        · rw [hrepl] at hcr
          rcases List.mem_cons.mp hcr with rfl | hcr
          · decide
          · rcases List.mem_cons.mp hcr with rfl | hcr
            · decide
            · simp at hcr
        · refine ih rest' (some lastc) ?_ c hcr
          simp only [List.length_cons] at hlt hlen
          omega

/-- Generic preservation: a scan whose matches always replace with
operator-free text and consume at least one character keeps an
operator-free string operator-free. -/
lemma scanF_pres_no_op (M : Option Char → List Char → Option (List Char × Char × List Char))
    (hM : ∀ prev l repl lastc rest', M prev l = some (repl, lastc, rest') →
      (∀ c ∈ repl, isOpChar c = false) ∧ rest'.length < l.length ∧ rest' ⊆ l) :
    ∀ (n : Nat) (l : List Char) (prev : Option Char), l.length ≤ n →
      (∀ c ∈ l, isOpChar c = false) → ∀ c ∈ scanF M n prev l, isOpChar c = false := by
  intro n
  induction n with
  | zero =>
    intro l prev hlen hall c hc
    have h0 : l = [] := List.length_eq_zero.mp (Nat.le_zero.mp hlen)
    subst h0
    simp [scanF] at hc
  | succ n ih =>
    intro l prev hlen hall c hc
    cases l with
    | nil => simp [scanF] at hc
    | cons a r =>
      simp only [scanF] at hc
      cases hm : M prev (a :: r) with
      | none =>
        rw [hm] at hc
        rcases List.mem_cons.mp hc with rfl | hc
        · exact hall c (List.mem_cons_self c r)
        · exact ih r (some a) (by simpa using hlen)
            (fun d hd => hall d (List.mem_cons_of_mem a hd)) c hc
      | some t =>
        obtain ⟨repl, lastc, rest'⟩ := t
        rw [hm] at hc
        obtain ⟨hrepl, hlt, hsub⟩ := hM prev (a :: r) repl lastc rest' hm
        rcases List.mem_append.mp hc with hcr | hcr
        · exact hrepl c hcr
        · refine ih rest' (some lastc) ?_ (fun d hd => hall d (hsub hd)) c hcr
          simp only [List.length_cons] at hlt hlen
          omega

lemma mFois_hM (prev : Option Char) (l repl : List Char) (lastc : Char)
    (rest' : List Char) (h : mFois prev l = some (repl, lastc, rest')) :
    (∀ c ∈ repl, isOpChar c = false) ∧ rest'.length < l.length ∧ rest' ⊆ l := by
  unfold mFois at h
  split at h
  · simp at h
  · split at h
    · rename_i t m rest hm
      split at h
      · simp only [Option.some.injEq, Prod.mk.injEq] at h
        obtain ⟨rfl, -, rfl⟩ := h
        obtain ⟨hlen, hsub⟩ := matchCI_some _ _ _ _ hm
        refine ⟨?_, ?_, hsub⟩
        · intro c hc
          rcases List.mem_cons.mp hc with rfl | hc
          · decide
          · simp at hc
        · simp only [String.data, List.length_cons, List.length_nil] at hlen
          omega
      · simp at h
    · simp at h

lemma mMx_hM (prev : Option Char) (l repl : List Char) (lastc : Char)
    (rest' : List Char) (h : mMx prev l = some (repl, lastc, rest')) :
    (∀ c ∈ repl, isOpChar c = false) ∧ rest'.length < l.length ∧ rest' ⊆ l := by
  simp only [mMx] at h
  split at h
  · simp at h
  · split at h
    · simp at h
    · rename_i c r1
      split at h
      · split at h
        · simp at h
        · split at h
          · simp at h
          · rename_i x r4 hr3
            split at h
            · split at h
              · simp at h
              · split at h
                · simp only [Option.some.injEq, Prod.mk.injEq] at h
                  obtain ⟨rfl, -, rfl⟩ := h
                  have hr4sub : r4 ⊆ r1 := by
                    intro d hd
                    have h1 : d ∈ ((r1.dropWhile jsSpace).dropWhile digitChar).dropWhile jsSpace := by
                      rw [hr3]
                      exact List.mem_cons_of_mem x hd
                    exact (List.dropWhile_sublist _).subset
                      ((List.dropWhile_sublist _).subset ((List.dropWhile_sublist _).subset h1))
                  have hr4len : r4.length < r1.length := by
                    have h1 : (x :: r4).length ≤ r1.length := by
                      rw [← hr3]
                      exact le_trans (List.Sublist.length_le (List.dropWhile_sublist _))
                        (le_trans (List.Sublist.length_le (List.dropWhile_sublist _))
                          (List.Sublist.length_le (List.dropWhile_sublist _)))
                    simp only [List.length_cons] at h1
                    omega
                  refine ⟨?_, ?_, ?_⟩
                  · intro d hd
                    rcases List.mem_cons.mp hd with rfl | hd
                    · decide
                    · rcases List.mem_append.mp hd with hd | hd
                      · exact digit_not_op d (List.mem_takeWhile_imp hd)
                      · rcases List.mem_cons.mp hd with rfl | hd
                        · decide
                        · exact digit_not_op d (List.mem_takeWhile_imp hd)
                  · have h2 : ((r4.dropWhile jsSpace).dropWhile digitChar).length ≤ r4.length :=
                      le_trans (List.Sublist.length_le (List.dropWhile_sublist _))
                        (List.Sublist.length_le (List.dropWhile_sublist _))
                    simp only [List.length_cons]
                    omega
                  · intro d hd
                    exact List.mem_cons_of_mem c
                      (hr4sub ((List.dropWhile_sublist _).subset
                        ((List.dropWhile_sublist _).subset hd)))
                · simp at h
            · simp at h
      · simp at h

lemma mBareM_hM (prev : Option Char) (l repl : List Char) (lastc : Char)
    (rest' : List Char) (h : mBareM prev l = some (repl, lastc, rest')) :
    (∀ c ∈ repl, isOpChar c = false) ∧ rest'.length < l.length ∧ rest' ⊆ l := by
  simp only [mBareM] at h
  split at h
  · simp at h
  · split at h
    · simp at h
    · rename_i c r1
      split at h
      · split at h
        · simp at h
        · split at h
          · simp only [Option.some.injEq, Prod.mk.injEq] at h
            obtain ⟨rfl, -, rfl⟩ := h
            refine ⟨?_, ?_, ?_⟩
            · intro d hd
              rcases List.mem_cons.mp hd with rfl | hd
              · decide
              · exact digit_not_op d (List.mem_takeWhile_imp hd)
            · have h2 : ((r1.dropWhile jsSpace).dropWhile digitChar).length ≤ r1.length :=
                le_trans (List.Sublist.length_le (List.dropWhile_sublist _))
                  (List.Sublist.length_le (List.dropWhile_sublist _))
              simp only [List.length_cons]
              omega
            · intro d hd
              exact List.mem_cons_of_mem c
                ((List.dropWhile_sublist _).subset ((List.dropWhile_sublist _).subset hd))
          · simp at h
      · simp at h

lemma collapseGo_mem (c : Char) : ∀ (b : Bool) (l : List Char),
    c ∈ collapseGo b l → c = ' ' ∨ c ∈ l := by
  intro b l
  induction l generalizing b with
  | nil => intro h; simp [collapseGo] at h
  | cons a r ih =>
    intro h
    simp only [collapseGo] at h
    by_cases ha : jsSpace a = true
    · rw [if_pos ha] at h
      by_cases hb : b = true
      · rw [if_pos hb] at h
        rcases ih true h with h | h
        · exact Or.inl h
        · exact Or.inr (List.mem_cons_of_mem a h)
      · rw [if_neg hb] at h
        rcases List.mem_cons.mp h with rfl | h
        · exact Or.inl rfl
        · rcases ih true h with h | h
          · exact Or.inl h
          · exact Or.inr (List.mem_cons_of_mem a h)
    · rw [if_neg ha] at h
      rcases List.mem_cons.mp h with rfl | h
      · exact Or.inr (List.mem_cons_self c r)
      · rcases ih false h with h | h
        · exact Or.inl h
        · exact Or.inr (List.mem_cons_of_mem a h)

lemma jsTrim_subset (l : List Char) : jsTrim l ⊆ l := by
  intro c hc
  unfold jsTrim at hc
  rw [List.mem_reverse] at hc
  have h1 := (List.dropWhile_sublist jsSpace).subset hc
  rw [List.mem_reverse] at h1
  exact (List.dropWhile_sublist jsSpace).subset h1

lemma runScan_no_op_pres (M : Option Char → List Char → Option (List Char × Char × List Char))
    (hM : ∀ prev l repl lastc rest', M prev l = some (repl, lastc, rest') →
      (∀ c ∈ repl, isOpChar c = false) ∧ rest'.length < l.length ∧ rest' ⊆ l)
    (l : List Char) (h : ∀ c ∈ l, isOpChar c = false) :
    ∀ c ∈ runScan M l, isOpChar c = false := by
  intro c hc
  unfold runScan at hc
  exact scanF_pres_no_op M hM l.length l none le_rfl h c hc

lemma runScan_mOps_no_op (l : List Char) : ∀ c ∈ runScan mOps l, isOpChar c = false := by
  intro c hc
  unfold runScan at hc
  exact scanF_mOps_no_op l.length l none le_rfl c hc

/-! ## C4 machinery: transcripts and identity scans -/

lemma Tr_scanF (M : Option Char → List Char → Option (List Char × Char × List Char))
    (hM : ∀ prev l r lc rest', M prev l = some (r, lc, rest') → rest'.length < l.length) :
    ∀ (n : Nat) (prev : Option Char) (l : List Char), l.length ≤ n →
      Tr M prev l (scanF M n prev l) := by
  intro n
  induction n with
  | zero =>
    intro prev l hl
    have h0 : l = [] := List.length_eq_zero.mp (Nat.le_zero.mp hl)
    subst h0
    exact Tr.nil prev
  | succ n ih =>
    intro prev l hl
    cases l with
    | nil => exact Tr.nil prev
    | cons c rest =>
      cases hm : M prev (c :: rest) with
      | none =>
        have h2 : scanF M (n + 1) prev (c :: rest) = c :: scanF M n (some c) rest := by
          simp only [scanF, hm]
        rw [h2]
        exact Tr.copy prev c rest _ hm (ih (some c) rest (by simpa using hl))
      | some t =>
        obtain ⟨r, lastc, rest'⟩ := t
        have h2 : scanF M (n + 1) prev (c :: rest) = r ++ scanF M n (some lastc) rest' := by
          simp only [scanF, hm]
        rw [h2]
        have hlt := hM prev (c :: rest) r lastc rest' hm
        refine Tr.repl prev c rest r lastc rest' _ hm (ih (some lastc) rest' ?_)
        simp only [List.length_cons] at hlt hl
        omega

lemma scanF_id_of_NoM (M : Option Char → List Char → Option (List Char × Char × List Char))
    (prev : Option Char) (l : List Char) (h : NoM M prev l) :
    ∀ n, l.length ≤ n → scanF M n prev l = l := by
  induction h with
  | nil p => intro n hn; cases n <;> rfl
  | cons p c rest hm hno ih =>
    intro n hn
    cases n with
    | zero => simp at hn
    | succ n =>
      simp only [scanF, hm]
      rw [ih n (by simpa using hn)]

lemma scanF_id_of_SelfM (M : Option Char → List Char → Option (List Char × Char × List Char))
    (prev : Option Char) (l : List Char) (h : SelfM M prev l) :
    ∀ n, l.length ≤ n → scanF M n prev l = l := by
  induction h with
  | nil p => intro n hn; cases n <;> rfl
  | copy p c rest hm hno ih =>
    intro n hn
    cases n with
    | zero => simp at hn
    | succ n =>
      simp only [scanF, hm]
      rw [ih n (by simpa using hn)]
  | self p c rest r lastc rest' hm heq hne hself ih =>
    intro n hn
    cases n with
    | zero => simp at hn
    | succ n =>
      have hlen : rest'.length ≤ n := by
        have h1 := congrArg List.length heq
        simp only [List.length_append, List.length_cons] at h1
        have h2 : 0 < r.length := List.length_pos.mpr hne
        simp only [List.length_cons] at hn
        omega
      simp only [scanF, hm]
      rw [ih n hlen]
      exact heq

lemma runScan_id_of_NoM (M : Option Char → List Char → Option (List Char × Char × List Char))
    (l : List Char) (h : NoM M none l) : runScan M l = l :=
  scanF_id_of_NoM M none l h l.length le_rfl

lemma runScan_id_of_SelfM (M : Option Char → List Char → Option (List Char × Char × List Char))
    (l : List Char) (h : SelfM M none l) : runScan M l = l :=
  scanF_id_of_SelfM M none l h l.length le_rfl

lemma mVirgule_consume (prev : Option Char) (l r : List Char) (lc : Char)
    (rest' : List Char) (h : mVirgule prev l = some (r, lc, rest')) :
    rest'.length < l.length := by
  simp only [mVirgule] at h
  split at h
  · simp at h
  · split at h
    · rename_i t m rest hm
      split at h
      · simp only [Option.some.injEq, Prod.mk.injEq] at h
        obtain ⟨-, -, rfl⟩ := h
        have := (matchCI_some _ _ _ _ hm).1
        simp only [String.data, List.length_cons, List.length_nil] at this
        omega
      · simp at h
    · simp at h

lemma mEt_consume (prev : Option Char) (l r : List Char) (lc : Char)
    (rest' : List Char) (h : mEt prev l = some (r, lc, rest')) :
    rest'.length < l.length := by
  simp only [mEt] at h
  split at h
  · simp at h
  · split at h
    · simp at h
    · rename_i t m r1 hm
      split at h
      · simp at h
      · rename_i hw
        split at h
        · simp only [Option.some.injEq, Prod.mk.injEq] at h
          obtain ⟨-, -, rfl⟩ := h
          have h1 := (matchCI_some _ _ _ _ hm).1
          simp only [String.data, List.length_cons, List.length_nil] at h1
          have h2 : (r1.takeWhile jsSpace).length + (r1.dropWhile jsSpace).length = r1.length := by
            rw [← List.length_append, List.takeWhile_append_dropWhile]
          have h3 : 0 < (r1.takeWhile jsSpace).length := by
            rcases hq : r1.takeWhile jsSpace with _ | ⟨a, q⟩
            · rw [hq] at hw; simp at hw
            · simp
          omega
        · simp at h

/-! ## C4: whitespace normal form, collapse and trim fixpoints -/

lemma noRun_tail (c : Char) (r : List Char) (h : noRun (c :: r)) : noRun r := h.2

lemma noRun_append_right (a b : List Char) (h : noRun (a ++ b)) : noRun b := by
  induction a with
  | nil => exact h
  | cons c a2 ih => exact ih (noRun_tail c (a2 ++ b) h)

lemma noRun_append_left (a b : List Char) (h : noRun (a ++ b)) : noRun a := by
  induction a with
  | nil => trivial
  | cons c a2 ih =>
    obtain ⟨h1, h2⟩ := h
    refine ⟨?_, ih h2⟩
    intro hs
    obtain ⟨he, hd⟩ := h1 hs
    refine ⟨he, ?_⟩
    intro d hd2
    apply hd
    cases a2 with
    | nil => simp at hd2
    | cons e a3 => simpa using hd2

lemma collapseGo_true_head (l : List Char)
    (h : ∀ d, l.head? = some d → jsSpace d = false) :
    collapseGo true l = collapseGo false l := by
  cases l with
  | nil => rfl
  | cons c r =>
    have hc := h c rfl
    simp only [collapseGo, hc]
    simp

lemma collapseGo_fix (l : List Char) (h : noRun l) : collapseGo false l = l := by
  induction l with
  | nil => rfl
  | cons c r ih =>
    obtain ⟨h1, h2⟩ := h
    by_cases hc : jsSpace c = true
    · obtain ⟨he, hd⟩ := h1 hc
      simp only [collapseGo, hc, if_pos rfl]
      rw [collapseGo_true_head r hd, ih h2, he]
      simp
    · simp only [collapseGo, hc]
      simp only [Bool.false_eq_true, if_false]
      rw [ih h2]

lemma collapseGo_noRun : ∀ (l : List Char) (b : Bool),
    noRun (collapseGo b l) ∧
      (∀ d, (collapseGo true l).head? = some d → jsSpace d = false) := by
  intro l
  induction l with
  | nil => intro b; exact ⟨trivial, by intro d hd; simp [collapseGo] at hd⟩
  | cons c r ih =>
    intro b
    by_cases hc : jsSpace c = true
    · constructor
      · cases b with
        | true =>
          simp only [collapseGo, hc, if_pos rfl]
          exact (ih true).1
        | false =>
          simp only [collapseGo, hc, if_pos rfl]
          refine ⟨?_, (ih true).1⟩
          intro _
          exact ⟨rfl, (ih true).2⟩
      · intro d hd
        simp only [collapseGo, hc, if_pos rfl] at hd
        exact (ih true).2 d hd
    · constructor
      · have hout : collapseGo b (c :: r) = c :: collapseGo false r := by
          cases b <;> simp [collapseGo, hc]
        rw [hout]
        exact ⟨fun hs => absurd hs hc, (ih false).1⟩
      · intro d hd
        simp only [collapseGo, hc] at hd
        simp only [Bool.false_eq_true, if_false] at hd
        simp only [List.head?_cons, Option.some.injEq] at hd
        subst hd
        simpa using hc

lemma dropWhile_head_not (p : Char → Bool) (l : List Char) :
    ∀ c, (l.dropWhile p).head? = some c → p c = false := by
  induction l with
  | nil => intro c hc; simp [List.dropWhile] at hc
  | cons a r ih =>
    intro c hc
    rw [List.dropWhile_cons] at hc
    by_cases ha : p a = true
    · rw [if_pos ha] at hc
      exact ih c hc
    · rw [if_neg ha] at hc
      simp only [List.head?_cons, Option.some.injEq] at hc
      subst hc
      simpa using ha

lemma jsTrim_prefix (l : List Char) :
    jsTrim l ++ (((l.dropWhile jsSpace).reverse.takeWhile jsSpace).reverse) =
      l.dropWhile jsSpace := by
  have h1 := List.takeWhile_append_dropWhile (p := jsSpace)
    (l := (l.dropWhile jsSpace).reverse)
  have h2 := congrArg List.reverse h1
  simp only [List.reverse_append, List.reverse_reverse] at h2
  exact h2

lemma jsTrim_head (l : List Char) :
    ∀ c, (jsTrim l).head? = some c → jsSpace c = false := by
  intro c hc
  have hp := jsTrim_prefix l
  cases ht : jsTrim l with
  | nil => rw [ht] at hc; simp at hc
  | cons a w =>
    rw [ht] at hc
    simp only [List.head?_cons, Option.some.injEq] at hc
    rw [ht] at hp
    have h2 : (l.dropWhile jsSpace).head? = some a := by
      rw [← hp]; simp
    have h3 := dropWhile_head_not jsSpace l a h2
    rw [← hc]
    exact h3

lemma jsTrim_last (l : List Char) :
    ∀ c, (jsTrim l).getLast? = some c → jsSpace c = false := by
  intro c hc
  unfold jsTrim at hc
  rw [List.getLast?_reverse] at hc
  exact dropWhile_head_not jsSpace _ c hc

lemma jsTrim_eq_self (l : List Char)
    (hh : ∀ c, l.head? = some c → jsSpace c = false)
    (hl : ∀ c, l.getLast? = some c → jsSpace c = false) : jsTrim l = l := by
  have h1 : l.dropWhile jsSpace = l := by
    cases l with
    | nil => rfl
    | cons a r =>
      rw [List.dropWhile_cons, if_neg]
      simp [hh a rfl]
  have h2 : l.reverse.dropWhile jsSpace = l.reverse := by
    cases hr : l.reverse with
    | nil => simp
    | cons a r =>
      have hga : l.getLast? = some a := by
        rw [← List.head?_reverse, hr]; rfl
      rw [List.dropWhile_cons, if_neg (by simp [hl a hga])]
  unfold jsTrim
  rw [h1, h2, List.reverse_reverse]

lemma jsTrim_idem (l : List Char) : jsTrim (jsTrim l) = jsTrim l :=
  jsTrim_eq_self (jsTrim l) (jsTrim_head l) (jsTrim_last l)

lemma jsTrim_noRun (l : List Char) (h : noRun l) : noRun (jsTrim l) := by
  have ha : noRun (l.dropWhile jsSpace) := by
    have := List.takeWhile_append_dropWhile (p := jsSpace) (l := l)
    exact noRun_append_right _ _ (this ▸ h)
  have hp := jsTrim_prefix l
  exact noRun_append_left _ _ (hp ▸ ha)

lemma NoM_mOps_of_no_op (l : List Char) (hall : ∀ c ∈ l, isOpChar c = false) :
    ∀ prev, NoM mOps prev l := by
  induction l with
  | nil => intro prev; exact NoM.nil prev
  | cons c r ih =>
    intro prev
    refine NoM.cons prev c r ?_ (ih (fun d hd => hall d (List.mem_cons_of_mem c hd)) (some c))
    simp only [mOps]
    split
    · rfl
    · rename_i d r2 hd
      have hdm : d ∈ c :: r := by
        have h2 : d ∈ (c :: r).dropWhile jsSpace := by
          rw [hd]; exact List.mem_cons_self d r2
        exact (List.dropWhile_sublist _).subset h2
      rw [if_neg (by simp [hall d hdm])]

lemma canon_fixpoint (l : List Char) (h : Canon l) :
    normalizeDictation (String.mk l) = String.mk l := by
  obtain ⟨h1, h2, h3, h4, h5, h6, h7, hc, ht⟩ := h
  show String.mk (jsTrim (collapseGo false (runScan mBareM (runScan mMx (runScan mFois
    (runScan mOps (runScan mEt (runScan mVirgule (runScan mPointVirgule
      (jsTrim l)))))))))) = String.mk l
  rw [ht, runScan_id_of_NoM _ _ h1, runScan_id_of_NoM _ _ h2, runScan_id_of_NoM _ _ h3,
      runScan_id_of_NoM _ _ h4, runScan_id_of_NoM _ _ h5,
      runScan_id_of_SelfM _ _ h6, runScan_id_of_SelfM _ _ h7, hc, ht]

/-! ## C4: case folding and case-insensitive matching -/

lemma toNat_ofNat_lt (n : Nat) (h : n < 0xd800) : (Char.ofNat n).toNat = n := by
  unfold Char.ofNat Char.toNat
  split
  · rfl
  · omega

lemma latin1Lower_toNat (c : Char) : (latin1Lower c).toNat =
    if 65 ≤ c.toNat ∧ c.toNat ≤ 90 then c.toNat + 32
    else if 0xc0 ≤ c.toNat ∧ c.toNat ≤ 0xde ∧ c.toNat ≠ 0xd7 then c.toNat + 32
    else c.toNat := by
  unfold latin1Lower
  by_cases h1 : 65 ≤ c.toNat ∧ c.toNat ≤ 90
  · rw [if_pos (by simp only [Bool.and_eq_true, decide_eq_true_eq]; exact ⟨h1.1, h1.2⟩), if_pos h1]
    exact toNat_ofNat_lt _ (by omega)
  · have hng : ¬(('A' ≤ c && c ≤ 'Z') = true) := by
      simp only [Bool.and_eq_true, decide_eq_true_eq]
      exact fun hh => h1 ⟨hh.1, hh.2⟩
    rw [if_neg hng, if_neg h1]
    by_cases h2 : 0xc0 ≤ c.toNat ∧ c.toNat ≤ 0xde ∧ c.toNat ≠ 0xd7
    · rw [if_pos (by simp only [Bool.and_eq_true, decide_eq_true_eq, ne_eq]; omega), if_pos h2]
      exact toNat_ofNat_lt _ (by omega)
    · rw [if_neg (by simp only [Bool.and_eq_true, decide_eq_true_eq, ne_eq]; omega), if_neg h2]

lemma ciEq_lower_cases (a c : Char) (h97 : 97 ≤ a.toNat) (h122 : a.toNat ≤ 122)
    (h : ciEq a c = true) : c.toNat = a.toNat ∨ c.toNat + 32 = a.toNat := by
  simp only [ciEq, decide_eq_true_eq] at h
  have h2 := congrArg Char.toNat h
  rw [latin1Lower_toNat, latin1Lower_toNat] at h2
  rw [if_neg (by omega), if_neg (by omega)] at h2
  split at h2
  · right; omega
  · split at h2
    · rename_i hc1 hc2
      omega
    · left; omega

lemma ciEq_lower_word (a c : Char) (h97 : 97 ≤ a.toNat) (h122 : a.toNat ≤ 122)
    (h : ciEq a c = true) : wordChar c = true := by
  rcases ciEq_lower_cases a c h97 h122 h with h2 | h2 <;>
  · simp only [wordChar, Bool.or_eq_true, Bool.and_eq_true, decide_eq_true_eq]
    omega

lemma ciEqList_length : ∀ w m, ciEqList w m = true → m.length = w.length := by
  intro w
  induction w with
  | nil => intro m h; cases m with
    | nil => rfl
    | cons c m2 => simp [ciEqList] at h
  | cons a w2 ih =>
    intro m h
    cases m with
    | nil => simp [ciEqList] at h
    | cons c m2 =>
      simp only [ciEqList, Bool.and_eq_true] at h
      simp only [List.length_cons, ih m2 h.2]

lemma ciEqList_ne_nil (a : Char) (w m : List Char) (h : ciEqList (a :: w) m = true) :
    m ≠ [] := by
  cases m with
  | nil => simp [ciEqList] at h
  | cons c m2 => simp

lemma ciEqList_head : ∀ a w c m, ciEqList (a :: w) (c :: m) = true → ciEq a c = true := by
  intro a w c m h
  simp only [ciEqList, Bool.and_eq_true] at h
  exact h.1

lemma ciEqList_pairs : ∀ w m, ciEqList w m = true →
    ∀ c ∈ m, ∃ a ∈ w, ciEq a c = true := by
  intro w
  induction w with
  | nil => intro m h c hc; cases m with
    | nil => simp at hc
    | cons d m2 => simp [ciEqList] at h
  | cons a w2 ih =>
    intro m h c hc
    cases m with
    | nil => simp at hc
    | cons d m2 =>
      simp only [ciEqList, Bool.and_eq_true] at h
      rcases List.mem_cons.mp hc with rfl | hc
      · exact ⟨a, List.mem_cons_self a w2, h.1⟩
      · obtain ⟨b, hb, hbe⟩ := ih m2 h.2 c hc
        exact ⟨b, List.mem_cons_of_mem a hb, hbe⟩

lemma ciEqList_getLast : ∀ w m a c, ciEqList w m = true →
    w.getLast? = some a → m.getLast? = some c → ciEq a c = true := by
  intro w
  induction w with
  | nil => intro m a c h ha; simp at ha
  | cons b w2 ih =>
    intro m a c h ha hc
    cases m with
    | nil => simp [ciEqList] at h
    | cons d m2 =>
      simp only [ciEqList, Bool.and_eq_true] at h
      cases hw2 : w2 with
      | nil =>
        have hm2 : m2 = [] := by
          have := ciEqList_length w2 m2 h.2
          rw [hw2] at this
          exact List.length_eq_zero.mp this
        subst hw2; subst hm2
        simp only [List.getLast?_singleton, Option.some.injEq] at ha hc
        subst ha; subst hc
        exact h.1
      | cons e w3 =>
        have hm2 : m2 ≠ [] := by
          intro hh
          have := ciEqList_length w2 m2 h.2
          rw [hw2, hh] at this
          simp at this
        cases hm : m2 with
        | nil => exact absurd hm hm2
        | cons f m3 =>
          rw [hw2] at h
          rw [← hw2] at h
          subst hw2
          rw [List.getLast?_cons_cons] at ha
          rw [hm] at hc
          rw [List.getLast?_cons_cons] at hc
          rw [hm] at h
          exact ih (f :: m3) a c h.2 ha hc

lemma matchCI_some_iff : ∀ w l m rest,
    matchCI w l = some (m, rest) ↔ (ciEqList w m = true ∧ l = m ++ rest) := by
  intro w
  induction w with
  | nil =>
    intro l m rest
    constructor
    · intro h
      simp only [matchCI, Option.some.injEq, Prod.mk.injEq] at h
      obtain ⟨rfl, rfl⟩ := h
      exact ⟨rfl, rfl⟩
    · rintro ⟨h1, h2⟩
      cases m with
      | nil => simp only [matchCI]; rw [h2, List.nil_append]
      | cons c m2 => simp [ciEqList] at h1
  | cons a w2 ih =>
    intro l m rest
    cases l with
    | nil =>
      constructor
      · intro h; simp [matchCI] at h
      · rintro ⟨h1, h2⟩
        have : m = [] := by
          cases m with
          | nil => rfl
          | cons c m2 => simp at h2
        subst this
        simp [ciEqList] at h1
    | cons c cs =>
      constructor
      · intro h
        simp only [matchCI] at h
        by_cases hci : ciEq a c = true
        · rw [if_pos hci] at h
          cases hm : matchCI w2 cs with
          | none => rw [hm] at h; simp at h
          | some t =>
            obtain ⟨m2, rest2⟩ := t
            rw [hm] at h
            simp only [Option.some.injEq, Prod.mk.injEq] at h
            obtain ⟨rfl, rfl⟩ := h
            obtain ⟨hc1, hc2⟩ := (ih cs m2 _).mp hm
            refine ⟨?_, ?_⟩
            · simp only [ciEqList, Bool.and_eq_true]
              exact ⟨hci, hc1⟩
            · rw [List.cons_append, ← hc2]
        · rw [if_neg hci] at h
          simp at h
      · rintro ⟨h1, h2⟩
        cases m with
        | nil => simp [ciEqList] at h1
        | cons d m2 =>
          simp only [List.cons_append, List.cons.injEq] at h2
          obtain ⟨rfl, h2⟩ := h2
          simp only [ciEqList, Bool.and_eq_true] at h1
          simp only [matchCI, if_pos h1.1]
          rw [(ih cs m2 rest).mpr ⟨h1.2, h2⟩]

/-! ## C4: positional no-match reasoning and copied-block extraction -/

lemma ctxAfter_cons (ctx : Option Char) (a : Char) (w : List Char) :
    ctxAfter ctx (a :: w) = ctxAfter (some a) w := by
  cases w with
  | nil => rfl
  | cons b w2 =>
    unfold ctxAfter
    rw [List.getLast?_cons_cons]
    cases hg : (b :: w2).getLast? with
    | none => exact absurd hg (by simp)
    | some x => rfl

lemma NoM_at (M : Option Char → List Char → Option (List Char × Char × List Char)) :
    ∀ (pre : List Char) (ctx : Option Char) (l : List Char) (c : Char) (t : List Char),
      NoM M ctx l → l = pre ++ c :: t → M (ctxAfter ctx pre) (c :: t) = none := by
  intro pre
  induction pre with
  | nil =>
    intro ctx l c t hN heq
    subst heq
    cases hN with
    | cons _ _ _ h ht => exact h
  | cons a pre2 ih =>
    intro ctx l c t hN heq
    subst heq
    cases hN with
    | cons _ _ _ h ht =>
      rw [ctxAfter_cons]
      exact ih (some a) _ c t ht rfl

lemma NoM_drop (M : Option Char → List Char → Option (List Char × Char × List Char)) :
    ∀ (a : List Char) (ctx : Option Char) (l : List Char),
      NoM M ctx (a ++ l) → NoM M (ctxAfter ctx a) l := by
  intro a
  induction a with
  | nil => intro ctx l h; exact h
  | cons b a2 ih =>
    intro ctx l h
    rw [ctxAfter_cons]
    cases h with
    | cons _ _ _ hm ht => exact ih (some b) l ht

lemma NoM_retag (M : Option Char → List Char → Option (List Char × Char × List Char))
    (p1 p2 : Option Char) (l : List Char) (h : NoM M p1 l)
    (hh : ∀ c t, l = c :: t → M p2 (c :: t) = none) : NoM M p2 l := by
  cases h with
  | nil => exact NoM.nil p2
  | cons _ c rest hm ht => exact NoM.cons p2 c rest (hh c rest rfl) ht

lemma NoM_wcO (M : Option Char → List Char → Option (List Char × Char × List Char))
    (hext : ∀ q1 q2 s, wcO q1 = wcO q2 → M q1 s = M q2 s)
    (p1 p2 : Option Char) (l : List Char) (hw : wcO p1 = wcO p2) (h : NoM M p1 l) :
    NoM M p2 l := by
  cases h with
  | nil => exact NoM.nil p2
  | cons _ c rest hm ht =>
    exact NoM.cons p2 c rest (by rw [← hext p1 p2 _ hw]; exact hm) ht

lemma Tr_out_nil (M : Option Char → List Char → Option (List Char × Char × List Char))
    (hRne : ∀ ctx l r lc rest', M ctx l = some (r, lc, rest') → r ≠ [])
    (ctx : Option Char) (l out : List Char) (h : Tr M ctx l out) (heq : out = []) :
    l = [] := by
  cases h with
  | nil => rfl
  | copy _ c rest out2 hm htr => simp at heq
  | repl _ c rest r lc rest2 out2 hm htr =>
    rw [List.append_eq_nil] at heq
    exact absurd heq.1 (hRne _ _ _ _ _ hm)

lemma Tr_block (M : Option Char → List Char → Option (List Char × Char × List Char))
    (P0 : Char → Bool)
    (hMlead : ∀ ctx l r lc rest', M ctx l = some (r, lc, rest') →
       wcO ctx = false ∨ ∃ d rt, r = d :: rt ∧ wordChar d = false)
    (hMrepl : ∀ ctx l r lc rest', M ctx l = some (r, lc, rest') →
       ∃ d rt, r = d :: rt ∧ (wordChar d = false ∨ P0 d = false)) :
    ∀ (w : List Char) (ctx : Option Char) (l out z : List Char),
      Tr M ctx l out → out = w ++ z →
      (∀ c ∈ w, wordChar c = true) →
      ((∀ d, w.head? = some d → P0 d = true) ∨ wcO ctx = true) →
      ∃ z', l = w ++ z' ∧ Tr M (ctxAfter ctx w) z' z := by
  intro w
  induction w with
  | nil =>
    intro ctx l out z ht heq hw hst
    rw [List.nil_append] at heq
    subst heq
    exact ⟨l, rfl, ht⟩
  | cons a w2 ih =>
    intro ctx l out z ht heq hw hst
    cases ht with
    | nil => simp at heq
    | copy _ c rest out2 hm htr =>
      rw [List.cons_append] at heq
      injection heq with h1 h2
      subst h1
      have hwa : wordChar c = true := hw c (List.mem_cons_self c w2)
      obtain ⟨z', hz1, hz2⟩ := ih (some c) rest out2 z htr h2
        (fun d hd => hw d (List.mem_cons_of_mem c hd))
        (Or.inr (by simpa [wcO] using hwa))
      refine ⟨z', ?_, ?_⟩
      · rw [List.cons_append, ← hz1]
      · rw [ctxAfter_cons]
        exact hz2
    | repl _ c rest r lc rest2 out2 hm htr =>
      obtain ⟨d, rt, hr, hd⟩ := hMrepl _ _ _ _ _ hm
      subst hr
      rw [List.cons_append, List.cons_append] at heq
      injection heq with h1 h2
      subst h1
      have hwa : wordChar d = true := hw d (List.mem_cons_self d w2)
      rcases hd with hd | hd
      · rw [hwa] at hd
        exact absurd hd (by simp)
      · rcases hst with hst | hst
        · rw [hst d rfl] at hd
          exact absurd hd (by simp)
        · rcases hMlead _ _ _ _ _ hm with hl | ⟨d2, rt2, hr2, hd2⟩
          · rw [hst] at hl
            exact absurd hl (by simp)
          · injection hr2 with h3 h4
            subst h3
            rw [hwa] at hd2
            exact absurd hd2 (by simp)

lemma Tr_one (M : Option Char → List Char → Option (List Char × Char × List Char))
    (P0 : Char → Bool)
    (hMrepl : ∀ ctx l r lc rest', M ctx l = some (r, lc, rest') →
       ∃ dh rt, r = dh :: rt ∧ P0 dh = false)
    (ctx : Option Char) (l out : List Char) (d : Char) (z : List Char)
    (ht : Tr M ctx l out) (heq : out = d :: z) (hP : P0 d = true) :
    ∃ t', l = d :: t' ∧ Tr M (some d) t' z := by
  cases ht with
  | nil => simp at heq
  | copy _ c rest out2 hm htr =>
    injection heq with h1 h2
    subst h1
    subst h2
    exact ⟨rest, rfl, htr⟩
  | repl _ c rest r lc rest2 out2 hm htr =>
    obtain ⟨dh, rt, hr, hdh⟩ := hMrepl _ _ _ _ _ hm
    subst hr
    rw [List.cons_append] at heq
    injection heq with h1 h2
    subst h1
    rw [hP] at hdh
    exact absurd hdh (by simp)

/-! ## C4: characterizations of the word-pattern matchers -/

lemma getLast?_of_ne_nil (m : List Char) (d : Char) (h : m ≠ []) :
    m.getLast? = some (m.getLastD d) := by
  cases hm : m.getLast? with
  | none => exact absurd (List.getLast?_eq_none.mp hm) h
  | some a => rw [List.getLastD_eq_getLast?, hm]; rfl

lemma mVirgule_some_iff (ctx : Option Char) (s : List Char) :
    (∃ r0, mVirgule ctx s = some r0) ↔
    (wcO ctx = false ∧ ∃ m z, s = m ++ z ∧ ciEqList "virgule".data m = true ∧
      wcO z.head? = false) := by
  constructor
  · rintro ⟨r0, h⟩
    simp only [mVirgule] at h
    split at h
    · simp at h
    · rename_i hctx
      split at h
      · rename_i t m rest hm
        split at h
        · rename_i hb
          obtain ⟨hc, hs⟩ := (matchCI_some_iff _ _ _ _).mp hm
          exact ⟨by simpa using hctx, m, rest, hs, hc, by simpa using hb⟩
        · simp at h
      · simp at h
  · rintro ⟨hctx, m, z, hs, hc, hz⟩
    subst hs
    simp only [mVirgule]
    rw [if_neg (by simp [hctx])]
    have hmc := (matchCI_some_iff ("virgule".data) (m ++ z) m z).mpr ⟨hc, rfl⟩
    simp only [hmc]
    rw [if_pos (by simp [hz])]
    exact ⟨_, rfl⟩

lemma mVirgule_facts (ctx : Option Char) (s r : List Char) (lc : Char) (rest' : List Char)
    (h : mVirgule ctx s = some (r, lc, rest')) :
    wcO ctx = false ∧ r = ",".data ∧ wcO rest'.head? = false ∧
    ∃ m, s = m ++ rest' ∧ ciEqList "virgule".data m = true ∧ m.getLast? = some lc := by
  simp only [mVirgule] at h
  split at h
  · simp at h
  · rename_i hctx
    split at h
    · rename_i t m rest hm
      split at h
      · rename_i hb
        simp only [Option.some.injEq, Prod.mk.injEq] at h
        obtain ⟨rfl, rfl, rfl⟩ := h
        obtain ⟨hc, hs⟩ := (matchCI_some_iff _ _ _ _).mp hm
        have hmne : m ≠ [] := ciEqList_ne_nil _ _ _ (by exact hc)
        exact ⟨by simpa using hctx, rfl, by simpa using hb,
          m, hs, hc, getLast?_of_ne_nil m _ hmne⟩
      · simp at h
    · simp at h

lemma mVirgule_wcOext (p1 p2 : Option Char) (s : List Char) (hw : wcO p1 = wcO p2) :
    mVirgule p1 s = mVirgule p2 s := by
  simp only [mVirgule, hw]

lemma mVirgule_head_none (ctx : Option Char) (c : Char) (t : List Char)
    (hci : ciEq 'v' c = false) : mVirgule ctx (c :: t) = none := by
  have hmc : matchCI "virgule".data (c :: t) = none := by
    rw [show ("virgule".data : List Char) = 'v' :: "irgule".data from rfl]
    simp only [matchCI]
    rw [if_neg (by simp [hci])]
  simp only [mVirgule, hmc]
  split <;> rfl

lemma mFois_some_iff (ctx : Option Char) (s : List Char) :
    (∃ r0, mFois ctx s = some r0) ↔
    (wcO ctx = false ∧ ∃ m z, s = m ++ z ∧ ciEqList "fois".data m = true ∧
      wcO z.head? = false) := by
  constructor
  · rintro ⟨r0, h⟩
    simp only [mFois] at h
    split at h
    · simp at h
    · rename_i hctx
      split at h
      · rename_i t m rest hm
        split at h
        · rename_i hb
          obtain ⟨hc, hs⟩ := (matchCI_some_iff _ _ _ _).mp hm
          exact ⟨by simpa using hctx, m, rest, hs, hc, by simpa using hb⟩
        · simp at h
      · simp at h
  · rintro ⟨hctx, m, z, hs, hc, hz⟩
    subst hs
    simp only [mFois]
    rw [if_neg (by simp [hctx])]
    have hmc := (matchCI_some_iff ("fois".data) (m ++ z) m z).mpr ⟨hc, rfl⟩
    simp only [hmc]
    rw [if_pos (by simp [hz])]
    exact ⟨_, rfl⟩

lemma mFois_facts (ctx : Option Char) (s r : List Char) (lc : Char) (rest' : List Char)
    (h : mFois ctx s = some (r, lc, rest')) :
    wcO ctx = false ∧ r = "x".data ∧ wcO rest'.head? = false ∧
    ∃ m, s = m ++ rest' ∧ ciEqList "fois".data m = true ∧ m.getLast? = some lc := by
  simp only [mFois] at h
  split at h
  · simp at h
  · rename_i hctx
    split at h
    · rename_i t m rest hm
      split at h
      · rename_i hb
        simp only [Option.some.injEq, Prod.mk.injEq] at h
        obtain ⟨rfl, rfl, rfl⟩ := h
        obtain ⟨hc, hs⟩ := (matchCI_some_iff _ _ _ _).mp hm
        have hmne : m ≠ [] := ciEqList_ne_nil _ _ _ (by exact hc)
        exact ⟨by simpa using hctx, rfl, by simpa using hb,
          m, hs, hc, getLast?_of_ne_nil m _ hmne⟩
      · simp at h
    · simp at h

lemma mFois_wcOext (p1 p2 : Option Char) (s : List Char) (hw : wcO p1 = wcO p2) :
    mFois p1 s = mFois p2 s := by
  simp only [mFois, hw]

lemma mFois_head_none (ctx : Option Char) (c : Char) (t : List Char)
    (hci : ciEq 'f' c = false) : mFois ctx (c :: t) = none := by
  have hmc : matchCI "fois".data (c :: t) = none := by
    rw [show ("fois".data : List Char) = 'f' :: "ois".data from rfl]
    simp only [matchCI]
    rw [if_neg (by simp [hci])]
  simp only [mFois, hmc]
  split <;> rfl

/-! ## C4: the generic preservation engine for word-pattern matchers -/

lemma Tr_inv (M : Option Char → List Char → Option (List Char × Char × List Char))
    (ctx2 : Option Char) (z' out : List Char) (h : Tr M ctx2 z' out) :
    (z' = [] ∧ out = []) ∨
    (∃ c t' out2, z' = c :: t' ∧ out = c :: out2 ∧ M ctx2 z' = none ∧
      Tr M (some c) t' out2) ∨
    (∃ r2 lc2 rest2 out3, M ctx2 z' = some (r2, lc2, rest2) ∧ out = r2 ++ out3 ∧
      Tr M (some lc2) rest2 out3) := by
  cases h with
  | nil => exact Or.inl ⟨rfl, rfl⟩
  | copy _ c rest out2 hm htr => exact Or.inr (Or.inl ⟨c, rest, out2, rfl, rfl, hm, htr⟩)
  | repl _ c rest r lc rest2 out2 hm htr =>
    exact Or.inr (Or.inr ⟨r, lc, rest2, out2, hm, rfl, htr⟩)

lemma ciEqList_word (w m : List Char)
    (hw : ∀ a ∈ w, 97 ≤ a.toNat ∧ a.toNat ≤ 122) (h : ciEqList w m = true) :
    ∀ c ∈ m, wordChar c = true := by
  intro c hc
  obtain ⟨a, ha, hae⟩ := ciEqList_pairs w m h c hc
  exact ciEq_lower_word a c (hw a ha).1 (hw a ha).2 hae

lemma ciword_head_none
    (P : Option Char → List Char → Option (List Char × Char × List Char))
    (a0 : Char) (pwt : List Char)
    (hPiff : ∀ ctx s, (∃ r0, P ctx s = some r0) ↔
      (wcO ctx = false ∧ ∃ m z, s = m ++ z ∧ ciEqList (a0 :: pwt) m = true ∧
        wcO z.head? = false))
    (ctx : Option Char) (c : Char) (t : List Char) (hci : ciEq a0 c = false) :
    P ctx (c :: t) = none := by
  cases hP : P ctx (c :: t) with
  | none => rfl
  | some r0 =>
    obtain ⟨hctx, m, z, hs, hc, hz⟩ := (hPiff ctx (c :: t)).mp ⟨r0, hP⟩
    cases m with
    | nil => simp [ciEqList] at hc
    | cons cm m2 =>
      rw [List.cons_append] at hs
      injection hs with h1 h2
      subst h1
      rw [ciEqList_head a0 pwt c m2 hc] at hci
      exact absurd hci (by simp)

lemma ciword_Pnone_ext
    (P : Option Char → List Char → Option (List Char × Char × List Char))
    (a0 : Char) (pwt : List Char)
    (hPiff : ∀ ctx s, (∃ r0, P ctx s = some r0) ↔
      (wcO ctx = false ∧ ∃ m z, s = m ++ z ∧ ciEqList (a0 :: pwt) m = true ∧
        wcO z.head? = false))
    (p1 p2 : Option Char) (s : List Char) (hw : wcO p1 = wcO p2)
    (h : P p1 s = none) : P p2 s = none := by
  cases hP : P p2 s with
  | none => rfl
  | some r0 =>
    obtain ⟨hctx, m, z, hs, hc, hz⟩ := (hPiff p2 s).mp ⟨r0, hP⟩
    obtain ⟨r1, hr1⟩ := (hPiff p1 s).mpr ⟨by rw [hw]; exact hctx, m, z, hs, hc, hz⟩
    rw [h] at hr1
    exact absurd hr1 (by simp)

lemma ciword_NoM_ext
    (P : Option Char → List Char → Option (List Char × Char × List Char))
    (a0 : Char) (pwt : List Char)
    (hPiff : ∀ ctx s, (∃ r0, P ctx s = some r0) ↔
      (wcO ctx = false ∧ ∃ m z, s = m ++ z ∧ ciEqList (a0 :: pwt) m = true ∧
        wcO z.head? = false))
    (p1 p2 : Option Char) (l : List Char) (hw : wcO p1 = wcO p2)
    (h : NoM P p1 l) : NoM P p2 l := by
  cases h with
  | nil => exact NoM.nil p2
  | cons _ c rest hm ht =>
    exact NoM.cons p2 c rest (ciword_Pnone_ext P a0 pwt hPiff p1 p2 _ hw hm) ht

lemma ciword_splice
    (P : Option Char → List Char → Option (List Char × Char × List Char))
    (a0 : Char) (pwt : List Char)
    (hPiff : ∀ ctx s, (∃ r0, P ctx s = some r0) ↔
      (wcO ctx = false ∧ ∃ m z, s = m ++ z ∧ ciEqList (a0 :: pwt) m = true ∧
        wcO z.head? = false)) :
    ∀ (r : List Char) (ctx0 : Option Char) (out2 : List Char),
      (∀ d ∈ r, ciEq a0 d = false) → NoM P (ctxAfter ctx0 r) out2 →
      NoM P ctx0 (r ++ out2) := by
  intro r
  induction r with
  | nil => intro ctx0 out2 hr hN; exact hN
  | cons a r2 ih =>
    intro ctx0 out2 hr hN
    rw [List.cons_append]
    refine NoM.cons ctx0 a (r2 ++ out2)
      (ciword_head_none P a0 pwt hPiff ctx0 a _ (hr a (List.mem_cons_self a r2))) ?_
    rw [ctxAfter_cons] at hN
    exact ih (some a) out2 (fun d hd => hr d (List.mem_cons_of_mem a hd)) hN

lemma ciword_transport
    (P M : Option Char → List Char → Option (List Char × Char × List Char))
    (a0 : Char) (pwt : List Char)
    (hpw : ∀ a ∈ (a0 :: pwt), 97 ≤ a.toNat ∧ a.toNat ≤ 122)
    (hPiff : ∀ ctx s, (∃ r0, P ctx s = some r0) ↔
      (wcO ctx = false ∧ ∃ m z, s = m ++ z ∧ ciEqList (a0 :: pwt) m = true ∧
        wcO z.head? = false))
    (hMlead : ∀ ctx l r lc rest', M ctx l = some (r, lc, rest') →
       wcO ctx = false ∨ ∃ d rt, r = d :: rt ∧ wordChar d = false)
    (hMrepl : ∀ ctx l r lc rest', M ctx l = some (r, lc, rest') →
       ∃ d rt, r = d :: rt ∧ (wordChar d = false ∨ ciEq a0 d = false))
    (hMbound : ∀ ctx l r lc rest', M ctx l = some (r, lc, rest') →
       wcO ctx = false ∨ wcO l.head? = false)
    (ctx : Option Char) (c : Char) (rest out2 : List Char)
    (htr : Tr M (some c) rest out2)
    (hsome : ∃ r0, P ctx (c :: out2) = some r0) :
    ∃ r1, P ctx (c :: rest) = some r1 := by
  obtain ⟨hctx, m, z, hs, hc, hz⟩ := (hPiff ctx (c :: out2)).mp hsome
  cases m with
  | nil => simp [ciEqList] at hc
  | cons cm m2 =>
    rw [List.cons_append] at hs
    injection hs with h1 h2
    subst h1
    have hmw : ∀ d ∈ (c :: m2), wordChar d = true :=
      ciEqList_word (a0 :: pwt) (c :: m2) hpw hc
    obtain ⟨z', hz1, hz2⟩ := Tr_block M (fun d => ciEq a0 d) hMlead hMrepl
      m2 (some c) rest out2 z htr h2
      (fun d hd => hmw d (List.mem_cons_of_mem c hd))
      (Or.inr (by simpa [wcO] using hmw c (List.mem_cons_self c m2)))
    have hrw : c :: rest = (c :: m2) ++ z' := by rw [List.cons_append, hz1]
    rcases Tr_inv M _ _ _ hz2 with ⟨hz'nil, hznil⟩ | ⟨zd, t', out3, hzd1, hzd2, hmn, _⟩ |
      ⟨r2, lc2, rest2, out3, hm2, hzeq, _⟩
    · exact (hPiff ctx (c :: rest)).mpr ⟨hctx, c :: m2, z', hrw, hc,
        by rw [hz'nil]; rfl⟩
    · refine (hPiff ctx (c :: rest)).mpr ⟨hctx, c :: m2, z', hrw, hc, ?_⟩
      rw [hzd1]
      rw [hzd2] at hz
      exact hz
    · rcases hMbound _ _ _ _ _ hm2 with hb | hb
      · exfalso
        have hctx2 : wcO (ctxAfter (some c) m2) = true := by
          unfold ctxAfter
          cases hgl : m2.getLast? with
          | none =>
            have : m2 = [] := List.getLast?_eq_none.mp hgl
            subst this
            simpa [wcO] using hmw c (List.mem_cons_self c [])
          | some a =>
            have ham : a ∈ c :: m2 :=
              List.mem_cons_of_mem c (List.mem_of_mem_getLast? hgl)
            simpa [wcO] using hmw a ham
        rw [hb] at hctx2
        exact absurd hctx2 (by simp)
      · exact (hPiff ctx (c :: rest)).mpr ⟨hctx, c :: m2, z', hrw, hc, hb⟩

lemma gen_NoM_ext
    (P : Option Char → List Char → Option (List Char × Char × List Char))
    (hPext : ∀ p1 p2 s, wcO p1 = wcO p2 → P p1 s = none → P p2 s = none)
    (p1 p2 : Option Char) (l : List Char) (hw : wcO p1 = wcO p2)
    (h : NoM P p1 l) : NoM P p2 l := by
  cases h with
  | nil => exact NoM.nil p2
  | cons _ c rest hm ht => exact NoM.cons p2 c rest (hPext p1 p2 _ hw hm) ht

lemma gen_splice
    (P : Option Char → List Char → Option (List Char × Char × List Char)) :
    ∀ (r : List Char) (ctx0 : Option Char) (out2 : List Char),
      (∀ d ∈ r, ∀ ctx2 t2, P ctx2 (d :: t2) = none) →
      NoM P (ctxAfter ctx0 r) out2 → NoM P ctx0 (r ++ out2) := by
  intro r
  induction r with
  | nil => intro ctx0 out2 hr hN; exact hN
  | cons a r2 ih =>
    intro ctx0 out2 hr hN
    rw [List.cons_append]
    refine NoM.cons ctx0 a (r2 ++ out2) (hr a (List.mem_cons_self a r2) ctx0 _) ?_
    rw [ctxAfter_cons] at hN
    exact ih (some a) out2 (fun d hd => hr d (List.mem_cons_of_mem a hd)) hN

lemma gen_junction
    (P M : Option Char → List Char → Option (List Char × Char × List Char))
    (hPheadW : ∀ ctx c t, wordChar c = false → P ctx (c :: t) = none)
    (hPext : ∀ p1 p2 s, wcO p1 = wcO p2 → P p1 s = none → P p2 s = none)
    (hMlead : ∀ ctx l r lc rest', M ctx l = some (r, lc, rest') →
       wcO ctx = false ∨ ∃ d rt, r = d :: rt ∧ wordChar d = false) :
    ∀ (ctx0 : Option Char) (r : List Char) (lc : Char) (rest' out2 : List Char),
      ((∃ rl, r.getLast? = some rl ∧ wordChar rl = wordChar lc) ∨
        (wordChar lc = true ∧ wcO rest'.head? = false)) →
      Tr M (some lc) rest' out2 → NoM P (some lc) out2 →
      NoM P (ctxAfter ctx0 r) out2 := by
  intro ctx0 r lc rest' out2 hJ htr hN2
  rcases hJ with ⟨rl, hrl, hrw⟩ | ⟨hlcw, hrh⟩
  · have hce : ctxAfter ctx0 r = some rl := by unfold ctxAfter; rw [hrl]
    rw [hce]
    exact gen_NoM_ext P hPext (some lc) (some rl) out2 (by simp [wcO, hrw]) hN2
  · refine NoM_retag P (some lc) (ctxAfter ctx0 r) out2 hN2 ?_
    intro cz t heq
    rcases Tr_inv M _ _ _ htr with ⟨h1, h2⟩ | ⟨czc, t', out3, hzd1, hzd2, hmn, _⟩ |
      ⟨r2, lc2, rest2, out3, hm2, hzeq, _⟩
    · rw [h2] at heq; simp at heq
    · rw [hzd2] at heq
      injection heq with hh1 hh2
      subst hh1
      refine hPheadW _ czc t ?_
      rw [hzd1] at hrh
      simpa [wcO] using hrh
    · rcases hMlead _ _ _ _ _ hm2 with hb | ⟨d2, rt2, hr2, hd2⟩
      · rw [show wcO (some lc) = wordChar lc from rfl, hlcw] at hb
        exact absurd hb (by simp)
      · subst hr2
        rw [List.cons_append] at hzeq
        rw [hzeq] at heq
        injection heq with hh1 hh2
        subst hh1
        exact hPheadW _ d2 t hd2

lemma gen_pres
    (P M : Option Char → List Char → Option (List Char × Char × List Char))
    (hPheadW : ∀ ctx c t, wordChar c = false → P ctx (c :: t) = none)
    (hPext : ∀ p1 p2 s, wcO p1 = wcO p2 → P p1 s = none → P p2 s = none)
    (htrans : ∀ ctx c rest out2, Tr M (some c) rest out2 →
       P ctx (c :: rest) = none → P ctx (c :: out2) = none)
    (hMlead : ∀ ctx l r lc rest', M ctx l = some (r, lc, rest') →
       wcO ctx = false ∨ ∃ d rt, r = d :: rt ∧ wordChar d = false)
    (hMcons : ∀ ctx l r lc rest', M ctx l = some (r, lc, rest') →
       ∃ con, l = con ++ rest' ∧ con ≠ [] ∧ con.getLast? = some lc)
    (hMrchars : ∀ ctx l r lc rest', M ctx l = some (r, lc, rest') →
       ∀ d ∈ r, ∀ ctx2 t2, P ctx2 (d :: t2) = none)
    (hJunc : ∀ ctx l r lc rest', M ctx l = some (r, lc, rest') →
       (∃ rl, r.getLast? = some rl ∧ wordChar rl = wordChar lc) ∨
       (wordChar lc = true ∧ wcO rest'.head? = false)) :
    ∀ (ctx : Option Char) (l out : List Char),
      Tr M ctx l out → NoM P ctx l → NoM P ctx out := by
  intro ctx l out ht
  induction ht with
  | nil prev => intro h; exact h
  | copy prev c rest out2 hm htr ih =>
    intro hN
    have hNt : NoM P (some c) rest := by cases hN with | cons _ _ _ h ht2 => exact ht2
    have hNh : P prev (c :: rest) = none := by cases hN with | cons _ _ _ h ht2 => exact h
    exact NoM.cons prev c out2 (htrans prev c rest out2 htr hNh) (ih hNt)
  | repl prev c rest r lc rest' out2 hm htr ih =>
    intro hN
    obtain ⟨con, hcon, hconne, hconl⟩ := hMcons _ _ _ _ _ hm
    have hNr : NoM P (some lc) rest' := by
      have h2 := NoM_drop P con prev rest' (by rw [← hcon]; exact hN)
      rwa [show ctxAfter prev con = some lc from by unfold ctxAfter; rw [hconl]] at h2
    have hN2 : NoM P (some lc) out2 := ih hNr
    have hJ := gen_junction P M hPheadW hPext hMlead prev r lc rest' out2
      (hJunc _ _ _ _ _ hm) htr hN2
    exact gen_splice P r prev out2 (hMrchars _ _ _ _ _ hm) hJ

lemma gen_post
    (P : Option Char → List Char → Option (List Char × Char × List Char))
    (hPheadW : ∀ ctx c t, wordChar c = false → P ctx (c :: t) = none)
    (hPext : ∀ p1 p2 s, wcO p1 = wcO p2 → P p1 s = none → P p2 s = none)
    (htrans : ∀ ctx c rest out2, Tr P (some c) rest out2 →
       P ctx (c :: rest) = none → P ctx (c :: out2) = none)
    (hPlead : ∀ ctx l r lc rest', P ctx l = some (r, lc, rest') →
       wcO ctx = false ∨ ∃ d rt, r = d :: rt ∧ wordChar d = false)
    (hPrchars : ∀ ctx l r lc rest', P ctx l = some (r, lc, rest') →
       ∀ d ∈ r, ∀ ctx2 t2, P ctx2 (d :: t2) = none)
    (hJunc : ∀ ctx l r lc rest', P ctx l = some (r, lc, rest') →
       (∃ rl, r.getLast? = some rl ∧ wordChar rl = wordChar lc) ∨
       (wordChar lc = true ∧ wcO rest'.head? = false)) :
    ∀ (ctx : Option Char) (l out : List Char),
      Tr P ctx l out → NoM P ctx out := by
  intro ctx l out ht
  induction ht with
  | nil prev => exact NoM.nil prev
  | copy prev c rest out2 hm htr ih =>
    exact NoM.cons prev c out2 (htrans prev c rest out2 htr hm) ih
  | repl prev c rest r lc rest' out2 hm htr ih =>
    have hJ := gen_junction P P hPheadW hPext hPlead prev r lc rest' out2
      (hJunc _ _ _ _ _ hm) htr ih
    exact gen_splice P r prev out2 (hPrchars _ _ _ _ _ hm) hJ

/-! ## C4: matcher facts for the scan stages -/

lemma space_not_word (c : Char) (h : jsSpace c = true) : wordChar c = false := by
  simp only [jsSpace, Bool.or_eq_true, Bool.and_eq_true, decide_eq_true_eq] at h
  simp only [wordChar, Bool.or_eq_false_iff, Bool.and_eq_false_iff,
    decide_eq_false_iff_not]
  omega

lemma op_not_word (c : Char) (h : isOpChar c = true) : wordChar c = false := by
  simp only [isOpChar, Bool.or_eq_true, decide_eq_true_eq] at h
  simp only [wordChar, Bool.or_eq_false_iff, Bool.and_eq_false_iff,
    decide_eq_false_iff_not]
  omega

lemma digit_word (c : Char) (h : digitChar c = true) : wordChar c = true := by
  simp only [digitChar, Bool.and_eq_true, decide_eq_true_eq] at h
  simp only [wordChar, Bool.or_eq_true, Bool.and_eq_true, decide_eq_true_eq]
  omega

lemma ciEq_letter_digit (a0 : Char) (h97 : 97 ≤ a0.toNat) (h122 : a0.toNat ≤ 122)
    (d : Char) (hd : digitChar d = true) : ciEq a0 d = false := by
  cases hci : ciEq a0 d with
  | false => rfl
  | true =>
    exfalso
    simp only [digitChar, Bool.and_eq_true, decide_eq_true_eq] at hd
    rcases ciEq_lower_cases a0 d h97 h122 hci with h2 | h2 <;> omega

lemma getLastD_mem (w : List Char) (d : Char) (h : w ≠ []) : w.getLastD d ∈ w :=
  List.mem_of_mem_getLast? (getLast?_of_ne_nil w d h)

lemma mOps_facts (ctx : Option Char) (s r : List Char) (lc : Char) (rest' : List Char)
    (h : mOps ctx s = some (r, lc, rest')) :
    r = ", ".data ∧ wordChar lc = false ∧ (∀ d, s.head? = some d → wordChar d = false) ∧
    ∃ con, s = con ++ rest' ∧ con ≠ [] ∧ con.getLast? = some lc := by
  simp only [mOps] at h
  split at h
  · simp at h
  · rename_i c r2 hd
    split at h
    · rename_i hop
      simp only [Option.some.injEq, Prod.mk.injEq] at h
      obtain ⟨rfl, rfl, rfl⟩ := h
      have hsplit : s = s.takeWhile jsSpace ++ (c :: r2) := by
        rw [← hd, List.takeWhile_append_dropWhile]
      have hr2 : r2 = r2.takeWhile jsSpace ++ r2.dropWhile jsSpace :=
        (List.takeWhile_append_dropWhile jsSpace r2).symm
      have htw : ∀ a ∈ s.takeWhile jsSpace, jsSpace a = true :=
        fun a ha => List.mem_takeWhile_imp ha
      have hw2 : ∀ a ∈ r2.takeWhile jsSpace, jsSpace a = true :=
        fun a ha => List.mem_takeWhile_imp ha
      refine ⟨rfl, ?_, ?_, ?_⟩
      · split
        · exact op_not_word c hop
        · rename_i hne
          have : r2.takeWhile jsSpace ≠ [] := by
            intro hh; rw [hh] at hne; simp at hne
          exact space_not_word _ (hw2 _ (getLastD_mem _ _ this))
      · intro d hdh
        rw [hsplit] at hdh
        cases htws : s.takeWhile jsSpace with
        | nil =>
          rw [htws] at hdh
          simp only [List.nil_append, List.head?_cons, Option.some.injEq] at hdh
          rw [← hdh]
          exact op_not_word c hop
        | cons a tw2 =>
          rw [htws] at hdh
          simp only [List.cons_append, List.head?_cons, Option.some.injEq] at hdh
          subst hdh
          exact space_not_word a (htw a (by rw [htws]; exact List.mem_cons_self a tw2))
      · refine ⟨s.takeWhile jsSpace ++ c :: r2.takeWhile jsSpace, ?_, ?_, ?_⟩
        · rw [List.append_assoc, List.cons_append, ← hr2, ← hsplit]
        · intro hh
          rcases List.append_eq_nil.mp hh with ⟨-, h2⟩
          simp at h2
        · rw [List.getLast?_append_cons]
          split
          · rename_i hemp
            have : r2.takeWhile jsSpace = [] := by
              cases hq : r2.takeWhile jsSpace with
              | nil => rfl
              | cons a q => rw [hq] at hemp; simp at hemp
            rw [this]
            rfl
          · rename_i hne
            have hne2 : r2.takeWhile jsSpace ≠ [] := by
              intro hh; rw [hh] at hne; simp at hne
            rw [show (c :: r2.takeWhile jsSpace) = [c] ++ r2.takeWhile jsSpace from rfl,
              List.getLast?_append_of_ne_nil _ hne2]
            exact getLast?_of_ne_nil _ _ hne2
    · simp at h

lemma mEt_facts (ctx : Option Char) (s r : List Char) (lc : Char) (rest' : List Char)
    (h : mEt ctx s = some (r, lc, rest')) :
    wcO ctx = false ∧ r = ", ".data ∧ wordChar lc = false ∧
    ∃ con, s = con ++ rest' ∧ con ≠ [] ∧ con.getLast? = some lc := by
  simp only [mEt] at h
  split at h
  · simp at h
  · rename_i hctx
    split at h
    · simp at h
    · rename_i t m0 r1 hm
      split at h
      · simp at h
      · rename_i hw
        split at h
        · simp only [Option.some.injEq, Prod.mk.injEq] at h
          obtain ⟨rfl, rfl, rfl⟩ := h
          obtain ⟨hc, hs⟩ := (matchCI_some_iff _ _ _ _).mp hm
          have hwne : r1.takeWhile jsSpace ≠ [] := by
            intro hh; rw [hh] at hw; simp at hw
          have hwsp : ∀ a ∈ r1.takeWhile jsSpace, jsSpace a = true :=
            fun a ha => List.mem_takeWhile_imp ha
          refine ⟨by simpa using hctx, rfl,
            space_not_word _ (hwsp _ (getLastD_mem _ _ hwne)), ?_⟩
          refine ⟨m0 ++ r1.takeWhile jsSpace, ?_, ?_, ?_⟩
          · rw [List.append_assoc, List.takeWhile_append_dropWhile, ← hs]
          · intro hh
            rcases List.append_eq_nil.mp hh with ⟨-, h2⟩
            exact hwne h2
          · rw [List.getLast?_append_of_ne_nil _ hwne]
            exact getLast?_of_ne_nil _ _ hwne
        · simp at h

lemma mMx_facts (ctx : Option Char) (s r : List Char) (lc : Char) (rest' : List Char)
    (h : mMx ctx s = some (r, lc, rest')) :
    wcO ctx = false ∧ wcO rest'.head? = false ∧
    ∃ d1 d2 : List Char, (∀ a ∈ d1, digitChar a = true) ∧ (∀ a ∈ d2, digitChar a = true) ∧
      d1 ≠ [] ∧ d2 ≠ [] ∧ r = 'M' :: (d1 ++ 'x' :: d2) ∧ lc = d2.getLastD '0' ∧
      ∃ front, s = (front ++ d2) ++ rest' ∧ front ≠ [] ∧
        (front ++ d2).getLast? = some lc := by
  simp only [mMx] at h
  split at h
  · simp at h
  · split at h
    · simp at h
    · rename_i hctx x0 c r1
      split at h
      · rename_i hcm
        split at h
        · simp at h
        · rename_i hd1
          split at h
          · simp at h
          · rename_i x r4 hr3
            split at h
            · rename_i hx
              split at h
              · simp at h
              · rename_i hd2
                split at h
                · rename_i hb
                  simp only [Option.some.injEq, Prod.mk.injEq] at h
                  obtain ⟨rfl, rfl, rfl⟩ := h
                  have hd1ne : (r1.dropWhile jsSpace).takeWhile digitChar ≠ [] := by
                    intro hh; rw [hh] at hd1; simp at hd1
                  have hd2ne : (r4.dropWhile jsSpace).takeWhile digitChar ≠ [] := by
                    intro hh; rw [hh] at hd2; simp at hd2
                  have A5 : r4.dropWhile jsSpace =
                      (r4.dropWhile jsSpace).takeWhile digitChar ++
                      (r4.dropWhile jsSpace).dropWhile digitChar :=
                    (List.takeWhile_append_dropWhile _ _).symm
                  have A4 : r4 = r4.takeWhile jsSpace ++
                      ((r4.dropWhile jsSpace).takeWhile digitChar ++
                       (r4.dropWhile jsSpace).dropWhile digitChar) := by
                    conv_lhs => rw [(List.takeWhile_append_dropWhile jsSpace r4).symm]
                    rw [← A5]
                  have A3 : (r1.dropWhile jsSpace).dropWhile digitChar =
                      ((r1.dropWhile jsSpace).dropWhile digitChar).takeWhile jsSpace ++
                      (x :: (r4.takeWhile jsSpace ++
                        ((r4.dropWhile jsSpace).takeWhile digitChar ++
                         (r4.dropWhile jsSpace).dropWhile digitChar))) := by
                    conv_lhs => rw [(List.takeWhile_append_dropWhile jsSpace
                      ((r1.dropWhile jsSpace).dropWhile digitChar)).symm, hr3]
                    rw [← A4]
                  have A2 : r1.dropWhile jsSpace =
                      (r1.dropWhile jsSpace).takeWhile digitChar ++
                      (((r1.dropWhile jsSpace).dropWhile digitChar).takeWhile jsSpace ++
                      (x :: (r4.takeWhile jsSpace ++
                        ((r4.dropWhile jsSpace).takeWhile digitChar ++
                         (r4.dropWhile jsSpace).dropWhile digitChar)))) := by
                    conv_lhs => rw [(List.takeWhile_append_dropWhile digitChar
                      (r1.dropWhile jsSpace)).symm]
                    rw [← A3]
                  have A1 : r1 = r1.takeWhile jsSpace ++
                      ((r1.dropWhile jsSpace).takeWhile digitChar ++
                      (((r1.dropWhile jsSpace).dropWhile digitChar).takeWhile jsSpace ++
                      (x :: (r4.takeWhile jsSpace ++
                        ((r4.dropWhile jsSpace).takeWhile digitChar ++
                         (r4.dropWhile jsSpace).dropWhile digitChar))))) := by
                    conv_lhs => rw [(List.takeWhile_append_dropWhile jsSpace r1).symm]
                    rw [← A2]
                  refine ⟨by simpa using hctx, by simpa using hb,
                    (r1.dropWhile jsSpace).takeWhile digitChar,
                    (r4.dropWhile jsSpace).takeWhile digitChar,
                    fun a ha => List.mem_takeWhile_imp ha,
                    fun a ha => List.mem_takeWhile_imp ha,
                    hd1ne, hd2ne, rfl, rfl,
                    c :: (r1.takeWhile jsSpace ++
                      ((r1.dropWhile jsSpace).takeWhile digitChar ++
                      (((r1.dropWhile jsSpace).dropWhile digitChar).takeWhile jsSpace ++
                      x :: r4.takeWhile jsSpace))), ?_, by simp, ?_⟩
                  · conv_lhs => rw [A1]
                    simp [List.append_assoc]
                  · rw [List.getLast?_append_of_ne_nil _ hd2ne]
                    exact getLast?_of_ne_nil _ _ hd2ne
                · simp at h
            · simp at h
      · simp at h

lemma mBareM_facts (ctx : Option Char) (s r : List Char) (lc : Char) (rest' : List Char)
    (h : mBareM ctx s = some (r, lc, rest')) :
    wcO ctx = false ∧ wcO rest'.head? = false ∧
    ∃ d1 : List Char, (∀ a ∈ d1, digitChar a = true) ∧ d1 ≠ [] ∧
      r = 'M' :: d1 ∧ lc = d1.getLastD '0' ∧
      ∃ front, s = (front ++ d1) ++ rest' ∧ front ≠ [] ∧
        (front ++ d1).getLast? = some lc := by
  simp only [mBareM] at h
  split at h
  · simp at h
  · split at h
    · simp at h
    · rename_i hctx x0 c r1
      split at h
      · rename_i hcm
        split at h
        · simp at h
        · rename_i hd1
          split at h
          · rename_i hb
            simp only [Option.some.injEq, Prod.mk.injEq] at h
            obtain ⟨rfl, rfl, rfl⟩ := h
            have hd1ne : (r1.dropWhile jsSpace).takeWhile digitChar ≠ [] := by
              intro hh; rw [hh] at hd1; simp at hd1
            have A2 : r1.dropWhile jsSpace =
                (r1.dropWhile jsSpace).takeWhile digitChar ++
                (r1.dropWhile jsSpace).dropWhile digitChar :=
              (List.takeWhile_append_dropWhile _ _).symm
            have A1 : r1 = r1.takeWhile jsSpace ++
                ((r1.dropWhile jsSpace).takeWhile digitChar ++
                 (r1.dropWhile jsSpace).dropWhile digitChar) := by
              conv_lhs => rw [(List.takeWhile_append_dropWhile jsSpace r1).symm]
              rw [← A2]
            refine ⟨by simpa using hctx, by simpa using hb,
              (r1.dropWhile jsSpace).takeWhile digitChar,
              fun a ha => List.mem_takeWhile_imp ha, hd1ne, rfl, rfl,
              c :: r1.takeWhile jsSpace, ?_, by simp, ?_⟩
            · conv_lhs => rw [A1]
              simp [List.append_assoc]
            · rw [List.getLast?_append_of_ne_nil _ hd1ne]
              exact getLast?_of_ne_nil _ _ hd1ne
          · simp at h
      · simp at h

/-! ## C4: engine fact bundles for each scan stage -/

lemma nonword_not_ciEq (a0 c : Char) (h97 : 97 ≤ a0.toNat) (h122 : a0.toNat ≤ 122)
    (hw : wordChar c = false) : ciEq a0 c = false := by
  cases hci : ciEq a0 c with
  | false => rfl
  | true =>
    rw [ciEq_lower_word a0 c h97 h122 hci] at hw
    exact absurd hw (by simp)

lemma ciword_trans
    (P M : Option Char → List Char → Option (List Char × Char × List Char))
    (a0 : Char) (pwt : List Char)
    (hpw : ∀ a ∈ (a0 :: pwt), 97 ≤ a.toNat ∧ a.toNat ≤ 122)
    (hPiff : ∀ ctx s, (∃ r0, P ctx s = some r0) ↔
      (wcO ctx = false ∧ ∃ m z, s = m ++ z ∧ ciEqList (a0 :: pwt) m = true ∧
        wcO z.head? = false))
    (hMlead : ∀ ctx l r lc rest', M ctx l = some (r, lc, rest') →
       wcO ctx = false ∨ ∃ d rt, r = d :: rt ∧ wordChar d = false)
    (hMrepl : ∀ ctx l r lc rest', M ctx l = some (r, lc, rest') →
       ∃ d rt, r = d :: rt ∧ (wordChar d = false ∨ ciEq a0 d = false))
    (hMbound : ∀ ctx l r lc rest', M ctx l = some (r, lc, rest') →
       wcO ctx = false ∨ wcO l.head? = false) :
    ∀ ctx c rest out2, Tr M (some c) rest out2 →
      P ctx (c :: rest) = none → P ctx (c :: out2) = none := by
  intro ctx c rest out2 htr hnone
  cases hP : P ctx (c :: out2) with
  | none => rfl
  | some r0 =>
    obtain ⟨r1, hr1⟩ := ciword_transport P M a0 pwt hpw hPiff hMlead hMrepl hMbound
      ctx c rest out2 htr ⟨r0, hP⟩
    rw [hnone] at hr1
    exact absurd hr1 (by simp)

lemma mVirgule_Mlead (ctx : Option Char) (l r : List Char) (lc : Char) (rest' : List Char)
    (hm : mVirgule ctx l = some (r, lc, rest')) :
    wcO ctx = false ∨ ∃ d rt, r = d :: rt ∧ wordChar d = false :=
  Or.inl (mVirgule_facts _ _ _ _ _ hm).1

lemma mVirgule_Mbound (ctx : Option Char) (l r : List Char) (lc : Char) (rest' : List Char)
    (hm : mVirgule ctx l = some (r, lc, rest')) :
    wcO ctx = false ∨ wcO l.head? = false :=
  Or.inl (mVirgule_facts _ _ _ _ _ hm).1

lemma mVirgule_Mcons (ctx : Option Char) (l r : List Char) (lc : Char) (rest' : List Char)
    (hm : mVirgule ctx l = some (r, lc, rest')) :
    ∃ con, l = con ++ rest' ∧ con ≠ [] ∧ con.getLast? = some lc := by
  obtain ⟨-, -, -, m, hs, hc, hgl⟩ := mVirgule_facts _ _ _ _ _ hm
  exact ⟨m, hs, ciEqList_ne_nil _ _ _ hc, hgl⟩

lemma mVirgule_Mjunc (ctx : Option Char) (l r : List Char) (lc : Char) (rest' : List Char)
    (hm : mVirgule ctx l = some (r, lc, rest')) :
    (∃ rl, r.getLast? = some rl ∧ wordChar rl = wordChar lc) ∨
    (wordChar lc = true ∧ wcO rest'.head? = false) := by
  obtain ⟨-, -, hb, m, hs, hc, hgl⟩ := mVirgule_facts _ _ _ _ _ hm
  refine Or.inr ⟨?_, hb⟩
  have hce : ciEq 'e' lc = true :=
    ciEqList_getLast ("virgule".data) m 'e' lc hc (by decide) hgl
  exact ciEq_lower_word 'e' lc (by decide) (by decide) hce

lemma mFois_Mlead (ctx : Option Char) (l r : List Char) (lc : Char) (rest' : List Char)
    (hm : mFois ctx l = some (r, lc, rest')) :
    wcO ctx = false ∨ ∃ d rt, r = d :: rt ∧ wordChar d = false :=
  Or.inl (mFois_facts _ _ _ _ _ hm).1

lemma mFois_Mbound (ctx : Option Char) (l r : List Char) (lc : Char) (rest' : List Char)
    (hm : mFois ctx l = some (r, lc, rest')) :
    wcO ctx = false ∨ wcO l.head? = false :=
  Or.inl (mFois_facts _ _ _ _ _ hm).1

lemma mFois_Mcons (ctx : Option Char) (l r : List Char) (lc : Char) (rest' : List Char)
    (hm : mFois ctx l = some (r, lc, rest')) :
    ∃ con, l = con ++ rest' ∧ con ≠ [] ∧ con.getLast? = some lc := by
  obtain ⟨-, -, -, m, hs, hc, hgl⟩ := mFois_facts _ _ _ _ _ hm
  exact ⟨m, hs, ciEqList_ne_nil _ _ _ hc, hgl⟩

lemma mFois_Mjunc (ctx : Option Char) (l r : List Char) (lc : Char) (rest' : List Char)
    (hm : mFois ctx l = some (r, lc, rest')) :
    (∃ rl, r.getLast? = some rl ∧ wordChar rl = wordChar lc) ∨
    (wordChar lc = true ∧ wcO rest'.head? = false) := by
  obtain ⟨-, hr, -, m, hs, hc, hgl⟩ := mFois_facts _ _ _ _ _ hm
  subst hr
  refine Or.inl ⟨'x', by decide, ?_⟩
  have hce : ciEq 's' lc = true :=
    ciEqList_getLast ("fois".data) m 's' lc hc (by decide) hgl
  rw [ciEq_lower_word 's' lc (by decide) (by decide) hce]
  decide

lemma mOps_Mlead (ctx : Option Char) (l r : List Char) (lc : Char) (rest' : List Char)
    (hm : mOps ctx l = some (r, lc, rest')) :
    wcO ctx = false ∨ ∃ d rt, r = d :: rt ∧ wordChar d = false := by
  obtain ⟨hr, -, -, -⟩ := mOps_facts _ _ _ _ _ hm
  subst hr
  exact Or.inr ⟨',', [' '], by decide, by decide⟩

lemma mOps_Mbound (ctx : Option Char) (l r : List Char) (lc : Char) (rest' : List Char)
    (hm : mOps ctx l = some (r, lc, rest')) :
    wcO ctx = false ∨ wcO l.head? = false := by
  obtain ⟨-, -, hh, -⟩ := mOps_facts _ _ _ _ _ hm
  refine Or.inr ?_
  cases hl : l.head? with
  | none => rfl
  | some d => simpa [wcO] using hh d hl

lemma mOps_Mcons (ctx : Option Char) (l r : List Char) (lc : Char) (rest' : List Char)
    (hm : mOps ctx l = some (r, lc, rest')) :
    ∃ con, l = con ++ rest' ∧ con ≠ [] ∧ con.getLast? = some lc :=
  (mOps_facts _ _ _ _ _ hm).2.2.2

lemma mOps_Mjunc (ctx : Option Char) (l r : List Char) (lc : Char) (rest' : List Char)
    (hm : mOps ctx l = some (r, lc, rest')) :
    (∃ rl, r.getLast? = some rl ∧ wordChar rl = wordChar lc) ∨
    (wordChar lc = true ∧ wcO rest'.head? = false) := by
  obtain ⟨hr, hlc, -, -⟩ := mOps_facts _ _ _ _ _ hm
  subst hr
  exact Or.inl ⟨' ', by decide, by rw [hlc]; decide⟩

lemma mEt_Mlead (ctx : Option Char) (l r : List Char) (lc : Char) (rest' : List Char)
    (hm : mEt ctx l = some (r, lc, rest')) :
    wcO ctx = false ∨ ∃ d rt, r = d :: rt ∧ wordChar d = false :=
  Or.inl (mEt_facts _ _ _ _ _ hm).1

lemma mEt_Mbound (ctx : Option Char) (l r : List Char) (lc : Char) (rest' : List Char)
    (hm : mEt ctx l = some (r, lc, rest')) :
    wcO ctx = false ∨ wcO l.head? = false :=
  Or.inl (mEt_facts _ _ _ _ _ hm).1

lemma mEt_Mcons (ctx : Option Char) (l r : List Char) (lc : Char) (rest' : List Char)
    (hm : mEt ctx l = some (r, lc, rest')) :
    ∃ con, l = con ++ rest' ∧ con ≠ [] ∧ con.getLast? = some lc :=
  (mEt_facts _ _ _ _ _ hm).2.2.2

lemma mEt_Mjunc (ctx : Option Char) (l r : List Char) (lc : Char) (rest' : List Char)
    (hm : mEt ctx l = some (r, lc, rest')) :
    (∃ rl, r.getLast? = some rl ∧ wordChar rl = wordChar lc) ∨
    (wordChar lc = true ∧ wcO rest'.head? = false) := by
  obtain ⟨-, hr, hlc, -⟩ := mEt_facts _ _ _ _ _ hm
  subst hr
  exact Or.inl ⟨' ', by decide, by rw [hlc]; decide⟩

lemma mMx_Mlead (ctx : Option Char) (l r : List Char) (lc : Char) (rest' : List Char)
    (hm : mMx ctx l = some (r, lc, rest')) :
    wcO ctx = false ∨ ∃ d rt, r = d :: rt ∧ wordChar d = false :=
  Or.inl (mMx_facts _ _ _ _ _ hm).1

lemma mMx_Mbound (ctx : Option Char) (l r : List Char) (lc : Char) (rest' : List Char)
    (hm : mMx ctx l = some (r, lc, rest')) :
    wcO ctx = false ∨ wcO l.head? = false :=
  Or.inl (mMx_facts _ _ _ _ _ hm).1

lemma mMx_Mcons (ctx : Option Char) (l r : List Char) (lc : Char) (rest' : List Char)
    (hm : mMx ctx l = some (r, lc, rest')) :
    ∃ con, l = con ++ rest' ∧ con ≠ [] ∧ con.getLast? = some lc := by
  obtain ⟨-, -, d1, d2, -, -, -, hd2ne, -, -, front, hs, hfne, hgl⟩ := mMx_facts _ _ _ _ _ hm
  refine ⟨front ++ d2, hs, ?_, hgl⟩
  intro hh
  rcases List.append_eq_nil.mp hh with ⟨h1, -⟩
  exact hfne h1

lemma mMx_Mjunc (ctx : Option Char) (l r : List Char) (lc : Char) (rest' : List Char)
    (hm : mMx ctx l = some (r, lc, rest')) :
    (∃ rl, r.getLast? = some rl ∧ wordChar rl = wordChar lc) ∨
    (wordChar lc = true ∧ wcO rest'.head? = false) := by
  obtain ⟨-, hb, d1, d2, -, hd2dig, -, hd2ne, hr, hlc, -⟩ := mMx_facts _ _ _ _ _ hm
  subst hr
  refine Or.inl ⟨lc, ?_, rfl⟩
  rw [show ('M' :: (d1 ++ 'x' :: d2)) = ('M' :: d1) ++ 'x' :: d2 from by simp,
    List.getLast?_append_cons,
    show ('x' :: d2) = ['x'] ++ d2 from rfl,
    List.getLast?_append_of_ne_nil _ hd2ne, hlc]
  exact getLast?_of_ne_nil _ _ hd2ne

lemma mBareM_Mlead (ctx : Option Char) (l r : List Char) (lc : Char) (rest' : List Char)
    (hm : mBareM ctx l = some (r, lc, rest')) :
    wcO ctx = false ∨ ∃ d rt, r = d :: rt ∧ wordChar d = false :=
  Or.inl (mBareM_facts _ _ _ _ _ hm).1

lemma mBareM_Mbound (ctx : Option Char) (l r : List Char) (lc : Char) (rest' : List Char)
    (hm : mBareM ctx l = some (r, lc, rest')) :
    wcO ctx = false ∨ wcO l.head? = false :=
  Or.inl (mBareM_facts _ _ _ _ _ hm).1

lemma mBareM_Mcons (ctx : Option Char) (l r : List Char) (lc : Char) (rest' : List Char)
    (hm : mBareM ctx l = some (r, lc, rest')) :
    ∃ con, l = con ++ rest' ∧ con ≠ [] ∧ con.getLast? = some lc := by
  obtain ⟨-, -, d1, -, hd1ne, -, -, front, hs, hfne, hgl⟩ := mBareM_facts _ _ _ _ _ hm
  refine ⟨front ++ d1, hs, ?_, hgl⟩
  intro hh
  rcases List.append_eq_nil.mp hh with ⟨h1, -⟩
  exact hfne h1

lemma mBareM_Mjunc (ctx : Option Char) (l r : List Char) (lc : Char) (rest' : List Char)
    (hm : mBareM ctx l = some (r, lc, rest')) :
    (∃ rl, r.getLast? = some rl ∧ wordChar rl = wordChar lc) ∨
    (wordChar lc = true ∧ wcO rest'.head? = false) := by
  obtain ⟨-, hb, d1, hd1dig, hd1ne, hr, hlc, -⟩ := mBareM_facts _ _ _ _ _ hm
  subst hr
  refine Or.inl ⟨lc, ?_, rfl⟩
  rw [show ('M' :: d1) = ['M'] ++ d1 from rfl,
    List.getLast?_append_of_ne_nil _ hd1ne, hlc]
  exact getLast?_of_ne_nil _ _ hd1ne

/-! ## C4: no-match preservation instances for `virgule` and `fois` -/

lemma rchars_of_nonword
    (P : Option Char → List Char → Option (List Char × Char × List Char))
    (hPheadW : ∀ ctx c t, wordChar c = false → P ctx (c :: t) = none)
    (r : List Char) (hrw : ∀ d ∈ r, wordChar d = false) :
    ∀ d ∈ r, ∀ ctx2 t2, P ctx2 (d :: t2) = none :=
  fun d hd ctx2 t2 => hPheadW ctx2 d t2 (hrw d hd)

lemma mVirgule_iffA : ∀ ctx s, (∃ r0, mVirgule ctx s = some r0) ↔
    (wcO ctx = false ∧ ∃ m z, s = m ++ z ∧ ciEqList ('v' :: "irgule".data) m = true ∧
      wcO z.head? = false) := mVirgule_some_iff

lemma mFois_iffA : ∀ ctx s, (∃ r0, mFois ctx s = some r0) ↔
    (wcO ctx = false ∧ ∃ m z, s = m ++ z ∧ ciEqList ('f' :: "ois".data) m = true ∧
      wcO z.head? = false) := mFois_some_iff

lemma hpw_virgule : ∀ a ∈ ('v' :: "irgule".data), 97 ≤ a.toNat ∧ a.toNat ≤ 122 := by decide

lemma hpw_fois : ∀ a ∈ ('f' :: "ois".data), 97 ≤ a.toNat ∧ a.toNat ≤ 122 := by decide

lemma mVirgule_headW (ctx : Option Char) (c : Char) (t : List Char)
    (hw : wordChar c = false) : mVirgule ctx (c :: t) = none :=
  mVirgule_head_none ctx c t (nonword_not_ciEq 'v' c (by decide) (by decide) hw)

lemma mFois_headW (ctx : Option Char) (c : Char) (t : List Char)
    (hw : wordChar c = false) : mFois ctx (c :: t) = none :=
  mFois_head_none ctx c t (nonword_not_ciEq 'f' c (by decide) (by decide) hw)

lemma mVirgule_ext (p1 p2 : Option Char) (s : List Char) (hw : wcO p1 = wcO p2)
    (h : mVirgule p1 s = none) : mVirgule p2 s = none := by
  rw [← mVirgule_wcOext p1 p2 s hw]
  exact h

lemma mFois_ext (p1 p2 : Option Char) (s : List Char) (hw : wcO p1 = wcO p2)
    (h : mFois p1 s = none) : mFois p2 s = none := by
  rw [← mFois_wcOext p1 p2 s hw]
  exact h

lemma mVirgule_Mrepl (a0 : Char) (ctx : Option Char) (l r : List Char) (lc : Char)
    (rest' : List Char) (hm : mVirgule ctx l = some (r, lc, rest')) :
    ∃ d rt, r = d :: rt ∧ (wordChar d = false ∨ ciEq a0 d = false) := by
  obtain ⟨-, hr, -, -⟩ := mVirgule_facts _ _ _ _ _ hm
  subst hr
  exact ⟨',', [], by decide, Or.inl (by decide)⟩

lemma mEt_Mrepl (a0 : Char) (ctx : Option Char) (l r : List Char) (lc : Char)
    (rest' : List Char) (hm : mEt ctx l = some (r, lc, rest')) :
    ∃ d rt, r = d :: rt ∧ (wordChar d = false ∨ ciEq a0 d = false) := by
  obtain ⟨-, hr, -, -⟩ := mEt_facts _ _ _ _ _ hm
  subst hr
  exact ⟨',', [' '], by decide, Or.inl (by decide)⟩

lemma mOps_Mrepl (a0 : Char) (ctx : Option Char) (l r : List Char) (lc : Char)
    (rest' : List Char) (hm : mOps ctx l = some (r, lc, rest')) :
    ∃ d rt, r = d :: rt ∧ (wordChar d = false ∨ ciEq a0 d = false) := by
  obtain ⟨hr, -, -, -⟩ := mOps_facts _ _ _ _ _ hm
  subst hr
  exact ⟨',', [' '], by decide, Or.inl (by decide)⟩

lemma mFois_Mrepl (a0 : Char) (hx : ciEq a0 'x' = false) (ctx : Option Char)
    (l r : List Char) (lc : Char) (rest' : List Char)
    (hm : mFois ctx l = some (r, lc, rest')) :
    ∃ d rt, r = d :: rt ∧ (wordChar d = false ∨ ciEq a0 d = false) := by
  obtain ⟨-, hr, -, -⟩ := mFois_facts _ _ _ _ _ hm
  subst hr
  exact ⟨'x', [], by decide, Or.inr hx⟩

lemma mMx_Mrepl (a0 : Char) (hM : ciEq a0 'M' = false) (ctx : Option Char)
    (l r : List Char) (lc : Char) (rest' : List Char)
    (hm : mMx ctx l = some (r, lc, rest')) :
    ∃ d rt, r = d :: rt ∧ (wordChar d = false ∨ ciEq a0 d = false) := by
  obtain ⟨-, -, d1, d2, -, -, -, -, hr, -, -⟩ := mMx_facts _ _ _ _ _ hm
  subst hr
  exact ⟨'M', d1 ++ 'x' :: d2, rfl, Or.inr hM⟩

lemma mBareM_Mrepl (a0 : Char) (hM : ciEq a0 'M' = false) (ctx : Option Char)
    (l r : List Char) (lc : Char) (rest' : List Char)
    (hm : mBareM ctx l = some (r, lc, rest')) :
    ∃ d rt, r = d :: rt ∧ (wordChar d = false ∨ ciEq a0 d = false) := by
  obtain ⟨-, -, d1, -, -, hr, -, -⟩ := mBareM_facts _ _ _ _ _ hm
  subst hr
  exact ⟨'M', d1, rfl, Or.inr hM⟩

lemma mVirgule_Mrchars
    (P : Option Char → List Char → Option (List Char × Char × List Char))
    (hPheadW : ∀ ctx c t, wordChar c = false → P ctx (c :: t) = none)
    (ctx : Option Char) (l r : List Char) (lc : Char) (rest' : List Char)
    (hm : mVirgule ctx l = some (r, lc, rest')) :
    ∀ d ∈ r, ∀ ctx2 t2, P ctx2 (d :: t2) = none := by
  obtain ⟨-, hr, -, -⟩ := mVirgule_facts _ _ _ _ _ hm
  subst hr
  exact rchars_of_nonword P hPheadW _ (by decide)

lemma mEt_Mrchars
    (P : Option Char → List Char → Option (List Char × Char × List Char))
    (hPheadW : ∀ ctx c t, wordChar c = false → P ctx (c :: t) = none)
    (ctx : Option Char) (l r : List Char) (lc : Char) (rest' : List Char)
    (hm : mEt ctx l = some (r, lc, rest')) :
    ∀ d ∈ r, ∀ ctx2 t2, P ctx2 (d :: t2) = none := by
  obtain ⟨-, hr, -, -⟩ := mEt_facts _ _ _ _ _ hm
  subst hr
  exact rchars_of_nonword P hPheadW _ (by decide)

lemma mOps_Mrchars
    (P : Option Char → List Char → Option (List Char × Char × List Char))
    (hPheadW : ∀ ctx c t, wordChar c = false → P ctx (c :: t) = none)
    (ctx : Option Char) (l r : List Char) (lc : Char) (rest' : List Char)
    (hm : mOps ctx l = some (r, lc, rest')) :
    ∀ d ∈ r, ∀ ctx2 t2, P ctx2 (d :: t2) = none := by
  obtain ⟨hr, -, -, -⟩ := mOps_facts _ _ _ _ _ hm
  subst hr
  exact rchars_of_nonword P hPheadW _ (by decide)

lemma mFois_Mrchars
    (P : Option Char → List Char → Option (List Char × Char × List Char))
    (a0 : Char) (hx : ciEq a0 'x' = false)
    (hPheadCi : ∀ ctx c t, ciEq a0 c = false → P ctx (c :: t) = none)
    (ctx : Option Char) (l r : List Char) (lc : Char) (rest' : List Char)
    (hm : mFois ctx l = some (r, lc, rest')) :
    ∀ d ∈ r, ∀ ctx2 t2, P ctx2 (d :: t2) = none := by
  obtain ⟨-, hr, -, -⟩ := mFois_facts _ _ _ _ _ hm
  subst hr
  intro d hd ctx2 t2
  have : d = 'x' := by simpa using hd
  subst this
  exact hPheadCi _ _ _ hx

lemma mMx_Mrchars
    (P : Option Char → List Char → Option (List Char × Char × List Char))
    (a0 : Char) (h97 : 97 ≤ a0.toNat) (h122 : a0.toNat ≤ 122)
    (hM : ciEq a0 'M' = false) (hx : ciEq a0 'x' = false)
    (hPheadCi : ∀ ctx c t, ciEq a0 c = false → P ctx (c :: t) = none)
    (ctx : Option Char) (l r : List Char) (lc : Char) (rest' : List Char)
    (hm : mMx ctx l = some (r, lc, rest')) :
    ∀ d ∈ r, ∀ ctx2 t2, P ctx2 (d :: t2) = none := by
  obtain ⟨-, -, d1, d2, hd1dig, hd2dig, -, -, hr, -, -⟩ := mMx_facts _ _ _ _ _ hm
  subst hr
  intro d hd ctx2 t2
  rcases List.mem_cons.mp hd with rfl | hd
  · exact hPheadCi _ _ _ hM
  · rcases List.mem_append.mp hd with hd | hd
    · exact hPheadCi _ _ _ (ciEq_letter_digit a0 h97 h122 d (hd1dig d hd))
    · rcases List.mem_cons.mp hd with rfl | hd
      · exact hPheadCi _ _ _ hx
      · exact hPheadCi _ _ _ (ciEq_letter_digit a0 h97 h122 d (hd2dig d hd))

lemma mBareM_Mrchars
    (P : Option Char → List Char → Option (List Char × Char × List Char))
    (a0 : Char) (h97 : 97 ≤ a0.toNat) (h122 : a0.toNat ≤ 122)
    (hM : ciEq a0 'M' = false)
    (hPheadCi : ∀ ctx c t, ciEq a0 c = false → P ctx (c :: t) = none)
    (ctx : Option Char) (l r : List Char) (lc : Char) (rest' : List Char)
    (hm : mBareM ctx l = some (r, lc, rest')) :
    ∀ d ∈ r, ∀ ctx2 t2, P ctx2 (d :: t2) = none := by
  obtain ⟨-, -, d1, hd1dig, -, hr, -, -⟩ := mBareM_facts _ _ _ _ _ hm
  subst hr
  intro d hd ctx2 t2
  rcases List.mem_cons.mp hd with rfl | hd
  · exact hPheadCi _ _ _ hM
  · exact hPheadCi _ _ _ (ciEq_letter_digit a0 h97 h122 d (hd1dig d hd))

lemma presV_et : ∀ ctx l out, Tr mEt ctx l out → NoM mVirgule ctx l →
    NoM mVirgule ctx out :=
  gen_pres mVirgule mEt mVirgule_headW mVirgule_ext
    (ciword_trans mVirgule mEt 'v' "irgule".data hpw_virgule mVirgule_iffA
      mEt_Mlead (mEt_Mrepl 'v') mEt_Mbound)
    mEt_Mlead mEt_Mcons (mEt_Mrchars mVirgule mVirgule_headW) mEt_Mjunc

lemma presV_ops : ∀ ctx l out, Tr mOps ctx l out → NoM mVirgule ctx l →
    NoM mVirgule ctx out :=
  gen_pres mVirgule mOps mVirgule_headW mVirgule_ext
    (ciword_trans mVirgule mOps 'v' "irgule".data hpw_virgule mVirgule_iffA
      mOps_Mlead (mOps_Mrepl 'v') mOps_Mbound)
    mOps_Mlead mOps_Mcons (mOps_Mrchars mVirgule mVirgule_headW) mOps_Mjunc

lemma presV_fois : ∀ ctx l out, Tr mFois ctx l out → NoM mVirgule ctx l →
    NoM mVirgule ctx out :=
  gen_pres mVirgule mFois mVirgule_headW mVirgule_ext
    (ciword_trans mVirgule mFois 'v' "irgule".data hpw_virgule mVirgule_iffA
      mFois_Mlead (mFois_Mrepl 'v' (by decide)) mFois_Mbound)
    mFois_Mlead mFois_Mcons
    (mFois_Mrchars mVirgule 'v' (by decide) mVirgule_head_none) mFois_Mjunc

lemma presV_mx : ∀ ctx l out, Tr mMx ctx l out → NoM mVirgule ctx l →
    NoM mVirgule ctx out :=
  gen_pres mVirgule mMx mVirgule_headW mVirgule_ext
    (ciword_trans mVirgule mMx 'v' "irgule".data hpw_virgule mVirgule_iffA
      mMx_Mlead (mMx_Mrepl 'v' (by decide)) mMx_Mbound)
    mMx_Mlead mMx_Mcons
    (mMx_Mrchars mVirgule 'v' (by decide) (by decide) (by decide) (by decide)
      mVirgule_head_none) mMx_Mjunc

lemma presV_barem : ∀ ctx l out, Tr mBareM ctx l out → NoM mVirgule ctx l →
    NoM mVirgule ctx out :=
  gen_pres mVirgule mBareM mVirgule_headW mVirgule_ext
    (ciword_trans mVirgule mBareM 'v' "irgule".data hpw_virgule mVirgule_iffA
      mBareM_Mlead (mBareM_Mrepl 'v' (by decide)) mBareM_Mbound)
    mBareM_Mlead mBareM_Mcons
    (mBareM_Mrchars mVirgule 'v' (by decide) (by decide) (by decide)
      mVirgule_head_none) mBareM_Mjunc

lemma postV : ∀ ctx l out, Tr mVirgule ctx l out → NoM mVirgule ctx out :=
  gen_post mVirgule mVirgule_headW mVirgule_ext
    (ciword_trans mVirgule mVirgule 'v' "irgule".data hpw_virgule mVirgule_iffA
      mVirgule_Mlead (mVirgule_Mrepl 'v') mVirgule_Mbound)
    mVirgule_Mlead (mVirgule_Mrchars mVirgule mVirgule_headW) mVirgule_Mjunc

lemma presF_mx : ∀ ctx l out, Tr mMx ctx l out → NoM mFois ctx l →
    NoM mFois ctx out :=
  gen_pres mFois mMx mFois_headW mFois_ext
    (ciword_trans mFois mMx 'f' "ois".data hpw_fois mFois_iffA
      mMx_Mlead (mMx_Mrepl 'f' (by decide)) mMx_Mbound)
    mMx_Mlead mMx_Mcons
    (mMx_Mrchars mFois 'f' (by decide) (by decide) (by decide) (by decide)
      mFois_head_none) mMx_Mjunc

lemma presF_barem : ∀ ctx l out, Tr mBareM ctx l out → NoM mFois ctx l →
    NoM mFois ctx out :=
  gen_pres mFois mBareM mFois_headW mFois_ext
    (ciword_trans mFois mBareM 'f' "ois".data hpw_fois mFois_iffA
      mBareM_Mlead (mBareM_Mrepl 'f' (by decide)) mBareM_Mbound)
    mBareM_Mlead mBareM_Mcons
    (mBareM_Mrchars mFois 'f' (by decide) (by decide) (by decide)
      mFois_head_none) mBareM_Mjunc

lemma postF : ∀ ctx l out, Tr mFois ctx l out → NoM mFois ctx out :=
  gen_post mFois mFois_headW mFois_ext
    (ciword_trans mFois mFois 'f' "ois".data hpw_fois mFois_iffA
      mFois_Mlead (mFois_Mrepl 'f' (by decide)) mFois_Mbound)
    mFois_Mlead (mFois_Mrchars mFois 'f' (by decide) mFois_head_none) mFois_Mjunc

/-! ## C4: the `point virgule` matcher -/

lemma word_not_sep (e : Char) (hw : wordChar e = true) :
    (jsSpace e || decide (e = '-')) = false := by
  rw [Bool.or_eq_false_iff]
  constructor
  · cases hs : jsSpace e with
    | false => rfl
    | true => rw [space_not_word e hs] at hw; exact absurd hw (by simp)
  · rw [decide_eq_false_iff_not]
    intro hh
    subst hh
    exact absurd hw (by decide)

lemma mPointVirgule_shape (ctx : Option Char) (s r : List Char) (lc : Char)
    (rest' : List Char) (h : mPointVirgule ctx s = some (r, lc, rest')) :
    wcO ctx = false ∧ r = ";".data ∧ wcO rest'.head? = false ∧
    ∃ mp mv, ciEqList "point".data mp = true ∧ ciEqList "virgule".data mv = true ∧
      mv.getLast? = some lc ∧
      ((∃ d, (jsSpace d || decide (d = '-')) = true ∧ s = mp ++ d :: (mv ++ rest')) ∨
        s = mp ++ (mv ++ rest')) := by
  simp only [mPointVirgule] at h
  split at h
  · simp at h
  · rename_i hctx
    split at h
    · simp at h
    · rename_i t mp0 r1 hm
      obtain ⟨hcp, hs⟩ := (matchCI_some_iff _ _ _ _).mp hm
      split at h
      · simp at h
      · rename_i c r2
        split at h
        · rename_i hsep
          split at h
          · rename_i t2 m2 r3 hm2
            split at h
            · rename_i hb
              simp only [Option.some.injEq, Prod.mk.injEq] at h
              obtain ⟨rfl, rfl, rfl⟩ := h
              obtain ⟨hcv, hr2⟩ := (matchCI_some_iff _ _ _ _).mp hm2
              have hmvne : m2 ≠ [] := ciEqList_ne_nil _ _ _ hcv
              refine ⟨by simpa using hctx, rfl, by simpa using hb, mp0, m2, hcp, hcv,
                getLast?_of_ne_nil m2 _ hmvne, Or.inl ⟨c, hsep, ?_⟩⟩
              rw [hs, ← hr2]
            · simp at h
          · simp at h
        · rename_i hsep
          split at h
          · rename_i t2 m2 r3 hm2
            split at h
            · rename_i hb
              simp only [Option.some.injEq, Prod.mk.injEq] at h
              obtain ⟨rfl, rfl, rfl⟩ := h
              obtain ⟨hcv, hr1⟩ := (matchCI_some_iff _ _ _ _).mp hm2
              have hmvne : m2 ≠ [] := ciEqList_ne_nil _ _ _ hcv
              refine ⟨by simpa using hctx, rfl, by simpa using hb, mp0, m2, hcp, hcv,
                getLast?_of_ne_nil m2 _ hmvne, Or.inr ?_⟩
              rw [hs, ← hr1]
            · simp at h
          · simp at h

lemma mPointVirgule_intro_nosep (ctx : Option Char) (mp mv z : List Char)
    (hctx : wcO ctx = false) (hcp : ciEqList "point".data mp = true)
    (hcv : ciEqList "virgule".data mv = true) (hz : wcO z.head? = false) :
    mPointVirgule ctx (mp ++ (mv ++ z)) ≠ none := by
  intro hnone
  have hmcP := (matchCI_some_iff ("point".data) (mp ++ (mv ++ z)) mp (mv ++ z)).mpr
    ⟨hcp, rfl⟩
  have hmvne : mv ≠ [] := ciEqList_ne_nil _ _ _ (show ciEqList ('v' :: "irgule".data) mv = true from hcv)
  simp only [mPointVirgule] at hnone
  rw [if_neg (by simp [hctx])] at hnone
  split at hnone
  · rename_i hm
    rw [hmcP] at hm
    simp at hm
  · rename_i t mp0 r1 hm
    rw [hmcP] at hm
    simp only [Option.some.injEq, Prod.mk.injEq] at hm
    obtain ⟨hmp0, hr1⟩ := hm
    subst hr1
    split at hnone
    · rename_i hnil
      rcases List.append_eq_nil.mp hnil with ⟨h1, -⟩
      exact hmvne h1
    · rename_i c r2 hcr
      cases hmv : mv with
      | nil => exact hmvne hmv
      | cons v0 mv2 =>
        rw [hmv] at hcv
        have hv0 : ciEq 'v' v0 = true :=
          ciEqList_head 'v' ("irgule".data) v0 mv2 hcv
        have hv0w : wordChar v0 = true :=
          ciEq_lower_word 'v' v0 (by decide) (by decide) hv0
        rw [hmv, List.cons_append] at hcr
        injection hcr with hc1 hc2
        subst hc1
        rw [if_neg (by rw [word_not_sep v0 hv0w]; simp)] at hnone
        rw [← hmv] at hcv
        split at hnone
        · rename_i t2 m2 r3 hm2
          have hmcV := (matchCI_some_iff ("virgule".data) (mv ++ z) mv z).mpr ⟨hcv, rfl⟩
          rw [hmcV] at hm2
          simp only [Option.some.injEq, Prod.mk.injEq] at hm2
          obtain ⟨h1, h2⟩ := hm2
          subst h2
          rw [if_pos (by simp [hz])] at hnone
          simp at hnone
        · rename_i hm2
          rw [(matchCI_some_iff ("virgule".data) (mv ++ z) mv z).mpr ⟨hcv, rfl⟩] at hm2
          simp at hm2

lemma mPointVirgule_intro_sep (ctx : Option Char) (mp : List Char) (d : Char)
    (mv z : List Char) (hctx : wcO ctx = false) (hcp : ciEqList "point".data mp = true)
    (hsep : (jsSpace d || decide (d = '-')) = true)
    (hcv : ciEqList "virgule".data mv = true) (hz : wcO z.head? = false) :
    mPointVirgule ctx (mp ++ d :: (mv ++ z)) ≠ none := by
  intro hnone
  have hmcP := (matchCI_some_iff ("point".data) (mp ++ d :: (mv ++ z)) mp
    (d :: (mv ++ z))).mpr ⟨hcp, rfl⟩
  simp only [mPointVirgule] at hnone
  rw [if_neg (by simp [hctx])] at hnone
  split at hnone
  · rename_i hm
    rw [hmcP] at hm
    simp at hm
  · rename_i t mp0 r1 hm
    rw [hmcP] at hm
    simp only [Option.some.injEq, Prod.mk.injEq] at hm
    obtain ⟨hmp0, hr1⟩ := hm
    subst hr1
    split at hnone
    · rename_i hnil
      simp at hnil
    · rename_i c r2 hcr
      injection hcr with hc1 hc2
      subst hc1
      subst hc2
      rw [if_pos hsep] at hnone
      split at hnone
      · rename_i t2 m2 r3 hm2
        have hmcV := (matchCI_some_iff ("virgule".data) (mv ++ z) mv z).mpr ⟨hcv, rfl⟩
        rw [hmcV] at hm2
        simp only [Option.some.injEq, Prod.mk.injEq] at hm2
        obtain ⟨h1, h2⟩ := hm2
        subst h2
        rw [if_pos (by simp [hz])] at hnone
        simp at hnone
      · rename_i hm2
        rw [(matchCI_some_iff ("virgule".data) (mv ++ z) mv z).mpr ⟨hcv, rfl⟩] at hm2
        simp at hm2

lemma mPointVirgule_facts (ctx : Option Char) (s r : List Char) (lc : Char)
    (rest' : List Char) (h : mPointVirgule ctx s = some (r, lc, rest')) :
    wcO ctx = false ∧ r = ";".data ∧ wordChar lc = true ∧ wcO rest'.head? = false ∧
    ∃ con, s = con ++ rest' ∧ con ≠ [] ∧ con.getLast? = some lc := by
  obtain ⟨hctx, hr, hb, mp, mv, hcp, hcv, hgl, hbr⟩ := mPointVirgule_shape _ _ _ _ _ h
  have hmvne : mv ≠ [] := ciEqList_ne_nil _ _ _ hcv
  have hlcw : wordChar lc = true := by
    have hce : ciEq 'e' lc = true :=
      ciEqList_getLast ("virgule".data) mv 'e' lc hcv (by decide) hgl
    exact ciEq_lower_word 'e' lc (by decide) (by decide) hce
  refine ⟨hctx, hr, hlcw, hb, ?_⟩
  rcases hbr with ⟨d, hsep, hs⟩ | hs
  · refine ⟨mp ++ d :: mv, ?_, by simp, ?_⟩
    · rw [hs]
      simp [List.append_assoc]
    · rw [List.getLast?_append_cons,
        show (d :: mv) = [d] ++ mv from rfl,
        List.getLast?_append_of_ne_nil _ hmvne]
      exact hgl
  · refine ⟨mp ++ mv, ?_, ?_, ?_⟩
    · rw [hs, List.append_assoc]
    · intro hh
      rcases List.append_eq_nil.mp hh with ⟨-, h2⟩
      exact hmvne h2
    · rw [List.getLast?_append_of_ne_nil _ hmvne]
      exact hgl

lemma mPointVirgule_head_none (ctx : Option Char) (c : Char) (t : List Char)
    (hci : ciEq 'p' c = false) : mPointVirgule ctx (c :: t) = none := by
  have hmc : matchCI "point".data (c :: t) = none := by
    rw [show ("point".data : List Char) = 'p' :: "oint".data from rfl]
    simp only [matchCI]
    rw [if_neg (by simp [hci])]
  simp only [mPointVirgule, hmc]
  split <;> rfl

lemma mPointVirgule_headW (ctx : Option Char) (c : Char) (t : List Char)
    (hw : wordChar c = false) : mPointVirgule ctx (c :: t) = none :=
  mPointVirgule_head_none ctx c t (nonword_not_ciEq 'p' c (by decide) (by decide) hw)

lemma mPointVirgule_ext (p1 p2 : Option Char) (s : List Char) (hw : wcO p1 = wcO p2)
    (h : mPointVirgule p1 s = none) : mPointVirgule p2 s = none := by
  have : mPointVirgule p1 s = mPointVirgule p2 s := by
    simp only [mPointVirgule, hw]
  rw [← this]
  exact h

lemma ctxAfter_wcO_ne (x : Option Char) (w : List Char) (hne : w ≠ [])
    (hall : ∀ d ∈ w, wordChar d = true) : wcO (ctxAfter x w) = true := by
  unfold ctxAfter
  cases hgl : w.getLast? with
  | none => exact absurd (List.getLast?_eq_none.mp hgl) hne
  | some a => simpa [wcO] using hall a (List.mem_of_mem_getLast? hgl)

lemma ctxAfter_wcO (c : Char) (w : List Char) (hc : wordChar c = true)
    (hall : ∀ d ∈ w, wordChar d = true) : wcO (ctxAfter (some c) w) = true := by
  unfold ctxAfter
  cases hgl : w.getLast? with
  | none => simpa [wcO] using hc
  | some a => simpa [wcO] using hall a (List.mem_of_mem_getLast? hgl)

lemma pv_transport
    (M : Option Char → List Char → Option (List Char × Char × List Char))
    (hMlead : ∀ ctx l r lc rest', M ctx l = some (r, lc, rest') →
       wcO ctx = false ∨ ∃ d rt, r = d :: rt ∧ wordChar d = false)
    (hMbound : ∀ ctx l r lc rest', M ctx l = some (r, lc, rest') →
       wcO ctx = false ∨ wcO l.head? = false)
    (hMrepl_p : ∀ ctx l r lc rest', M ctx l = some (r, lc, rest') →
       ∃ d rt, r = d :: rt ∧ (wordChar d = false ∨ ciEq 'p' d = false))
    (hMrepl_v : ∀ ctx l r lc rest', M ctx l = some (r, lc, rest') →
       ∃ d rt, r = d :: rt ∧ (wordChar d = false ∨ ciEq 'v' d = false))
    (hMrepl_sep : ∀ ctx l r lc rest', M ctx l = some (r, lc, rest') →
       ∃ dh rt, r = dh :: rt ∧ (jsSpace dh || decide (dh = '-')) = false) :
    ∀ ctx c rest out2, Tr M (some c) rest out2 →
      mPointVirgule ctx (c :: rest) = none → mPointVirgule ctx (c :: out2) = none := by
  intro ctx c rest out2 htr hnone
  cases hP : mPointVirgule ctx (c :: out2) with
  | none => rfl
  | some r0 =>
    exfalso
    obtain ⟨rr, lc1, rest1⟩ := r0
    obtain ⟨hctx, -, hb, mp, mv, hcp, hcv, hgl, hbr⟩ :=
      mPointVirgule_shape ctx _ _ _ _ hP
    have hmpw : ∀ e ∈ mp, wordChar e = true :=
      ciEqList_word ("point".data) mp (by decide) hcp
    have hmvw : ∀ e ∈ mv, wordChar e = true :=
      ciEqList_word ("virgule".data) mv (by decide) hcv
    have hmvne : mv ≠ [] :=
      ciEqList_ne_nil _ _ _ (show ciEqList ('v' :: "irgule".data) mv = true from hcv)
    have hmvhd : ∀ e, mv.head? = some e → ciEq 'v' e = true := by
      intro e he
      cases mv with
      | nil => simp at he
      | cons v0 mv2 =>
        simp only [List.head?_cons, Option.some.injEq] at he
        subst he
        exact ciEqList_head 'v' ("irgule".data) _ _ hcv
    rcases hbr with ⟨d, hsep, hs⟩ | hs
    · cases mp with
      | nil =>
        exact absurd rfl (ciEqList_ne_nil _ _ _
          (show ciEqList ('p' :: "oint".data) [] = true from hcp))
      | cons cp mp2 =>
        rw [List.cons_append] at hs
        injection hs with h1 h2
        subst h1
        obtain ⟨z1, hz1a, hz1b⟩ := Tr_block M (fun e => ciEq 'p' e) hMlead hMrepl_p
          mp2 (some c) rest out2 (d :: (mv ++ rest1)) htr h2
          (fun e he => hmpw e (List.mem_cons_of_mem c he))
          (Or.inr (by simpa [wcO] using hmpw c (List.mem_cons_self c mp2)))
        obtain ⟨t2, ht2a, ht2b⟩ := Tr_one M (fun e => jsSpace e || decide (e = '-'))
          hMrepl_sep _ _ _ d _ hz1b rfl hsep
        obtain ⟨z', hz'a, hz'b⟩ := Tr_block M (fun e => ciEq 'v' e) hMlead hMrepl_v
          mv (some d) t2 (mv ++ rest1) rest1 ht2b rfl hmvw (Or.inl hmvhd)
        have hzb : wcO z'.head? = false := by
          rcases Tr_inv M _ _ _ hz'b with ⟨hz1n, hz2n⟩ | ⟨zd, t', out3, ha1, ha2, hamn, -⟩ |
            ⟨r2, lc2, rest2, out3, hm2, hzeq, -⟩
          · rw [hz1n]; rfl
          · rw [ha1]
            rw [ha2] at hb
            exact hb
          · rcases hMbound _ _ _ _ _ hm2 with hb2 | hb2
            · exfalso
              have := ctxAfter_wcO_ne (some d) mv hmvne hmvw
              rw [hb2] at this
              exact absurd this (by simp)
            · exact hb2
        refine mPointVirgule_intro_sep ctx (c :: mp2) d mv z' hctx hcp hsep hcv hzb ?_
        rw [← hnone]
        congr 1
        rw [List.cons_append, hz1a, ht2a, hz'a]
    · cases mp with
      | nil =>
        exact absurd rfl (ciEqList_ne_nil _ _ _
          (show ciEqList ('p' :: "oint".data) [] = true from hcp))
      | cons cp mp2 =>
        rw [List.cons_append] at hs
        injection hs with h1 h2
        subst h1
        obtain ⟨z1, hz1a, hz1b⟩ := Tr_block M (fun e => ciEq 'p' e) hMlead hMrepl_p
          mp2 (some c) rest out2 (mv ++ rest1) htr h2
          (fun e he => hmpw e (List.mem_cons_of_mem c he))
          (Or.inr (by simpa [wcO] using hmpw c (List.mem_cons_self c mp2)))
        obtain ⟨z', hz'a, hz'b⟩ := Tr_block M (fun e => ciEq 'v' e) hMlead hMrepl_v
          mv _ z1 (mv ++ rest1) rest1 hz1b rfl hmvw
          (Or.inr (ctxAfter_wcO c mp2 (hmpw c (List.mem_cons_self c mp2))
            (fun e he => hmpw e (List.mem_cons_of_mem c he))))
        have hzb : wcO z'.head? = false := by
          rcases Tr_inv M _ _ _ hz'b with ⟨hz1n, hz2n⟩ | ⟨zd, t', out3, ha1, ha2, hamn, -⟩ |
            ⟨r2, lc2, rest2, out3, hm2, hzeq, -⟩
          · rw [hz1n]; rfl
          · rw [ha1]
            rw [ha2] at hb
            exact hb
          · rcases hMbound _ _ _ _ _ hm2 with hb2 | hb2
            · exfalso
              have := ctxAfter_wcO_ne (ctxAfter (some c) mp2) mv hmvne hmvw
              rw [hb2] at this
              exact absurd this (by simp)
            · exact hb2
        refine mPointVirgule_intro_nosep ctx (c :: mp2) mv z' hctx hcp hcv hzb ?_
        rw [← hnone]
        congr 1
        rw [List.cons_append, hz1a, hz'a]

lemma mVirgule_Msep (ctx : Option Char) (l r : List Char) (lc : Char)
    (rest' : List Char) (hm : mVirgule ctx l = some (r, lc, rest')) :
    ∃ dh rt, r = dh :: rt ∧ (jsSpace dh || decide (dh = '-')) = false := by
  obtain ⟨-, hr, -, -⟩ := mVirgule_facts _ _ _ _ _ hm
  subst hr
  exact ⟨',', [], by decide, by decide⟩

lemma mEt_Msep (ctx : Option Char) (l r : List Char) (lc : Char)
    (rest' : List Char) (hm : mEt ctx l = some (r, lc, rest')) :
    ∃ dh rt, r = dh :: rt ∧ (jsSpace dh || decide (dh = '-')) = false := by
  obtain ⟨-, hr, -, -⟩ := mEt_facts _ _ _ _ _ hm
  subst hr
  exact ⟨',', [' '], by decide, by decide⟩

lemma mOps_Msep (ctx : Option Char) (l r : List Char) (lc : Char)
    (rest' : List Char) (hm : mOps ctx l = some (r, lc, rest')) :
    ∃ dh rt, r = dh :: rt ∧ (jsSpace dh || decide (dh = '-')) = false := by
  obtain ⟨hr, -, -, -⟩ := mOps_facts _ _ _ _ _ hm
  subst hr
  exact ⟨',', [' '], by decide, by decide⟩

lemma mFois_Msep (ctx : Option Char) (l r : List Char) (lc : Char)
    (rest' : List Char) (hm : mFois ctx l = some (r, lc, rest')) :
    ∃ dh rt, r = dh :: rt ∧ (jsSpace dh || decide (dh = '-')) = false := by
  obtain ⟨-, hr, -, -⟩ := mFois_facts _ _ _ _ _ hm
  subst hr
  exact ⟨'x', [], by decide, by decide⟩

lemma mMx_Msep (ctx : Option Char) (l r : List Char) (lc : Char)
    (rest' : List Char) (hm : mMx ctx l = some (r, lc, rest')) :
    ∃ dh rt, r = dh :: rt ∧ (jsSpace dh || decide (dh = '-')) = false := by
  obtain ⟨-, -, d1, d2, -, -, -, -, hr, -, -⟩ := mMx_facts _ _ _ _ _ hm
  subst hr
  exact ⟨'M', d1 ++ 'x' :: d2, rfl, by decide⟩

lemma mBareM_Msep (ctx : Option Char) (l r : List Char) (lc : Char)
    (rest' : List Char) (hm : mBareM ctx l = some (r, lc, rest')) :
    ∃ dh rt, r = dh :: rt ∧ (jsSpace dh || decide (dh = '-')) = false := by
  obtain ⟨-, -, d1, -, -, hr, -, -⟩ := mBareM_facts _ _ _ _ _ hm
  subst hr
  exact ⟨'M', d1, rfl, by decide⟩

lemma mPointVirgule_Msep (ctx : Option Char) (l r : List Char) (lc : Char)
    (rest' : List Char) (hm : mPointVirgule ctx l = some (r, lc, rest')) :
    ∃ dh rt, r = dh :: rt ∧ (jsSpace dh || decide (dh = '-')) = false := by
  obtain ⟨-, hr, -, -⟩ := mPointVirgule_facts _ _ _ _ _ hm
  subst hr
  exact ⟨';', [], by decide, by decide⟩

lemma mPointVirgule_Mlead (ctx : Option Char) (l r : List Char) (lc : Char)
    (rest' : List Char) (hm : mPointVirgule ctx l = some (r, lc, rest')) :
    wcO ctx = false ∨ ∃ d rt, r = d :: rt ∧ wordChar d = false :=
  Or.inl (mPointVirgule_facts _ _ _ _ _ hm).1

lemma mPointVirgule_Mbound (ctx : Option Char) (l r : List Char) (lc : Char)
    (rest' : List Char) (hm : mPointVirgule ctx l = some (r, lc, rest')) :
    wcO ctx = false ∨ wcO l.head? = false :=
  Or.inl (mPointVirgule_facts _ _ _ _ _ hm).1

lemma mPointVirgule_Mcons (ctx : Option Char) (l r : List Char) (lc : Char)
    (rest' : List Char) (hm : mPointVirgule ctx l = some (r, lc, rest')) :
    ∃ con, l = con ++ rest' ∧ con ≠ [] ∧ con.getLast? = some lc :=
  (mPointVirgule_facts _ _ _ _ _ hm).2.2.2.2

lemma mPointVirgule_Mjunc (ctx : Option Char) (l r : List Char) (lc : Char)
    (rest' : List Char) (hm : mPointVirgule ctx l = some (r, lc, rest')) :
    (∃ rl, r.getLast? = some rl ∧ wordChar rl = wordChar lc) ∨
    (wordChar lc = true ∧ wcO rest'.head? = false) := by
  obtain ⟨-, -, hw, hb, -⟩ := mPointVirgule_facts _ _ _ _ _ hm
  exact Or.inr ⟨hw, hb⟩

lemma mPointVirgule_Mrepl (a0 : Char) (ctx : Option Char) (l r : List Char) (lc : Char)
    (rest' : List Char) (hm : mPointVirgule ctx l = some (r, lc, rest')) :
    ∃ d rt, r = d :: rt ∧ (wordChar d = false ∨ ciEq a0 d = false) := by
  obtain ⟨-, hr, -, -⟩ := mPointVirgule_facts _ _ _ _ _ hm
  subst hr
  exact ⟨';', [], by decide, Or.inl (by decide)⟩

lemma mPointVirgule_Mrchars
    (P : Option Char → List Char → Option (List Char × Char × List Char))
    (hPheadW : ∀ ctx c t, wordChar c = false → P ctx (c :: t) = none)
    (ctx : Option Char) (l r : List Char) (lc : Char) (rest' : List Char)
    (hm : mPointVirgule ctx l = some (r, lc, rest')) :
    ∀ d ∈ r, ∀ ctx2 t2, P ctx2 (d :: t2) = none := by
  obtain ⟨-, hr, -, -⟩ := mPointVirgule_facts _ _ _ _ _ hm
  subst hr
  exact rchars_of_nonword P hPheadW _ (by decide)

lemma presPV_virgule : ∀ ctx l out, Tr mVirgule ctx l out → NoM mPointVirgule ctx l →
    NoM mPointVirgule ctx out :=
  gen_pres mPointVirgule mVirgule mPointVirgule_headW mPointVirgule_ext
    (pv_transport mVirgule mVirgule_Mlead mVirgule_Mbound
      (mVirgule_Mrepl 'p') (mVirgule_Mrepl 'v') mVirgule_Msep)
    mVirgule_Mlead mVirgule_Mcons
    (mVirgule_Mrchars mPointVirgule mPointVirgule_headW) mVirgule_Mjunc

lemma presPV_et : ∀ ctx l out, Tr mEt ctx l out → NoM mPointVirgule ctx l →
    NoM mPointVirgule ctx out :=
  gen_pres mPointVirgule mEt mPointVirgule_headW mPointVirgule_ext
    (pv_transport mEt mEt_Mlead mEt_Mbound (mEt_Mrepl 'p') (mEt_Mrepl 'v') mEt_Msep)
    mEt_Mlead mEt_Mcons
    (mEt_Mrchars mPointVirgule mPointVirgule_headW) mEt_Mjunc

lemma presPV_ops : ∀ ctx l out, Tr mOps ctx l out → NoM mPointVirgule ctx l →
    NoM mPointVirgule ctx out :=
  gen_pres mPointVirgule mOps mPointVirgule_headW mPointVirgule_ext
    (pv_transport mOps mOps_Mlead mOps_Mbound (mOps_Mrepl 'p') (mOps_Mrepl 'v') mOps_Msep)
    mOps_Mlead mOps_Mcons
    (mOps_Mrchars mPointVirgule mPointVirgule_headW) mOps_Mjunc

lemma presPV_fois : ∀ ctx l out, Tr mFois ctx l out → NoM mPointVirgule ctx l →
    NoM mPointVirgule ctx out :=
  gen_pres mPointVirgule mFois mPointVirgule_headW mPointVirgule_ext
    (pv_transport mFois mFois_Mlead mFois_Mbound (mFois_Mrepl 'p' (by decide))
      (mFois_Mrepl 'v' (by decide)) mFois_Msep)
    mFois_Mlead mFois_Mcons
    (mFois_Mrchars mPointVirgule 'p' (by decide) mPointVirgule_head_none) mFois_Mjunc

lemma presPV_mx : ∀ ctx l out, Tr mMx ctx l out → NoM mPointVirgule ctx l →
    NoM mPointVirgule ctx out :=
  gen_pres mPointVirgule mMx mPointVirgule_headW mPointVirgule_ext
    (pv_transport mMx mMx_Mlead mMx_Mbound (mMx_Mrepl 'p' (by decide))
      (mMx_Mrepl 'v' (by decide)) mMx_Msep)
    mMx_Mlead mMx_Mcons
    (mMx_Mrchars mPointVirgule 'p' (by decide) (by decide) (by decide) (by decide)
      mPointVirgule_head_none) mMx_Mjunc

lemma presPV_barem : ∀ ctx l out, Tr mBareM ctx l out → NoM mPointVirgule ctx l →
    NoM mPointVirgule ctx out :=
  gen_pres mPointVirgule mBareM mPointVirgule_headW mPointVirgule_ext
    (pv_transport mBareM mBareM_Mlead mBareM_Mbound (mBareM_Mrepl 'p' (by decide))
      (mBareM_Mrepl 'v' (by decide)) mBareM_Msep)
    mBareM_Mlead mBareM_Mcons
    (mBareM_Mrchars mPointVirgule 'p' (by decide) (by decide) (by decide)
      mPointVirgule_head_none) mBareM_Mjunc

lemma postPV : ∀ ctx l out, Tr mPointVirgule ctx l out → NoM mPointVirgule ctx out :=
  gen_post mPointVirgule mPointVirgule_headW mPointVirgule_ext
    (pv_transport mPointVirgule mPointVirgule_Mlead mPointVirgule_Mbound
      (mPointVirgule_Mrepl 'p') (mPointVirgule_Mrepl 'v') mPointVirgule_Msep)
    mPointVirgule_Mlead
    (mPointVirgule_Mrchars mPointVirgule mPointVirgule_headW) mPointVirgule_Mjunc

/-! ## C4: the lookahead of the `et` rule -/

lemma takeWhile_all (p : Char → Bool) :
    ∀ (dg z2 : List Char), (∀ c ∈ dg, p c = true) →
      (∀ d, z2.head? = some d → p d = false) →
      (dg ++ z2).takeWhile p = dg ∧ (dg ++ z2).dropWhile p = z2 := by
  intro dg
  induction dg with
  | nil =>
    intro z2 hall hz
    cases z2 with
    | nil => exact ⟨rfl, rfl⟩
    | cons d t =>
      constructor
      · rw [List.nil_append, List.takeWhile_cons, if_neg (by simp [hz d rfl])]
      · rw [List.nil_append, List.dropWhile_cons, if_neg (by simp [hz d rfl])]
  | cons a dg2 ih =>
    intro z2 hall hz
    obtain ⟨ih1, ih2⟩ := ih z2 (fun c hc => hall c (List.mem_cons_of_mem a hc)) hz
    have ha : p a = true := hall a (List.mem_cons_self a dg2)
    constructor
    · rw [List.cons_append, List.takeWhile_cons, if_pos ha, ih1]
    · rw [List.cons_append, List.dropWhile_cons, if_pos ha, ih2]

lemma lookNum_iff (z : List Char) : lookNum z = true ↔
    (∃ dg z2, z = dg ++ z2 ∧ dg ≠ [] ∧ (∀ c ∈ dg, digitChar c = true) ∧
      wcO z2.head? = false) ∨
    (∃ nw, nw ∈ etNumWords ∧ ∃ m z2, z = m ++ z2 ∧ ciEqList nw m = true ∧
      wcO z2.head? = false) := by
  constructor
  · intro h
    simp only [lookNum, Bool.or_eq_true, Bool.and_eq_true, Bool.not_eq_true'] at h
    rcases h with ⟨h1, h2⟩ | h2
    · refine Or.inl ⟨z.takeWhile digitChar, z.dropWhile digitChar,
        (List.takeWhile_append_dropWhile _ _).symm, ?_, 
        fun c hc => List.mem_takeWhile_imp hc, h2⟩
      intro hh
      rw [hh] at h1
      simp at h1
    · rw [List.any_eq_true] at h2
      obtain ⟨nw, hnw, hcond⟩ := h2
      refine Or.inr ⟨nw, hnw, ?_⟩
      cases hm : matchCI nw z with
      | none => rw [hm] at hcond; simp at hcond
      | some t =>
        obtain ⟨m, rest⟩ := t
        rw [hm] at hcond
        obtain ⟨hc, hs⟩ := (matchCI_some_iff _ _ _ _).mp hm
        exact ⟨m, rest, hs, hc, by simpa using hcond⟩
  · intro h
    simp only [lookNum, Bool.or_eq_true, Bool.and_eq_true, Bool.not_eq_true']
    rcases h with ⟨dg, z2, hs, hne, hdig, hz2⟩ | ⟨nw, hnw, m, z2, hs, hc, hz2⟩
    · subst hs
      obtain ⟨ht, hd⟩ := takeWhile_all digitChar dg z2 hdig
        (fun d hd => by
          rw [hd] at hz2
          have hw : wordChar d = false := by simpa [wcO] using hz2
          cases hq : digitChar d with
          | false => rfl
          | true => rw [digit_word d hq] at hw; exact absurd hw (by simp))
      refine Or.inl ⟨?_, ?_⟩
      · rw [ht]
        simpa using hne
      · rw [hd]
        exact hz2
    · subst hs
      refine Or.inr ?_
      rw [List.any_eq_true]
      refine ⟨nw, hnw, ?_⟩
      rw [(matchCI_some_iff nw (m ++ z2) m z2).mpr ⟨hc, rfl⟩]
      simpa using hz2

lemma lookNum_nil : lookNum [] = false := by decide

lemma lookNum_head_false (d : Char) (t : List Char) (h1 : digitChar d = false)
    (h2 : nwHead d = false) : lookNum (d :: t) = false := by
  cases hq : lookNum (d :: t) with
  | false => rfl
  | true =>
    exfalso
    rcases (lookNum_iff _).mp hq with ⟨dg, z2, hs, hne, hdig, -⟩ |
      ⟨nw, hnw, m, z2, hs, hc, -⟩
    · cases dg with
      | nil => exact hne rfl
      | cons a dg2 =>
        rw [List.cons_append] at hs
        injection hs with hh1 hh2
        subst hh1
        rw [hdig d (List.mem_cons_self d dg2)] at h1
        exact absurd h1 (by simp)
    · cases nw with
      | nil => revert hnw; decide
      | cons e nw2 =>
        cases m with
        | nil => simp [ciEqList] at hc
        | cons a m2 =>
          rw [List.cons_append] at hs
          injection hs with hh1 hh2
          subst hh1
          have hce : ciEq e d = true := ciEqList_head _ _ _ _ hc
          have : nwHead d = true := by
            simp only [nwHead, List.any_eq_true]
            exact ⟨e :: nw2, hnw, by simp only [List.head?_cons]; exact hce⟩
          rw [this] at h2
          exact absurd h2 (by simp)

lemma Tr_block_P0 (M : Option Char → List Char → Option (List Char × Char × List Char))
    (P0 : Char → Bool)
    (hMrepl0 : ∀ ctx l r lc rest', M ctx l = some (r, lc, rest') →
       ∃ dh rt, r = dh :: rt ∧ P0 dh = false) :
    ∀ (w : List Char) (ctx : Option Char) (l out z : List Char),
      Tr M ctx l out → out = w ++ z → (∀ c ∈ w, P0 c = true) →
      ∃ z', l = w ++ z' ∧ Tr M (ctxAfter ctx w) z' z := by
  intro w
  induction w with
  | nil =>
    intro ctx l out z ht heq hw
    rw [List.nil_append] at heq
    subst heq
    exact ⟨l, rfl, ht⟩
  | cons a w2 ih =>
    intro ctx l out z ht heq hw
    cases ht with
    | nil => simp at heq
    | copy _ c rest out2 hm htr =>
      rw [List.cons_append] at heq
      injection heq with h1 h2
      subst h1
      obtain ⟨z', hz1, hz2⟩ := ih (some c) rest out2 z htr h2
        (fun d hd => hw d (List.mem_cons_of_mem c hd))
      refine ⟨z', ?_, ?_⟩
      · rw [List.cons_append, ← hz1]
      · rw [ctxAfter_cons]
        exact hz2
    | repl _ c rest r lc rest2 out2 hm htr =>
      obtain ⟨dh, rt, hr, hdh⟩ := hMrepl0 _ _ _ _ _ hm
      subst hr
      rw [List.cons_append, List.cons_append] at heq
      injection heq with h1 h2
      subst h1
      rw [hw dh (List.mem_cons_self dh w2)] at hdh
      exact absurd hdh (by simp)

lemma mEt_MreplP (P0 : Char → Bool) (h : P0 ',' = false) (ctx : Option Char)
    (l r : List Char) (lc : Char) (rest' : List Char)
    (hm : mEt ctx l = some (r, lc, rest')) :
    ∃ dh rt, r = dh :: rt ∧ P0 dh = false := by
  obtain ⟨-, hr, -, -⟩ := mEt_facts _ _ _ _ _ hm
  subst hr
  exact ⟨',', [' '], by decide, h⟩

lemma mOps_MreplP (P0 : Char → Bool) (h : P0 ',' = false) (ctx : Option Char)
    (l r : List Char) (lc : Char) (rest' : List Char)
    (hm : mOps ctx l = some (r, lc, rest')) :
    ∃ dh rt, r = dh :: rt ∧ P0 dh = false := by
  obtain ⟨hr, -, -, -⟩ := mOps_facts _ _ _ _ _ hm
  subst hr
  exact ⟨',', [' '], by decide, h⟩

lemma mFois_MreplP (P0 : Char → Bool) (h : P0 'x' = false) (ctx : Option Char)
    (l r : List Char) (lc : Char) (rest' : List Char)
    (hm : mFois ctx l = some (r, lc, rest')) :
    ∃ dh rt, r = dh :: rt ∧ P0 dh = false := by
  obtain ⟨-, hr, -, -⟩ := mFois_facts _ _ _ _ _ hm
  subst hr
  exact ⟨'x', [], by decide, h⟩

lemma mMx_MreplP (P0 : Char → Bool) (h : P0 'M' = false) (ctx : Option Char)
    (l r : List Char) (lc : Char) (rest' : List Char)
    (hm : mMx ctx l = some (r, lc, rest')) :
    ∃ dh rt, r = dh :: rt ∧ P0 dh = false := by
  obtain ⟨-, -, d1, d2, -, -, -, -, hr, -, -⟩ := mMx_facts _ _ _ _ _ hm
  subst hr
  exact ⟨'M', d1 ++ 'x' :: d2, rfl, h⟩

lemma mBareM_MreplP (P0 : Char → Bool) (h : P0 'M' = false) (ctx : Option Char)
    (l r : List Char) (lc : Char) (rest' : List Char)
    (hm : mBareM ctx l = some (r, lc, rest')) :
    ∃ dh rt, r = dh :: rt ∧ P0 dh = false := by
  obtain ⟨-, -, d1, -, -, hr, -, -⟩ := mBareM_facts _ _ _ _ _ hm
  subst hr
  exact ⟨'M', d1, rfl, h⟩

lemma mEt_shape (ctx : Option Char) (s r : List Char) (lc : Char) (rest' : List Char)
    (h : mEt ctx s = some (r, lc, rest')) :
    wcO ctx = false ∧
    ∃ me w, ciEqList "et".data me = true ∧ w ≠ [] ∧ (∀ c ∈ w, jsSpace c = true) ∧
      s = me ++ (w ++ rest') ∧ (∀ d, rest'.head? = some d → jsSpace d = false) ∧
      lookNum rest' = true := by
  simp only [mEt] at h
  split at h
  · simp at h
  · rename_i hctx
    split at h
    · simp at h
    · rename_i t m0 r1 hm
      split at h
      · simp at h
      · rename_i hw
        split at h
        · rename_i hlook
          simp only [Option.some.injEq, Prod.mk.injEq] at h
          obtain ⟨rfl, rfl, rfl⟩ := h
          obtain ⟨hc, hs⟩ := (matchCI_some_iff _ _ _ _).mp hm
          refine ⟨by simpa using hctx, m0, r1.takeWhile jsSpace, hc, ?_,
            fun a ha => List.mem_takeWhile_imp ha, ?_, ?_, hlook⟩
          · intro hh
            rw [hh] at hw
            simp at hw
          · rw [List.takeWhile_append_dropWhile, ← hs]
          · exact fun d hd => dropWhile_head_not jsSpace r1 d hd
        · simp at h

lemma mEt_intro (ctx : Option Char) (me w z : List Char)
    (hctx : wcO ctx = false) (hce : ciEqList "et".data me = true)
    (hwne : w ≠ []) (hwsp : ∀ c ∈ w, jsSpace c = true)
    (hzh : ∀ d, z.head? = some d → jsSpace d = false)
    (hlook : lookNum z = true) : mEt ctx (me ++ (w ++ z)) ≠ none := by
  intro hnone
  have hmcE := (matchCI_some_iff ("et".data) (me ++ (w ++ z)) me (w ++ z)).mpr ⟨hce, rfl⟩
  simp only [mEt] at hnone
  rw [if_neg (by simp [hctx])] at hnone
  split at hnone
  · rename_i hm
    rw [hmcE] at hm
    simp at hm
  · rename_i t m0 r1 hm
    rw [hmcE] at hm
    simp only [Option.some.injEq, Prod.mk.injEq] at hm
    obtain ⟨hm0, hr1⟩ := hm
    subst hr1
    obtain ⟨htw, hdw⟩ := takeWhile_all jsSpace w z hwsp hzh
    rw [htw, hdw] at hnone
    rw [if_neg (by cases w with | nil => exact absurd rfl hwne | cons a b => simp)] at hnone
    rw [if_pos hlook] at hnone
    simp at hnone

lemma mEt_head_none (ctx : Option Char) (c : Char) (t : List Char)
    (hci : ciEq 'e' c = false) : mEt ctx (c :: t) = none := by
  have hmc : matchCI "et".data (c :: t) = none := by
    rw [show ("et".data : List Char) = 'e' :: "t".data from rfl]
    simp only [matchCI]
    rw [if_neg (by simp [hci])]
  simp only [mEt, hmc]
  split <;> rfl

lemma mEt_headW (ctx : Option Char) (c : Char) (t : List Char)
    (hw : wordChar c = false) : mEt ctx (c :: t) = none :=
  mEt_head_none ctx c t (nonword_not_ciEq 'e' c (by decide) (by decide) hw)

lemma mEt_ext (p1 p2 : Option Char) (s : List Char) (hw : wcO p1 = wcO p2)
    (h : mEt p1 s = none) : mEt p2 s = none := by
  have h2 : mEt p1 s = mEt p2 s := by simp only [mEt, hw]
  rw [← h2]
  exact h

lemma et_nw_low : ∀ nw ∈ etNumWords, ∀ a ∈ nw, 97 ≤ a.toNat ∧ a.toNat ≤ 122 := by decide

lemma word_not_space (c : Char) (h : wordChar c = true) : jsSpace c = false := by
  cases hsp : jsSpace c with
  | false => rfl
  | true => rw [space_not_word c hsp] at h; exact absurd h (by simp)

lemma et_transport (M : Option Char → List Char → Option (List Char × Char × List Char))
    (hMlead : ∀ ctx l r lc rest', M ctx l = some (r, lc, rest') →
       wcO ctx = false ∨ ∃ d rt, r = d :: rt ∧ wordChar d = false)
    (hMbound : ∀ ctx l r lc rest', M ctx l = some (r, lc, rest') →
       wcO ctx = false ∨ wcO l.head? = false)
    (hMrepl_e : ∀ ctx l r lc rest', M ctx l = some (r, lc, rest') →
       ∃ d rt, r = d :: rt ∧ (wordChar d = false ∨ ciEq 'e' d = false))
    (hMrepl_sp : ∀ ctx l r lc rest', M ctx l = some (r, lc, rest') →
       ∃ dh rt, r = dh :: rt ∧ jsSpace dh = false)
    (hMrepl_dig : ∀ ctx l r lc rest', M ctx l = some (r, lc, rest') →
       ∃ dh rt, r = dh :: rt ∧ digitChar dh = false)
    (hMrepl_nw : ∀ ctx l r lc rest', M ctx l = some (r, lc, rest') →
       ∃ d rt, r = d :: rt ∧ (wordChar d = false ∨ nwHead d = false)) :
    ∀ ctx c rest out2, Tr M (some c) rest out2 →
      mEt ctx (c :: rest) = none → mEt ctx (c :: out2) = none := by
  intro ctx c rest out2 htr hnone
  cases hP : mEt ctx (c :: out2) with
  | none => rfl
  | some r0 =>
    exfalso
    obtain ⟨rr, lc1, rest1⟩ := r0
    obtain ⟨hctx, me, w, hce, hwne, hwsp, hs, hzh, hlook⟩ := mEt_shape ctx _ _ _ _ hP
    have hmew : ∀ e ∈ me, wordChar e = true :=
      ciEqList_word ("et".data) me (by decide) hce
    cases me with
    | nil =>
      exact absurd rfl (ciEqList_ne_nil _ _ _
        (show ciEqList ('e' :: "t".data) [] = true from hce))
    | cons cm me2 =>
      rw [List.cons_append] at hs
      injection hs with h1 h2
      subst h1
      obtain ⟨y1, hy1a, hy1b⟩ := Tr_block M (fun e => ciEq 'e' e) hMlead hMrepl_e
        me2 (some c) rest out2 (w ++ rest1) htr h2
        (fun e he => hmew e (List.mem_cons_of_mem c he))
        (Or.inr (by simpa [wcO] using hmew c (List.mem_cons_self c me2)))
      obtain ⟨y2, hy2a, hy2b⟩ := Tr_block_P0 M jsSpace hMrepl_sp
        w _ y1 (w ++ rest1) rest1 hy1b rfl hwsp
      have hfin : mEt ctx ((c :: me2) ++ (w ++ y2)) ≠ none := by
        rcases (lookNum_iff rest1).mp hlook with ⟨dg, z2, hseq, hdgne, hdig, hz2⟩ |
          ⟨nw, hnw, m, z2, hseq, hcm, hz2⟩
        · obtain ⟨z2i, hzia, hzib⟩ := Tr_block_P0 M digitChar hMrepl_dig
            dg _ y2 rest1 z2 hy2b hseq hdig
          have hdgw : ∀ e ∈ dg, wordChar e = true := fun e he => digit_word e (hdig e he)
          have hz2i : wcO z2i.head? = false := by
            rcases Tr_inv M _ _ _ hzib with ⟨hn1, hn2⟩ | ⟨zd, t', out3, ha1, ha2, -, -⟩ |
              ⟨r2, lc2, rest2, out3, hm2, hzeq, -⟩
            · rw [hn1]; rfl
            · rw [ha1]
              rw [ha2] at hz2
              exact hz2
            · rcases hMbound _ _ _ _ _ hm2 with hb2 | hb2
              · exfalso
                have hcw := ctxAfter_wcO_ne (ctxAfter (ctxAfter (some c) me2) w) dg
                  hdgne hdgw
                rw [hb2] at hcw
                exact absurd hcw (by simp)
              · exact hb2
          have hy2h : ∀ d, y2.head? = some d → jsSpace d = false := by
            intro d hd
            rw [hzia] at hd
            cases dg with
            | nil => exact absurd rfl hdgne
            | cons a dgt =>
              rw [List.cons_append] at hd
              simp only [List.head?_cons, Option.some.injEq] at hd
              rw [← hd]
              exact word_not_space a (hdgw a (List.mem_cons_self a dgt))
          exact mEt_intro ctx (c :: me2) w y2 hctx hce hwne hwsp hy2h
            ((lookNum_iff y2).mpr (Or.inl ⟨dg, z2i, hzia, hdgne, hdig, hz2i⟩))
        · have hnwne : nw ≠ [] := by
            intro hh
            rw [hh] at hnw
            revert hnw
            decide
          have hmw : ∀ e ∈ m, wordChar e = true :=
            ciEqList_word nw m (et_nw_low nw hnw) hcm
          have hmne : m ≠ [] := by
            cases hnwc : nw with
            | nil => exact absurd hnwc hnwne
            | cons e nw2 =>
              rw [hnwc] at hcm
              exact ciEqList_ne_nil _ _ _ hcm
          have hmhd : ∀ e, m.head? = some e → nwHead e = true := by
            intro e he
            cases m with
            | nil => simp at he
            | cons a m2 =>
              simp only [List.head?_cons, Option.some.injEq] at he
              subst he
              cases hnwc : nw with
              | nil => exact absurd hnwc hnwne
              | cons e0 nw2 =>
                rw [hnwc] at hcm hnw
                have hcee : ciEq e0 a = true := ciEqList_head _ _ _ _ hcm
                simp only [nwHead, List.any_eq_true]
                exact ⟨e0 :: nw2, hnw, by simp only [List.head?_cons]; exact hcee⟩
          obtain ⟨z2i, hzia, hzib⟩ := Tr_block M nwHead hMlead hMrepl_nw
            m _ y2 rest1 z2 hy2b hseq hmw (Or.inl hmhd)
          have hz2i : wcO z2i.head? = false := by
            rcases Tr_inv M _ _ _ hzib with ⟨hn1, hn2⟩ | ⟨zd, t', out3, ha1, ha2, -, -⟩ |
              ⟨r2, lc2, rest2, out3, hm2, hzeq, -⟩
            · rw [hn1]; rfl
            · rw [ha1]
              rw [ha2] at hz2
              exact hz2
            · rcases hMbound _ _ _ _ _ hm2 with hb2 | hb2
              · exfalso
                have hcw := ctxAfter_wcO_ne (ctxAfter (ctxAfter (some c) me2) w) m
                  hmne hmw
                rw [hb2] at hcw
                exact absurd hcw (by simp)
              · exact hb2
          have hy2h : ∀ d, y2.head? = some d → jsSpace d = false := by
            intro d hd
            rw [hzia] at hd
            cases m with
            | nil => exact absurd rfl hmne
            | cons a m2 =>
              rw [List.cons_append] at hd
              simp only [List.head?_cons, Option.some.injEq] at hd
              rw [← hd]
              exact word_not_space a (hmw a (List.mem_cons_self a m2))
          exact mEt_intro ctx (c :: me2) w y2 hctx hce hwne hwsp hy2h
            ((lookNum_iff y2).mpr (Or.inr ⟨nw, hnw, m, z2i, hzia, hcm, hz2i⟩))
      refine hfin ?_
      rw [← hnone]
      congr 1
      rw [List.cons_append, hy1a, hy2a]

lemma MreplP_or {r : List Char} {P0 : Char → Bool}
    (h : ∃ dh rt, r = dh :: rt ∧ P0 dh = false) :
    ∃ d rt, r = d :: rt ∧ (wordChar d = false ∨ P0 d = false) := by
  obtain ⟨dh, rt, hr, hp⟩ := h
  exact ⟨dh, rt, hr, Or.inr hp⟩

lemma presE_ops : ∀ ctx l out, Tr mOps ctx l out → NoM mEt ctx l → NoM mEt ctx out :=
  gen_pres mEt mOps mEt_headW mEt_ext
    (et_transport mOps mOps_Mlead mOps_Mbound (mOps_Mrepl 'e')
      (mOps_MreplP jsSpace (by decide)) (mOps_MreplP digitChar (by decide))
      (fun ctx l r lc rest' hm => MreplP_or (mOps_MreplP nwHead (by decide) ctx l r lc rest' hm)))
    mOps_Mlead mOps_Mcons (mOps_Mrchars mEt mEt_headW) mOps_Mjunc

lemma presE_fois : ∀ ctx l out, Tr mFois ctx l out → NoM mEt ctx l → NoM mEt ctx out :=
  gen_pres mEt mFois mEt_headW mEt_ext
    (et_transport mFois mFois_Mlead mFois_Mbound (mFois_Mrepl 'e' (by decide))
      (mFois_MreplP jsSpace (by decide)) (mFois_MreplP digitChar (by decide))
      (fun ctx l r lc rest' hm => MreplP_or (mFois_MreplP nwHead (by decide) ctx l r lc rest' hm)))
    mFois_Mlead mFois_Mcons
    (mFois_Mrchars mEt 'e' (by decide) mEt_head_none) mFois_Mjunc

lemma presE_mx : ∀ ctx l out, Tr mMx ctx l out → NoM mEt ctx l → NoM mEt ctx out :=
  gen_pres mEt mMx mEt_headW mEt_ext
    (et_transport mMx mMx_Mlead mMx_Mbound (mMx_Mrepl 'e' (by decide))
      (mMx_MreplP jsSpace (by decide)) (mMx_MreplP digitChar (by decide))
      (fun ctx l r lc rest' hm => MreplP_or (mMx_MreplP nwHead (by decide) ctx l r lc rest' hm)))
    mMx_Mlead mMx_Mcons
    (mMx_Mrchars mEt 'e' (by decide) (by decide) (by decide) (by decide)
      mEt_head_none) mMx_Mjunc

lemma presE_barem : ∀ ctx l out, Tr mBareM ctx l out → NoM mEt ctx l → NoM mEt ctx out :=
  gen_pres mEt mBareM mEt_headW mEt_ext
    (et_transport mBareM mBareM_Mlead mBareM_Mbound (mBareM_Mrepl 'e' (by decide))
      (mBareM_MreplP jsSpace (by decide)) (mBareM_MreplP digitChar (by decide))
      (fun ctx l r lc rest' hm => MreplP_or (mBareM_MreplP nwHead (by decide) ctx l r lc rest' hm)))
    mBareM_Mlead mBareM_Mcons
    (mBareM_Mrchars mEt 'e' (by decide) (by decide) (by decide)
      mEt_head_none) mBareM_Mjunc

lemma postE : ∀ ctx l out, Tr mEt ctx l out → NoM mEt ctx out :=
  gen_post mEt mEt_headW mEt_ext
    (et_transport mEt mEt_Mlead mEt_Mbound (mEt_Mrepl 'e')
      (mEt_MreplP jsSpace (by decide)) (mEt_MreplP digitChar (by decide))
      (fun ctx l r lc rest' hm => MreplP_or (mEt_MreplP nwHead (by decide) ctx l r lc rest' hm)))
    mEt_Mlead (mEt_Mrchars mEt mEt_headW) mEt_Mjunc

/-! ## C4: self-replacement machinery for the two `m`-rules -/

lemma xchar_not_digit (c : Char) (h : isXChar c = true) : digitChar c = false := by
  simp only [isXChar, Bool.or_eq_true, decide_eq_true_eq] at h
  simp only [digitChar, Bool.and_eq_false_iff, decide_eq_false_iff_not]
  omega

lemma xchar_not_space (c : Char) (h : isXChar c = true) : jsSpace c = false := by
  simp only [isXChar, Bool.or_eq_true, decide_eq_true_eq] at h
  simp only [jsSpace, Bool.or_eq_false_iff, Bool.and_eq_false_iff,
    decide_eq_false_iff_not]
  omega

lemma nonword_not_digit (c : Char) (h : wordChar c = false) : digitChar c = false := by
  cases hq : digitChar c with
  | false => rfl
  | true => rw [digit_word c hq] at h; exact absurd h (by simp)

lemma nonword_head_not_digit (z : List Char) (h : wcO z.head? = false) :
    ∀ d, z.head? = some d → digitChar d = false := by
  intro d hd
  rw [hd] at h
  exact nonword_not_digit d (by simpa [wcO] using h)

lemma mMx_compute (ctx : Option Char) (cm xc : Char) (s1 d1 s2 s3 d2 z : List Char)
    (hctx : wcO ctx = false) (hcm : ciEq 'm' cm = true)
    (hs1 : ∀ c ∈ s1, jsSpace c = true) (hd1 : ∀ c ∈ d1, digitChar c = true)
    (hd1ne : d1 ≠ []) (hs2 : ∀ c ∈ s2, jsSpace c = true) (hxc : isXChar xc = true)
    (hs3 : ∀ c ∈ s3, jsSpace c = true) (hd2 : ∀ c ∈ d2, digitChar c = true)
    (hd2ne : d2 ≠ []) (hz : wcO z.head? = false) :
    mMx ctx (cm :: (s1 ++ (d1 ++ (s2 ++ (xc :: (s3 ++ (d2 ++ z))))))) =
      some ('M' :: (d1 ++ 'x' :: d2), d2.getLastD '0', z) := by
  have hd1h : ∀ d, (d1 ++ (s2 ++ (xc :: (s3 ++ (d2 ++ z))))).head? = some d →
      jsSpace d = false := by
    intro d hd
    cases d1 with
    | nil => exact absurd rfl hd1ne
    | cons a t =>
      rw [List.cons_append] at hd
      simp only [List.head?_cons, Option.some.injEq] at hd
      rw [← hd]
      exact word_not_space a (digit_word a (hd1 a (List.mem_cons_self a t)))
  have hs2h : ∀ d, (s2 ++ (xc :: (s3 ++ (d2 ++ z)))).head? = some d →
      digitChar d = false := by
    intro d hd
    cases s2 with
    | nil =>
      rw [List.nil_append] at hd
      simp only [List.head?_cons, Option.some.injEq] at hd
      rw [← hd]
      exact xchar_not_digit xc hxc
    | cons a t =>
      rw [List.cons_append] at hd
      simp only [List.head?_cons, Option.some.injEq] at hd
      rw [← hd]
      exact nonword_not_digit a (space_not_word a (hs2 a (List.mem_cons_self a t)))
  have hd2hsp : ∀ d, (d2 ++ z).head? = some d → jsSpace d = false := by
    intro d hd
    cases d2 with
    | nil => exact absurd rfl hd2ne
    | cons a t =>
      rw [List.cons_append] at hd
      simp only [List.head?_cons, Option.some.injEq] at hd
      rw [← hd]
      exact word_not_space a (digit_word a (hd2 a (List.mem_cons_self a t)))
  obtain ⟨ht1, hw1⟩ := takeWhile_all jsSpace s1 (d1 ++ (s2 ++ (xc :: (s3 ++ (d2 ++ z)))))
    hs1 hd1h
  obtain ⟨ht2, hw2⟩ := takeWhile_all digitChar d1 (s2 ++ (xc :: (s3 ++ (d2 ++ z))))
    hd1 hs2h
  obtain ⟨ht3, hw3⟩ := takeWhile_all jsSpace s2 (xc :: (s3 ++ (d2 ++ z))) hs2
    (fun d hd => by
      simp only [List.head?_cons, Option.some.injEq] at hd
      rw [← hd]
      exact xchar_not_space xc hxc)
  obtain ⟨ht4, hw4⟩ := takeWhile_all jsSpace s3 (d2 ++ z) hs3 hd2hsp
  obtain ⟨ht5, hw5⟩ := takeWhile_all digitChar d2 z hd2 (nonword_head_not_digit z hz)
  simp only [mMx]
  rw [if_neg (by simp [hctx])]
  rw [if_pos hcm]
  rw [hw1, ht2]
  rw [if_neg (by cases d1 with | nil => exact absurd rfl hd1ne | cons a b => simp)]
  rw [hw2, hw3]
  simp only []
  rw [if_pos hxc]
  rw [hw4, ht5]
  rw [if_neg (by cases d2 with | nil => exact absurd rfl hd2ne | cons a b => simp)]
  rw [hw5]
  rw [if_pos (by simp [hz])]

lemma mBareM_compute (ctx : Option Char) (cm : Char) (s1 d1 z : List Char)
    (hctx : wcO ctx = false) (hcm : ciEq 'm' cm = true)
    (hs1 : ∀ c ∈ s1, jsSpace c = true) (hd1 : ∀ c ∈ d1, digitChar c = true)
    (hd1ne : d1 ≠ []) (hz : wcO z.head? = false) :
    mBareM ctx (cm :: (s1 ++ (d1 ++ z))) =
      some ('M' :: d1, d1.getLastD '0', z) := by
  have hd1h : ∀ d, (d1 ++ z).head? = some d → jsSpace d = false := by
    intro d hd
    cases d1 with
    | nil => exact absurd rfl hd1ne
    | cons a t =>
      rw [List.cons_append] at hd
      simp only [List.head?_cons, Option.some.injEq] at hd
      rw [← hd]
      exact word_not_space a (digit_word a (hd1 a (List.mem_cons_self a t)))
  obtain ⟨ht1, hw1⟩ := takeWhile_all jsSpace s1 (d1 ++ z) hs1 hd1h
  obtain ⟨ht2, hw2⟩ := takeWhile_all digitChar d1 z hd1 (nonword_head_not_digit z hz)
  simp only [mBareM]
  rw [if_neg (by simp [hctx])]
  rw [if_pos hcm]
  rw [hw1, ht2]
  rw [if_neg (by cases d1 with | nil => exact absurd rfl hd1ne | cons a b => simp)]
  rw [hw2]
  rw [if_pos (by simp [hz])]

/-! ## C4: full shape characterizations of the two `m`-rules -/

lemma ctxAfter_append : ∀ (a : List Char) (ctx : Option Char) (b : List Char),
    ctxAfter ctx (a ++ b) = ctxAfter (ctxAfter ctx a) b := by
  intro a
  induction a with
  | nil => intro ctx b; rfl
  | cons c a2 ih =>
    intro ctx b
    rw [List.cons_append, ctxAfter_cons, ctxAfter_cons]
    exact ih (some c) b

lemma mMx_nil (ctx : Option Char) : mMx ctx [] = none := by
  simp only [mMx]
  split <;> rfl

lemma mBareM_nil (ctx : Option Char) : mBareM ctx [] = none := by
  simp only [mBareM]
  split <;> rfl

lemma mMx_head_none (ctx : Option Char) (c : Char) (t : List Char)
    (hci : ciEq 'm' c = false) : mMx ctx (c :: t) = none := by
  simp only [mMx]
  split
  · rfl
  · rw [if_neg (by simp [hci])]

lemma mBareM_head_none (ctx : Option Char) (c : Char) (t : List Char)
    (hci : ciEq 'm' c = false) : mBareM ctx (c :: t) = none := by
  simp only [mBareM]
  split
  · rfl
  · rw [if_neg (by simp [hci])]

lemma mMx_congr (p1 p2 : Option Char) (s : List Char) (hw : wcO p1 = wcO p2) :
    mMx p1 s = mMx p2 s := by
  simp only [mMx, hw]

lemma mBareM_congr (p1 p2 : Option Char) (s : List Char) (hw : wcO p1 = wcO p2) :
    mBareM p1 s = mBareM p2 s := by
  simp only [mBareM, hw]

lemma mMx_word_ctx (p : Option Char) (s : List Char) (h : wcO p = true) :
    mMx p s = none := by
  simp [mMx, h]

lemma mBareM_word_ctx (p : Option Char) (s : List Char) (h : wcO p = true) :
    mBareM p s = none := by
  simp [mBareM, h]

lemma mMx_shape (ctx : Option Char) (s r : List Char) (lc : Char) (rest' : List Char)
    (h : mMx ctx s = some (r, lc, rest')) :
    wcO ctx = false ∧
    ∃ cm s1 d1 s2 xc s3 d2, ciEq 'm' cm = true ∧
      (∀ a ∈ s1, jsSpace a = true) ∧ (∀ a ∈ d1, digitChar a = true) ∧ d1 ≠ [] ∧
      (∀ a ∈ s2, jsSpace a = true) ∧ isXChar xc = true ∧
      (∀ a ∈ s3, jsSpace a = true) ∧ (∀ a ∈ d2, digitChar a = true) ∧ d2 ≠ [] ∧
      wcO rest'.head? = false ∧
      s = cm :: (s1 ++ (d1 ++ (s2 ++ (xc :: (s3 ++ (d2 ++ rest')))))) ∧
      r = 'M' :: (d1 ++ 'x' :: d2) ∧ lc = d2.getLastD '0' := by
  simp only [mMx] at h
  split at h
  · simp at h
  · split at h
    · simp at h
    · rename_i hctx x0 c r1
      split at h
      · rename_i hcm
        split at h
        · simp at h
        · rename_i hd1
          split at h
          · simp at h
          · rename_i x r4 hr3
            split at h
            · rename_i hx
              split at h
              · simp at h
              · rename_i hd2
                split at h
                · rename_i hb
                  simp only [Option.some.injEq, Prod.mk.injEq] at h
                  obtain ⟨rfl, rfl, rfl⟩ := h
                  have hd1ne : (r1.dropWhile jsSpace).takeWhile digitChar ≠ [] := by
                    intro hh; rw [hh] at hd1; simp at hd1
                  have hd2ne : (r4.dropWhile jsSpace).takeWhile digitChar ≠ [] := by
                    intro hh; rw [hh] at hd2; simp at hd2
                  have A5 : r4.dropWhile jsSpace =
                      (r4.dropWhile jsSpace).takeWhile digitChar ++
                      (r4.dropWhile jsSpace).dropWhile digitChar :=
                    (List.takeWhile_append_dropWhile _ _).symm
                  have A4 : r4 = r4.takeWhile jsSpace ++
                      ((r4.dropWhile jsSpace).takeWhile digitChar ++
                       (r4.dropWhile jsSpace).dropWhile digitChar) := by
                    conv_lhs => rw [(List.takeWhile_append_dropWhile jsSpace r4).symm]
                    rw [← A5]
                  have A3 : (r1.dropWhile jsSpace).dropWhile digitChar =
                      ((r1.dropWhile jsSpace).dropWhile digitChar).takeWhile jsSpace ++
                      (x :: (r4.takeWhile jsSpace ++
                        ((r4.dropWhile jsSpace).takeWhile digitChar ++
                         (r4.dropWhile jsSpace).dropWhile digitChar))) := by
                    conv_lhs => rw [(List.takeWhile_append_dropWhile jsSpace
                      ((r1.dropWhile jsSpace).dropWhile digitChar)).symm, hr3]
                    rw [← A4]
                  have A2 : r1.dropWhile jsSpace =
                      (r1.dropWhile jsSpace).takeWhile digitChar ++
                      (((r1.dropWhile jsSpace).dropWhile digitChar).takeWhile jsSpace ++
                      (x :: (r4.takeWhile jsSpace ++
                        ((r4.dropWhile jsSpace).takeWhile digitChar ++
                         (r4.dropWhile jsSpace).dropWhile digitChar)))) := by
                    conv_lhs => rw [(List.takeWhile_append_dropWhile digitChar
                      (r1.dropWhile jsSpace)).symm]
                    rw [← A3]
                  have A1 : r1 = r1.takeWhile jsSpace ++
                      ((r1.dropWhile jsSpace).takeWhile digitChar ++
                      (((r1.dropWhile jsSpace).dropWhile digitChar).takeWhile jsSpace ++
                      (x :: (r4.takeWhile jsSpace ++
                        ((r4.dropWhile jsSpace).takeWhile digitChar ++
                         (r4.dropWhile jsSpace).dropWhile digitChar))))) := by
                    conv_lhs => rw [(List.takeWhile_append_dropWhile jsSpace r1).symm]
                    rw [← A2]
                  refine ⟨by simpa using hctx, c, r1.takeWhile jsSpace,
                    (r1.dropWhile jsSpace).takeWhile digitChar,
                    ((r1.dropWhile jsSpace).dropWhile digitChar).takeWhile jsSpace, x,
                    r4.takeWhile jsSpace, (r4.dropWhile jsSpace).takeWhile digitChar,
                    hcm, fun a ha => List.mem_takeWhile_imp ha,
                    fun a ha => List.mem_takeWhile_imp ha, hd1ne,
                    fun a ha => List.mem_takeWhile_imp ha, hx,
                    fun a ha => List.mem_takeWhile_imp ha,
                    fun a ha => List.mem_takeWhile_imp ha, hd2ne,
                    by simpa using hb, ?_, rfl, rfl⟩
                  conv_lhs => rw [A1]
                · simp at h
            · simp at h
      · simp at h

lemma mBareM_shape (ctx : Option Char) (s r : List Char) (lc : Char) (rest' : List Char)
    (h : mBareM ctx s = some (r, lc, rest')) :
    wcO ctx = false ∧
    ∃ cm s1 d1, ciEq 'm' cm = true ∧
      (∀ a ∈ s1, jsSpace a = true) ∧ (∀ a ∈ d1, digitChar a = true) ∧ d1 ≠ [] ∧
      wcO rest'.head? = false ∧
      s = cm :: (s1 ++ (d1 ++ rest')) ∧
      r = 'M' :: d1 ∧ lc = d1.getLastD '0' := by
  simp only [mBareM] at h
  split at h
  · simp at h
  · split at h
    · simp at h
    · rename_i hctx x0 c r1
      split at h
      · rename_i hcm
        split at h
        · simp at h
        · rename_i hd1
          split at h
          · rename_i hb
            simp only [Option.some.injEq, Prod.mk.injEq] at h
            obtain ⟨rfl, rfl, rfl⟩ := h
            have hd1ne : (r1.dropWhile jsSpace).takeWhile digitChar ≠ [] := by
              intro hh; rw [hh] at hd1; simp at hd1
            have A2 : r1.dropWhile jsSpace =
                (r1.dropWhile jsSpace).takeWhile digitChar ++
                (r1.dropWhile jsSpace).dropWhile digitChar :=
              (List.takeWhile_append_dropWhile _ _).symm
            have A1 : r1 = r1.takeWhile jsSpace ++
                ((r1.dropWhile jsSpace).takeWhile digitChar ++
                 (r1.dropWhile jsSpace).dropWhile digitChar) := by
              conv_lhs => rw [(List.takeWhile_append_dropWhile jsSpace r1).symm]
              rw [← A2]
            refine ⟨by simpa using hctx, c, r1.takeWhile jsSpace,
              (r1.dropWhile jsSpace).takeWhile digitChar, hcm,
              fun a ha => List.mem_takeWhile_imp ha,
              fun a ha => List.mem_takeWhile_imp ha, hd1ne,
              by simpa using hb, ?_, rfl, rfl⟩
            conv_lhs => rw [A1]
          · simp at h
      · simp at h

/-! ## C4: pointwise self-replacement predicate and conversions -/

lemma SelfAt_drop (M : Option Char → List Char → Option (List Char × Char × List Char))
    (a : List Char) (ctx : Option Char) (l : List Char)
    (h : SelfAt M ctx (a ++ l)) : SelfAt M (ctxAfter ctx a) l := by
  intro pre rest heq r lc rest2 hm
  refine h (a ++ pre) rest (by rw [heq, List.append_assoc]) r lc rest2 ?_
  rw [ctxAfter_append]
  exact hm

lemma SelfM_of_SelfAt (M : Option Char → List Char → Option (List Char × Char × List Char))
    (hMcons : ∀ ctx l r lc rest', M ctx l = some (r, lc, rest') →
      ∃ con, l = con ++ rest' ∧ con ≠ [] ∧ con.getLast? = some lc)
    (hMrne : ∀ ctx l r lc rest', M ctx l = some (r, lc, rest') → r ≠ []) :
    ∀ (n : Nat) (ctx : Option Char) (l : List Char), l.length ≤ n →
      SelfAt M ctx l → SelfM M ctx l := by
  intro n
  induction n with
  | zero =>
    intro ctx l hl h
    have h0 : l = [] := List.length_eq_zero.mp (Nat.le_zero.mp hl)
    subst h0
    exact SelfM.nil ctx
  | succ n ih =>
    intro ctx l hl h
    cases l with
    | nil => exact SelfM.nil ctx
    | cons c t =>
      cases hm : M ctx (c :: t) with
      | none =>
        refine SelfM.copy ctx c t hm (ih (some c) t (by simpa using hl) ?_)
        exact SelfAt_drop M [c] ctx t h
      | some v =>
        obtain ⟨r, lc, rest2⟩ := v
        have hself : r ++ rest2 = c :: t := h [] (c :: t) rfl r lc rest2 hm
        obtain ⟨con, hconeq, hconne, hconl⟩ := hMcons ctx (c :: t) r lc rest2 hm
        refine SelfM.self ctx c t r lc rest2 hm hself
          (hMrne ctx (c :: t) r lc rest2 hm) (ih (some lc) rest2 ?_ ?_)
        · have hlen := congrArg List.length hconeq
          simp only [List.length_cons, List.length_append] at hlen
          have hcl : 0 < con.length := List.length_pos.mpr hconne
          simp only [List.length_cons] at hl
          omega
        · have h2 := SelfAt_drop M con ctx rest2 (by rw [← hconeq]; exact h)
          rwa [show ctxAfter ctx con = some lc from by unfold ctxAfter; rw [hconl]] at h2

lemma SelfAt_of_SelfM (M : Option Char → List Char → Option (List Char × Char × List Char))
    (hMnil : ∀ ctx, M ctx [] = none)
    (hMctxF : ∀ p s r0, M p s = some r0 → wcO p = false)
    (hMrword : ∀ ctx l r lc rest', M ctx l = some (r, lc, rest') →
      ∀ d ∈ r, wordChar d = true)
    (hMrlast : ∀ ctx l r lc rest', M ctx l = some (r, lc, rest') →
      r.getLast? = some lc) :
    ∀ (ctx : Option Char) (l : List Char), SelfM M ctx l → SelfAt M ctx l := by
  intro ctx l h
  induction h with
  | nil p =>
    intro pre rest heq r lc rest2 hm
    have hr : rest = [] := (List.append_eq_nil.mp heq.symm).2
    subst hr
    rw [hMnil _] at hm
    exact absurd hm (by simp)
  | copy p c t hmn hs ih =>
    intro pre rest heq r lc rest2 hm
    cases pre with
    | nil =>
      rw [List.nil_append] at heq
      subst heq
      rw [show ctxAfter p ([] : List Char) = p from rfl, hmn] at hm
      exact absurd hm (by simp)
    | cons a pre2 =>
      rw [List.cons_append] at heq
      injection heq with h1 h2
      subst h1
      rw [ctxAfter_cons] at hm
      exact ih pre2 rest h2 r lc rest2 hm
  | self p c t r0 lc0 rest0 hm0 hself0 hrne0 hs ih =>
    intro pre rest heq r lc rest2 hm
    cases pre with
    | nil =>
      rw [List.nil_append] at heq
      subst heq
      rw [show ctxAfter p ([] : List Char) = p from rfl, hm0] at hm
      simp only [Option.some.injEq, Prod.mk.injEq] at hm
      obtain ⟨h1, h2, h3⟩ := hm
      subst h1
      subst h3
      exact hself0
    | cons a pre2 =>
      rw [List.cons_append] at heq
      injection heq with h1 h2
      rw [← h1] at hm
      cases r0 with
      | nil => exact absurd rfl hrne0
      | cons b r0t =>
        rw [List.cons_append] at hself0
        injection hself0 with h3 h4
        have hsplit := List.append_eq_append_iff.mp (h2 ▸ h4)
        rcases hsplit with ⟨a2, ha2, hb2⟩ | ⟨c2, hc2, hd2⟩
        · have hctxe : ctxAfter p (c :: pre2) = ctxAfter (some lc0) a2 := by
            rw [ha2, ← List.cons_append, ctxAfter_append]
            have hcl : ctxAfter p (c :: r0t) = some lc0 := by
              unfold ctxAfter
              have hgl : (b :: r0t).getLast? = some lc0 := hMrlast _ _ _ _ _ hm0
              rw [h3] at hgl
              rw [hgl]
            rw [hcl]
          rw [hctxe] at hm
          exact ih a2 rest hb2 r lc rest2 hm
        · cases c2 with
          | nil =>
            have hc2n : r0t = pre2 := by rw [hc2, List.append_nil]
            have hd2n : rest = rest0 := by rw [hd2, List.nil_append]
            have hctxp : ctxAfter p (c :: pre2) = some lc0 := by
              unfold ctxAfter
              have hgl : (b :: r0t).getLast? = some lc0 := hMrlast _ _ _ _ _ hm0
              rw [h3, hc2n] at hgl
              rw [hgl]
            rw [hctxp, hd2n] at hm
            rw [hd2n]
            exact ih [] rest0 rfl r lc rest2 hm
          | cons e a3 =>
            exfalso
            have hwall : ∀ d ∈ (c :: pre2), wordChar d = true := by
              intro d hd
              refine hMrword _ _ _ _ _ hm0 d ?_
              rw [h3, hc2]
              rcases List.mem_cons.mp hd with hh | hh
              · rw [hh]
                exact List.mem_cons_self _ _
              · exact List.mem_cons_of_mem _ (List.mem_append_left _ hh)
            have hwc : wcO (ctxAfter p (c :: pre2)) = true :=
              ctxAfter_wcO_ne p (c :: pre2) (by simp) hwall
            rw [hMctxF _ _ _ hm] at hwc
            exact absurd hwc (by simp)

lemma SelfM_wcO (M : Option Char → List Char → Option (List Char × Char × List Char))
    (hext : ∀ q1 q2 s, wcO q1 = wcO q2 → M q1 s = M q2 s)
    (p1 p2 : Option Char) (l : List Char) (hw : wcO p1 = wcO p2)
    (h : SelfM M p1 l) : SelfM M p2 l := by
  cases h with
  | nil => exact SelfM.nil p2
  | copy _ c rest hm ht =>
    exact SelfM.copy p2 c rest (by rw [← hext p1 p2 _ hw]; exact hm) ht
  | self _ c rest r lc rest' hm heq hne hs =>
    exact SelfM.self p2 c rest r lc rest' (by rw [← hext p1 p2 _ hw]; exact hm) heq hne hs

lemma SelfM_drop_word (M : Option Char → List Char → Option (List Char × Char × List Char))
    (hMw : ∀ p s, wcO p = true → M p s = none) :
    ∀ (a : List Char) (ctx : Option Char) (l : List Char), SelfM M ctx (a ++ l) →
      wcO ctx = true → (∀ d ∈ a, wordChar d = true) → SelfM M (ctxAfter ctx a) l := by
  intro a
  induction a with
  | nil => intro ctx l h _ _; exact h
  | cons b a2 ih =>
    intro ctx l h hctx hall
    rw [ctxAfter_cons]
    rw [List.cons_append] at h
    cases h with
    | copy _ _ _ hm ht =>
      exact ih (some b) l ht
        (by simpa [wcO] using hall b (List.mem_cons_self b a2))
        (fun d hd => hall d (List.mem_cons_of_mem b hd))
    | self _ _ _ r lc rest' hm heq hne hs =>
      rw [hMw ctx _ hctx] at hm
      exact absurd hm (by simp)

lemma SelfM_cons_word (M : Option Char → List Char → Option (List Char × Char × List Char))
    (hMw : ∀ p s, wcO p = true → M p s = none) :
    ∀ (a : List Char) (ctx : Option Char) (l : List Char),
      (∀ d ∈ a, wordChar d = true) → M ctx (a ++ l) = none →
      SelfM M (ctxAfter ctx a) l → SelfM M ctx (a ++ l) := by
  intro a
  induction a with
  | nil => intro ctx l _ _ h; exact h
  | cons b a2 ih =>
    intro ctx l hall hnone h
    rw [List.cons_append]
    refine SelfM.copy ctx b (a2 ++ l) (by rw [← List.cons_append]; exact hnone) ?_
    have hb : wcO (some b) = true := by
      simpa [wcO] using hall b (List.mem_cons_self b a2)
    refine ih (some b) l (fun d hd => hall d (List.mem_cons_of_mem b hd))
      (hMw (some b) _ hb) ?_
    rw [ctxAfter_cons] at h
    exact h

lemma Tr_bound (M : Option Char → List Char → Option (List Char × Char × List Char))
    (hMbound : ∀ ctx l r lc rest', M ctx l = some (r, lc, rest') →
      wcO ctx = false ∨ wcO l.head? = false)
    (ctx' : Option Char) (z' out' : List Char) (h : Tr M ctx' z' out')
    (hout : wcO out'.head? = false) (hctx : wcO ctx' = true) :
    wcO z'.head? = false := by
  rcases Tr_inv M ctx' z' out' h with ⟨h1, h2⟩ | ⟨c, t', out2, h1, h2, hmn, -⟩ |
    ⟨r2, lc2, rest2, out3, hm2, hzeq, -⟩
  · rw [h1]; rfl
  · rw [h1]
    rw [h2] at hout
    exact hout
  · rcases hMbound _ _ _ _ _ hm2 with hb | hb
    · rw [hctx] at hb
      exact absurd hb (by simp)
    · exact hb

lemma NoM_intro (M : Option Char → List Char → Option (List Char × Char × List Char)) :
    ∀ (l : List Char) (ctx : Option Char),
      (∀ pre c t, l = pre ++ c :: t → M (ctxAfter ctx pre) (c :: t) = none) →
      NoM M ctx l := by
  intro l
  induction l with
  | nil => intro ctx _; exact NoM.nil ctx
  | cons c t ih =>
    intro ctx h
    refine NoM.cons ctx c t (h [] c t rfl) (ih (some c) ?_)
    intro pre d t2 heq
    have h2 := h (c :: pre) d t2 (by rw [heq, List.cons_append])
    rw [ctxAfter_cons] at h2
    exact h2

lemma Tr_runScan (M : Option Char → List Char → Option (List Char × Char × List Char))
    (hMcons : ∀ ctx l r lc rest', M ctx l = some (r, lc, rest') →
      ∃ con, l = con ++ rest' ∧ con ≠ [] ∧ con.getLast? = some lc)
    (l : List Char) : Tr M none l (runScan M l) := by
  refine Tr_scanF M ?_ l.length none l le_rfl
  intro prev s r lc rest' hm
  obtain ⟨con, hceq, hcne, -⟩ := hMcons prev s r lc rest' hm
  rw [hceq]
  simp only [List.length_append]
  have hpos : 0 < con.length := List.length_pos.mpr hcne
  omega

lemma wcO_append_sp (z b : List Char) (hz : wcO z.head? = false)
    (hb : ∀ d ∈ b, jsSpace d = true) : wcO (z ++ b).head? = false := by
  cases z with
  | cons c t => exact hz
  | nil =>
    cases b with
    | nil => rfl
    | cons d t =>
      simp only [List.nil_append, List.head?_cons]
      simpa [wcO] using space_not_word d (hb d (List.mem_cons_self d t))

lemma wcO_ctxAfter_congr (p1 p2 : Option Char) (pre : List Char)
    (h : wcO p1 = wcO p2) : wcO (ctxAfter p1 pre) = wcO (ctxAfter p2 pre) := by
  unfold ctxAfter
  cases pre.getLast? with
  | none => exact h
  | some x => rfl

lemma block_unique (p : Char → Bool) : ∀ (a c b d : List Char),
    a ++ b = c ++ d → (∀ x ∈ a, p x = true) → (∀ x ∈ c, p x = true) →
    (∀ x, b.head? = some x → p x = false) → (∀ x, d.head? = some x → p x = false) →
    a = c ∧ b = d := by
  intro a
  induction a with
  | nil =>
    intro c b d heq ha hc hb hd
    cases c with
    | nil =>
      simp only [List.nil_append] at heq
      exact ⟨rfl, heq⟩
    | cons e c2 =>
      exfalso
      rw [List.nil_append, List.cons_append] at heq
      have h1 := hb e (by rw [heq]; rfl)
      rw [hc e (List.mem_cons_self e c2)] at h1
      exact absurd h1 (by simp)
  | cons x a2 ih =>
    intro c b d heq ha hc hb hd
    cases c with
    | nil =>
      exfalso
      rw [List.nil_append, List.cons_append] at heq
      have h1 := hd x (by rw [← heq]; rfl)
      rw [ha x (List.mem_cons_self x a2)] at h1
      exact absurd h1 (by simp)
    | cons y c2 =>
      rw [List.cons_append, List.cons_append] at heq
      injection heq with h1 h2
      subst h1
      obtain ⟨ih1, ih2⟩ := ih c2 b d h2
        (fun z hz => ha z (List.mem_cons_of_mem x hz))
        (fun z hz => hc z (List.mem_cons_of_mem x hz)) hb hd
      exact ⟨by rw [ih1], ih2⟩

/-! ## C4: forcing exact self-matches and `m`-rule fact bundles -/

lemma mxr2_getLast (d1 d2 : List Char) (hne : d2 ≠ []) :
    (d1 ++ 'x' :: d2).getLast? = some (d2.getLastD '0') := by
  rw [List.getLast?_append_of_ne_nil _ (by simp : ('x' :: d2 : List Char) ≠ []),
    show ('x' :: d2 : List Char) = ['x'] ++ d2 from rfl,
    List.getLast?_append_of_ne_nil _ hne]
  exact getLast?_of_ne_nil d2 _ hne

lemma mxr_getLast (d1 d2 : List Char) (hne : d2 ≠ []) :
    ('M' :: (d1 ++ 'x' :: d2)).getLast? = some (d2.getLastD '0') := by
  rw [show ('M' :: (d1 ++ 'x' :: d2) : List Char) = ['M'] ++ (d1 ++ 'x' :: d2) from rfl,
    List.getLast?_append_of_ne_nil _ (by simp : (d1 ++ 'x' :: d2 : List Char) ≠ [])]
  exact mxr2_getLast d1 d2 hne

lemma baremr_getLast (d1 : List Char) (hne : d1 ≠ []) :
    ('M' :: d1).getLast? = some (d1.getLastD '0') := by
  rw [show ('M' :: d1 : List Char) = ['M'] ++ d1 from rfl,
    List.getLast?_append_of_ne_nil _ hne]
  exact getLast?_of_ne_nil d1 _ hne

lemma mx_self_force (c xc : Char) (s1 s2 s3 d1 d2 z : List Char)
    (h : ('M' :: (d1 ++ 'x' :: d2)) ++ z =
      c :: (s1 ++ (d1 ++ (s2 ++ (xc :: (s3 ++ (d2 ++ z))))))) :
    c = 'M' ∧ xc = 'x' ∧ s1 = [] ∧ s2 = [] ∧ s3 = [] := by
  have hlen := congrArg List.length h
  simp only [List.length_append, List.length_cons] at hlen
  have hs1 : s1 = [] := List.length_eq_zero.mp (by omega)
  have hs2 : s2 = [] := List.length_eq_zero.mp (by omega)
  have hs3 : s3 = [] := List.length_eq_zero.mp (by omega)
  subst hs1
  subst hs2
  subst hs3
  simp only [List.nil_append, List.cons_append, List.append_assoc] at h
  injection h with h1 h2
  refine ⟨h1.symm, ?_, rfl, rfl, rfl⟩
  have h3 := List.append_cancel_left h2
  injection h3 with h4
  exact h4.symm

lemma barem_self_force (c : Char) (s1 d1 z : List Char)
    (h : ('M' :: d1) ++ z = c :: (s1 ++ (d1 ++ z))) :
    c = 'M' ∧ s1 = [] := by
  have hlen := congrArg List.length h
  simp only [List.length_append, List.length_cons] at hlen
  have hs1 : s1 = [] := List.length_eq_zero.mp (by omega)
  subst hs1
  simp only [List.nil_append, List.cons_append] at h
  injection h with h1 h2
  exact ⟨h1.symm, rfl⟩

lemma mMx_ctx_false (p : Option Char) (s : List Char)
    (r0 : List Char × Char × List Char) (h : mMx p s = some r0) : wcO p = false := by
  obtain ⟨r, lc, rest'⟩ := r0
  exact (mMx_facts p s r lc rest' h).1

lemma mBareM_ctx_false (p : Option Char) (s : List Char)
    (r0 : List Char × Char × List Char) (h : mBareM p s = some r0) : wcO p = false := by
  obtain ⟨r, lc, rest'⟩ := r0
  exact (mBareM_facts p s r lc rest' h).1

lemma mMx_rword (ctx : Option Char) (l r : List Char) (lc : Char) (rest' : List Char)
    (h : mMx ctx l = some (r, lc, rest')) : ∀ d ∈ r, wordChar d = true := by
  obtain ⟨-, -, d1, d2, hd1, hd2, -, -, hr, -, -⟩ := mMx_facts ctx l r lc rest' h
  subst hr
  intro d hd
  rcases List.mem_cons.mp hd with hh | hh
  · rw [hh]; decide
  · rcases List.mem_append.mp hh with hh2 | hh2
    · exact digit_word d (hd1 d hh2)
    · rcases List.mem_cons.mp hh2 with hh3 | hh3
      · rw [hh3]; decide
      · exact digit_word d (hd2 d hh3)

lemma mBareM_rword (ctx : Option Char) (l r : List Char) (lc : Char) (rest' : List Char)
    (h : mBareM ctx l = some (r, lc, rest')) : ∀ d ∈ r, wordChar d = true := by
  obtain ⟨-, -, d1, hd1, -, hr, -, -⟩ := mBareM_facts ctx l r lc rest' h
  subst hr
  intro d hd
  rcases List.mem_cons.mp hd with hh | hh
  · rw [hh]; decide
  · exact digit_word d (hd1 d hh)

lemma mMx_rlast (ctx : Option Char) (l r : List Char) (lc : Char) (rest' : List Char)
    (h : mMx ctx l = some (r, lc, rest')) : r.getLast? = some lc := by
  obtain ⟨-, -, d1, d2, -, -, -, hd2ne, hr, hlc, -⟩ := mMx_facts ctx l r lc rest' h
  subst hr
  subst hlc
  exact mxr_getLast d1 d2 hd2ne

lemma mBareM_rlast (ctx : Option Char) (l r : List Char) (lc : Char) (rest' : List Char)
    (h : mBareM ctx l = some (r, lc, rest')) : r.getLast? = some lc := by
  obtain ⟨-, -, d1, -, hd1ne, hr, hlc, -⟩ := mBareM_facts ctx l r lc rest' h
  subst hr
  subst hlc
  exact baremr_getLast d1 hd1ne

lemma mMx_rne (ctx : Option Char) (l r : List Char) (lc : Char) (rest' : List Char)
    (h : mMx ctx l = some (r, lc, rest')) : r ≠ [] := by
  obtain ⟨-, -, d1, d2, -, -, -, -, hr, -, -⟩ := mMx_facts ctx l r lc rest' h
  subst hr
  simp

lemma mBareM_rne (ctx : Option Char) (l r : List Char) (lc : Char) (rest' : List Char)
    (h : mBareM ctx l = some (r, lc, rest')) : r ≠ [] := by
  obtain ⟨-, -, d1, -, -, hr, -, -⟩ := mBareM_facts ctx l r lc rest' h
  subst hr
  simp

lemma SelfAt_mMx (ctx : Option Char) (l : List Char) (h : SelfM mMx ctx l) :
    SelfAt mMx ctx l :=
  SelfAt_of_SelfM mMx mMx_nil mMx_ctx_false mMx_rword mMx_rlast ctx l h

lemma SelfAt_mBareM (ctx : Option Char) (l : List Char) (h : SelfM mBareM ctx l) :
    SelfAt mBareM ctx l :=
  SelfAt_of_SelfM mBareM mBareM_nil mBareM_ctx_false mBareM_rword mBareM_rlast ctx l h

lemma SelfM_mMx_of (ctx : Option Char) (l : List Char) (h : SelfAt mMx ctx l) :
    SelfM mMx ctx l :=
  SelfM_of_SelfAt mMx mMx_Mcons mMx_rne l.length ctx l le_rfl h

lemma SelfM_mBareM_of (ctx : Option Char) (l : List Char) (h : SelfAt mBareM ctx l) :
    SelfM mBareM ctx l :=
  SelfM_of_SelfAt mBareM mBareM_Mcons mBareM_rne l.length ctx l le_rfl h

/-! ## C4: the two `m`-scans leave only self-matches -/

lemma post_selfmx : ∀ (ctx : Option Char) (l out : List Char),
    Tr mMx ctx l out → SelfM mMx ctx out := by
  intro ctx l out ht
  induction ht with
  | nil prev => exact SelfM.nil prev
  | copy prev c rest out2 hm htr ih =>
    cases hP : mMx prev (c :: out2) with
    | none => exact SelfM.copy prev c out2 hP ih
    | some v =>
      exfalso
      obtain ⟨r2, lc2, rest2⟩ := v
      obtain ⟨hctx, cm, s1, d1, s2, xc, s3, d2, hcm, hs1, hd1, hd1ne, hs2o, hxc, hs3,
        hd2, hd2ne, hb, hseq, hr2, hlc2⟩ := mMx_shape prev _ _ _ _ hP
      injection hseq with he1 he2
      rw [← he1] at hcm
      obtain ⟨y1, hy1, ht1⟩ := Tr_block_P0 mMx jsSpace (mMx_MreplP jsSpace (by decide))
        s1 (some c) rest out2 _ htr he2 hs1
      obtain ⟨y2, hy2, ht2⟩ := Tr_block_P0 mMx digitChar (mMx_MreplP digitChar (by decide))
        d1 _ y1 _ _ ht1 rfl hd1
      obtain ⟨y3, hy3, ht3⟩ := Tr_block_P0 mMx jsSpace (mMx_MreplP jsSpace (by decide))
        s2 _ y2 _ _ ht2 rfl hs2o
      obtain ⟨y4, hy4, ht4⟩ := Tr_one mMx isXChar (mMx_MreplP isXChar (by decide))
        _ y3 _ xc _ ht3 rfl hxc
      obtain ⟨y5, hy5, ht5⟩ := Tr_block_P0 mMx jsSpace (mMx_MreplP jsSpace (by decide))
        s3 _ y4 _ _ ht4 rfl hs3
      obtain ⟨y6, hy6, ht6⟩ := Tr_block_P0 mMx digitChar (mMx_MreplP digitChar (by decide))
        d2 _ y5 _ _ ht5 rfl hd2
      have hbz : wcO y6.head? = false :=
        Tr_bound mMx mMx_Mbound _ y6 rest2 ht6 hb
          (ctxAfter_wcO_ne _ d2 hd2ne (fun a ha => digit_word a (hd2 a ha)))
      have hin : mMx prev (c :: rest) =
          some ('M' :: (d1 ++ 'x' :: d2), d2.getLastD '0', y6) := by
        rw [show rest = s1 ++ (d1 ++ (s2 ++ (xc :: (s3 ++ (d2 ++ y6))))) from by
          rw [hy1, hy2, hy3, hy4, hy5, hy6]]
        exact mMx_compute prev c xc s1 d1 s2 s3 d2 y6 hctx hcm hs1 hd1 hd1ne hs2o hxc
          hs3 hd2 hd2ne hbz
      rw [hm] at hin
      exact absurd hin (by simp)
  | repl prev c rest r lc rest' out2 hm htr ih =>
    obtain ⟨hctx, cm, s1, d1, s2, xc, s3, d2, hcm, hs1, hd1, hd1ne, hs2o, hxc, hs3,
      hd2, hd2ne, hb, hseq, hr, hlc⟩ := mMx_shape prev _ _ _ _ hm
    have hb2 : wcO out2.head? = false := by
      rcases Tr_inv mMx (some lc) rest' out2 htr with ⟨h1, h2⟩ |
        ⟨cz, t', out3, h1, h2, hmn, -⟩ | ⟨r3, lc3, rest3, out3, hm3, hzeq, -⟩
      · rw [h2]; rfl
      · rw [h2]
        rw [h1] at hb
        exact hb
      · exfalso
        obtain ⟨-, cm3, s13, d13, s23, xc3, s33, d23, hcm3, -, -, -, -, -, -, -, -, -,
          hseq3, -, -⟩ := mMx_shape _ _ _ _ _ hm3
        rw [hseq3] at hb
        simp only [List.head?_cons] at hb
        have hw3 : wordChar cm3 = true :=
          ciEq_lower_word 'm' cm3 (by decide) (by decide) hcm3
        rw [show wcO (some cm3) = wordChar cm3 from rfl, hw3] at hb
        exact absurd hb (by simp)
    subst hr
    subst hlc
    have hout : mMx prev ('M' :: ([] ++ (d1 ++ ([] ++ ('x' :: ([] ++ (d2 ++ out2))))))) =
        some ('M' :: (d1 ++ 'x' :: d2), d2.getLastD '0', out2) :=
      mMx_compute prev 'M' 'x' [] d1 [] [] d2 out2 hctx (by decide) (by simp) hd1 hd1ne
        (by simp) (by decide) (by simp) hd2 hd2ne hb2
    simp only [List.nil_append] at hout
    have hshape : ('M' :: (d1 ++ 'x' :: d2)) ++ out2 =
        'M' :: (d1 ++ ('x' :: (d2 ++ out2))) := by
      simp [List.append_assoc]
    rw [hshape]
    exact SelfM.self prev 'M' (d1 ++ ('x' :: (d2 ++ out2)))
      ('M' :: (d1 ++ 'x' :: d2)) (d2.getLastD '0') out2 hout hshape (by simp) ih

lemma post_selfbarem : ∀ (ctx : Option Char) (l out : List Char),
    Tr mBareM ctx l out → SelfM mBareM ctx out := by
  intro ctx l out ht
  induction ht with
  | nil prev => exact SelfM.nil prev
  | copy prev c rest out2 hm htr ih =>
    cases hP : mBareM prev (c :: out2) with
    | none => exact SelfM.copy prev c out2 hP ih
    | some v =>
      exfalso
      obtain ⟨r2, lc2, rest2⟩ := v
      obtain ⟨hctx, cm, s1, d1, hcm, hs1, hd1, hd1ne, hb, hseq, hr2, hlc2⟩ :=
        mBareM_shape prev _ _ _ _ hP
      injection hseq with he1 he2
      rw [← he1] at hcm
      obtain ⟨y1, hy1, ht1⟩ := Tr_block_P0 mBareM jsSpace
        (mBareM_MreplP jsSpace (by decide)) s1 (some c) rest out2 _ htr he2 hs1
      obtain ⟨y2, hy2, ht2⟩ := Tr_block_P0 mBareM digitChar
        (mBareM_MreplP digitChar (by decide)) d1 _ y1 _ _ ht1 rfl hd1
      have hbz : wcO y2.head? = false :=
        Tr_bound mBareM mBareM_Mbound _ y2 rest2 ht2 hb
          (ctxAfter_wcO_ne _ d1 hd1ne (fun a ha => digit_word a (hd1 a ha)))
      have hin : mBareM prev (c :: rest) =
          some ('M' :: d1, d1.getLastD '0', y2) := by
        rw [show rest = s1 ++ (d1 ++ y2) from by rw [hy1, hy2]]
        exact mBareM_compute prev c s1 d1 y2 hctx hcm hs1 hd1 hd1ne hbz
      rw [hm] at hin
      exact absurd hin (by simp)
  | repl prev c rest r lc rest' out2 hm htr ih =>
    obtain ⟨hctx, cm, s1, d1, hcm, hs1, hd1, hd1ne, hb, hseq, hr, hlc⟩ :=
      mBareM_shape prev _ _ _ _ hm
    have hb2 : wcO out2.head? = false := by
      rcases Tr_inv mBareM (some lc) rest' out2 htr with ⟨h1, h2⟩ |
        ⟨cz, t', out3, h1, h2, hmn, -⟩ | ⟨r3, lc3, rest3, out3, hm3, hzeq, -⟩
      · rw [h2]; rfl
      · rw [h2]
        rw [h1] at hb
        exact hb
      · exfalso
        obtain ⟨-, cm3, s13, d13, hcm3, -, -, -, -, hseq3, -, -⟩ :=
          mBareM_shape _ _ _ _ _ hm3
        rw [hseq3] at hb
        simp only [List.head?_cons] at hb
        have hw3 : wordChar cm3 = true :=
          ciEq_lower_word 'm' cm3 (by decide) (by decide) hcm3
        rw [show wcO (some cm3) = wordChar cm3 from rfl, hw3] at hb
        exact absurd hb (by simp)
    subst hr
    subst hlc
    have hout : mBareM prev ('M' :: ([] ++ (d1 ++ out2))) =
        some ('M' :: d1, d1.getLastD '0', out2) :=
      mBareM_compute prev 'M' [] d1 out2 hctx (by decide) (by simp) hd1 hd1ne hb2
    simp only [List.nil_append] at hout
    have hshape : ('M' :: d1) ++ out2 = 'M' :: (d1 ++ out2) := by simp
    rw [hshape]
    exact SelfM.self prev 'M' (d1 ++ out2) ('M' :: d1) (d1.getLastD '0') out2 hout
      hshape (by simp) ih

lemma pres_selfmx : ∀ (ctx : Option Char) (l out : List Char),
    Tr mBareM ctx l out → SelfAt mMx ctx l → SelfM mMx ctx out := by
  intro ctx l out ht
  induction ht with
  | nil prev => intro _; exact SelfM.nil prev
  | copy prev c rest out2 hm htr ih =>
    intro hSA
    have hsm : SelfM mMx (some c) out2 := ih (SelfAt_drop mMx [c] prev rest hSA)
    cases hP : mMx prev (c :: out2) with
    | none => exact SelfM.copy prev c out2 hP hsm
    | some v =>
      obtain ⟨r2, lc2, rest2⟩ := v
      obtain ⟨hctx, cm, s1, d1, s2, xc, s3, d2, hcm, hs1, hd1, hd1ne, hs2o, hxc, hs3,
        hd2, hd2ne, hb, hseq, hr2, hlc2⟩ := mMx_shape prev _ _ _ _ hP
      injection hseq with he1 he2
      rw [← he1] at hcm
      obtain ⟨y1, hy1, ht1⟩ := Tr_block_P0 mBareM jsSpace
        (mBareM_MreplP jsSpace (by decide)) s1 (some c) rest out2 _ htr he2 hs1
      obtain ⟨y2, hy2, ht2⟩ := Tr_block_P0 mBareM digitChar
        (mBareM_MreplP digitChar (by decide)) d1 _ y1 _ _ ht1 rfl hd1
      obtain ⟨y3, hy3, ht3⟩ := Tr_block_P0 mBareM jsSpace
        (mBareM_MreplP jsSpace (by decide)) s2 _ y2 _ _ ht2 rfl hs2o
      obtain ⟨y4, hy4, ht4⟩ := Tr_one mBareM isXChar (mBareM_MreplP isXChar (by decide))
        _ y3 _ xc _ ht3 rfl hxc
      obtain ⟨y5, hy5, ht5⟩ := Tr_block_P0 mBareM jsSpace
        (mBareM_MreplP jsSpace (by decide)) s3 _ y4 _ _ ht4 rfl hs3
      obtain ⟨y6, hy6, ht6⟩ := Tr_block_P0 mBareM digitChar
        (mBareM_MreplP digitChar (by decide)) d2 _ y5 _ _ ht5 rfl hd2
      have hbz : wcO y6.head? = false :=
        Tr_bound mBareM mBareM_Mbound _ y6 rest2 ht6 hb
          (ctxAfter_wcO_ne _ d2 hd2ne (fun a ha => digit_word a (hd2 a ha)))
      have hrest : rest = s1 ++ (d1 ++ (s2 ++ (xc :: (s3 ++ (d2 ++ y6))))) := by
        rw [hy1, hy2, hy3, hy4, hy5, hy6]
      have hin : mMx prev (c :: rest) =
          some ('M' :: (d1 ++ 'x' :: d2), d2.getLastD '0', y6) := by
        rw [hrest]
        exact mMx_compute prev c xc s1 d1 s2 s3 d2 y6 hctx hcm hs1 hd1 hd1ne hs2o hxc
          hs3 hd2 hd2ne hbz
      have hself := hSA [] (c :: rest) rfl _ _ _ hin
      rw [hrest] at hself
      obtain ⟨hcM, hxX, hs1n, hs2n, hs3n⟩ := mx_self_force c xc s1 s2 s3 d1 d2 y6 hself
      subst hcM
      subst hxX
      subst hs1n
      subst hs2n
      subst hs3n
      simp only [List.nil_append] at he2
      subst hr2
      subst hlc2
      refine SelfM.self prev 'M' out2 ('M' :: (d1 ++ 'x' :: d2)) (d2.getLastD '0')
        rest2 hP ?_ (by simp) ?_
      · rw [he2]
        simp [List.append_assoc]
      · have hdw : ∀ d ∈ (d1 ++ 'x' :: d2), wordChar d = true := by
          intro d hd
          rcases List.mem_append.mp hd with hh | hh
          · exact digit_word d (hd1 d hh)
          · rcases List.mem_cons.mp hh with hh2 | hh2
            · rw [hh2]; decide
            · exact digit_word d (hd2 d hh2)
        have h5 := SelfM_drop_word mMx mMx_word_ctx (d1 ++ 'x' :: d2) (some 'M') rest2
          (by rw [show (d1 ++ 'x' :: d2) ++ rest2 = d1 ++ ('x' :: (d2 ++ rest2)) from by
                simp [List.append_assoc], ← he2]
              exact hsm)
          (by decide) hdw
        rwa [show ctxAfter (some 'M') (d1 ++ 'x' :: d2) = some (d2.getLastD '0') from by
          unfold ctxAfter
          rw [mxr2_getLast d1 d2 hd2ne]] at h5
  | repl prev c rest rB lcB restB' out2 hm htr ih =>
    intro hSA
    obtain ⟨hctxB, cmB, sB, dB, hcmB, hsB, hdB, hdBne, hbB, hseqB, hrB, hlcB⟩ :=
      mBareM_shape prev _ _ _ _ hm
    obtain ⟨-, -, d1f, hd1f, hd1fne, hrf, hlcf, front, hfr, hfrne, hfrl⟩ :=
      mBareM_facts prev _ _ _ _ hm
    have hSA2 : SelfAt mMx (some lcB) restB' := by
      have h2 := SelfAt_drop mMx (front ++ d1f) prev restB'
        (by rw [← hfr]; exact hSA)
      rwa [show ctxAfter prev (front ++ d1f) = some lcB from by
        unfold ctxAfter
        rw [hfrl]] at h2
    have hsm : SelfM mMx (some lcB) out2 := ih hSA2
    subst hrB
    subst hlcB
    show SelfM mMx prev ('M' :: (dB ++ out2))
    cases hP : mMx prev ('M' :: (dB ++ out2)) with
    | none =>
      refine SelfM_cons_word mMx mMx_word_ctx ('M' :: dB) prev out2 ?_ hP ?_
      · intro d hd
        rcases List.mem_cons.mp hd with hh | hh
        · rw [hh]; decide
        · exact digit_word d (hdB d hh)
      · rw [show ctxAfter prev ('M' :: dB) = some (dB.getLastD '0') from by
          unfold ctxAfter
          rw [baremr_getLast dB hdBne]]
        exact hsm
    | some v =>
      obtain ⟨r2, lc2, rest2⟩ := v
      obtain ⟨-, cm2, s1, d1, s2, xc, s3, d2, hcm2, hs1, hd1, hd1ne, hs2o, hxc, hs3,
        hd2, hd2ne, hb, hseq, hr2, hlc2⟩ := mMx_shape prev _ _ _ _ hP
      injection hseq with he1 he2
      have hs1nil : s1 = [] := by
        cases s1 with
        | nil => rfl
        | cons e s1t =>
          exfalso
          cases dB with
          | nil => exact hdBne rfl
          | cons a dBt =>
            rw [List.cons_append, List.cons_append] at he2
            injection he2 with hx1 hx2
            have ha : digitChar a = true := hdB a (List.mem_cons_self a dBt)
            have hesp : jsSpace e = true := hs1 e (List.mem_cons_self e s1t)
            rw [hx1] at ha
            rw [word_not_space e (digit_word e ha)] at hesp
            exact absurd hesp (by simp)
      subst hs1nil
      rw [List.nil_append] at he2
      have hout2h : ∀ d, out2.head? = some d → digitChar d = false := by
        intro d hd
        rcases Tr_inv mBareM (some (dB.getLastD '0')) restB' out2 htr with ⟨h1, h2⟩ |
          ⟨cz, t', out3, h1, h2, hmn, -⟩ | ⟨r3, lc3, rest3, out3, hm3, hzeq, -⟩
        · rw [h2] at hd; simp at hd
        · rw [h2] at hd
          simp only [List.head?_cons, Option.some.injEq] at hd
          rw [h1] at hbB
          simp only [List.head?_cons] at hbB
          rw [hd] at hbB
          exact nonword_not_digit d (by simpa [wcO] using hbB)
        · exfalso
          obtain ⟨-, cm3, s13, d13, hcm3, -, -, -, -, hseq3, -, -⟩ :=
            mBareM_shape _ _ _ _ _ hm3
          rw [hseq3] at hbB
          simp only [List.head?_cons] at hbB
          have hw3 : wordChar cm3 = true :=
            ciEq_lower_word 'm' cm3 (by decide) (by decide) hcm3
          rw [show wcO (some cm3) = wordChar cm3 from rfl, hw3] at hbB
          exact absurd hbB (by simp)
      have hnextd : ∀ d, (s2 ++ (xc :: (s3 ++ (d2 ++ rest2)))).head? = some d →
          digitChar d = false := by
        intro d hd
        cases s2 with
        | nil =>
          rw [List.nil_append] at hd
          simp only [List.head?_cons, Option.some.injEq] at hd
          rw [← hd]
          exact xchar_not_digit xc hxc
        | cons a s2t =>
          rw [List.cons_append] at hd
          simp only [List.head?_cons, Option.some.injEq] at hd
          rw [← hd]
          exact nonword_not_digit a
            (space_not_word a (hs2o a (List.mem_cons_self a s2t)))
      obtain ⟨hdeq, hout2eq⟩ := block_unique digitChar dB d1 out2 _ he2 hdB hd1
        hout2h hnextd
      obtain ⟨y3, hy3, ht3⟩ := Tr_block_P0 mBareM jsSpace
        (mBareM_MreplP jsSpace (by decide)) s2 (some (dB.getLastD '0')) restB' out2 _
        htr hout2eq hs2o
      obtain ⟨y4, hy4, ht4⟩ := Tr_one mBareM isXChar (mBareM_MreplP isXChar (by decide))
        _ y3 _ xc _ ht3 rfl hxc
      obtain ⟨y5, hy5, ht5⟩ := Tr_block_P0 mBareM jsSpace
        (mBareM_MreplP jsSpace (by decide)) s3 _ y4 _ _ ht4 rfl hs3
      obtain ⟨y6, hy6, ht6⟩ := Tr_block_P0 mBareM digitChar
        (mBareM_MreplP digitChar (by decide)) d2 _ y5 _ _ ht5 rfl hd2
      have hbz : wcO y6.head? = false :=
        Tr_bound mBareM mBareM_Mbound _ y6 rest2 ht6 hb
          (ctxAfter_wcO_ne _ d2 hd2ne (fun a ha => digit_word a (hd2 a ha)))
      have hrestB : restB' = s2 ++ (xc :: (s3 ++ (d2 ++ y6))) := by
        rw [hy3, hy4, hy5, hy6]
      have hin : mMx prev (c :: rest) =
          some ('M' :: (dB ++ 'x' :: d2), d2.getLastD '0', y6) := by
        rw [show (c :: rest : List Char) =
            cmB :: (sB ++ (dB ++ (s2 ++ (xc :: (s3 ++ (d2 ++ y6)))))) from by
          rw [hseqB, hrestB]]
        exact mMx_compute prev cmB xc sB dB s2 s3 d2 y6 hctxB hcmB hsB hdB hdBne hs2o
          hxc hs3 hd2 hd2ne hbz
      have hself := hSA [] (c :: rest) rfl _ _ _ hin
      rw [hseqB, hrestB] at hself
      obtain ⟨hcM, hxX, hsBn, hs2n, hs3n⟩ :=
        mx_self_force cmB xc sB s2 s3 dB d2 y6 hself
      subst hxX
      subst hs2n
      subst hs3n
      simp only [List.nil_append] at hout2eq
      subst hr2
      subst hlc2
      refine SelfM.self prev 'M' (dB ++ out2) ('M' :: (d1 ++ 'x' :: d2))
        (d2.getLastD '0') rest2 hP ?_ (by simp) ?_
      · rw [hout2eq, ← hdeq]
        simp [List.append_assoc]
      · have h5 := SelfM_drop_word mMx mMx_word_ctx ('x' :: d2)
          (some (dB.getLastD '0')) rest2
          (by rw [show ('x' :: d2 : List Char) ++ rest2 = 'x' :: (d2 ++ rest2) from rfl,
                ← hout2eq]
              exact hsm)
          (by simpa [wcO] using digit_word _ (hdB _ (getLastD_mem dB '0' hdBne)))
          (by intro d hd
              rcases List.mem_cons.mp hd with hh | hh
              · rw [hh]; decide
              · exact digit_word d (hd2 d hh))
        rwa [show ctxAfter (some (dB.getLastD '0')) ('x' :: d2) =
            some (d2.getLastD '0') from by
          unfold ctxAfter
          rw [show ('x' :: d2 : List Char).getLast? = some (d2.getLastD '0') from by
            rw [show ('x' :: d2 : List Char) = ['x'] ++ d2 from rfl,
              List.getLast?_append_of_ne_nil _ hd2ne]
            exact getLast?_of_ne_nil d2 _ hd2ne]] at h5

/-! ## C4: the whitespace collapse as a scan -/

lemma col_true_drop : ∀ (r : List Char),
    collapseGo true r = collapseGo false (r.dropWhile jsSpace) := by
  intro r
  induction r with
  | nil => rfl
  | cons d r2 ih =>
    by_cases hd : jsSpace d = true
    · rw [List.dropWhile_cons, if_pos hd]
      simp only [collapseGo, hd, if_pos rfl]
      exact ih
    · rw [List.dropWhile_cons, if_neg hd]
      simp only [collapseGo, hd]
      simp

lemma mCol_some_of_space (ctx : Option Char) (c : Char) (r : List Char)
    (h : jsSpace c = true) :
    mCol ctx (c :: r) = some ([' '], (c :: r.takeWhile jsSpace).getLastD ' ',
      r.dropWhile jsSpace) := by
  simp only [mCol]
  rw [if_pos h]

lemma mCol_none_head (ctx : Option Char) (c : Char) (r : List Char)
    (h : mCol ctx (c :: r) = none) : jsSpace c = false := by
  cases hc : jsSpace c with
  | false => rfl
  | true =>
    rw [mCol_some_of_space ctx c r hc] at h
    exact absurd h (by simp)

lemma col_Tr : ∀ (n : Nat) (ctx : Option Char) (l : List Char), l.length ≤ n →
    Tr mCol ctx l (collapseGo false l) := by
  intro n
  induction n with
  | zero =>
    intro ctx l hl
    have h0 : l = [] := List.length_eq_zero.mp (Nat.le_zero.mp hl)
    subst h0
    exact Tr.nil ctx
  | succ n ih =>
    intro ctx l hl
    cases l with
    | nil => exact Tr.nil ctx
    | cons c r =>
      by_cases hc : jsSpace c = true
      · have hout : collapseGo false (c :: r) =
            [' '] ++ collapseGo false (r.dropWhile jsSpace) := by
          simp only [collapseGo, hc, if_pos rfl]
          rw [col_true_drop]
          rfl
        rw [hout]
        refine Tr.repl ctx c r [' '] ((c :: r.takeWhile jsSpace).getLastD ' ')
          (r.dropWhile jsSpace) _ (mCol_some_of_space ctx c r hc)
          (ih _ (r.dropWhile jsSpace) ?_)
        have hle : (r.dropWhile jsSpace).length ≤ r.length :=
          (List.dropWhile_sublist _).length_le
        simp only [List.length_cons] at hl
        omega
      · have hout : collapseGo false (c :: r) = c :: collapseGo false r := by
          simp only [collapseGo, hc]
          simp
        rw [hout]
        refine Tr.copy ctx c r _ ?_ (ih (some c) r (by simpa using hl))
        simp only [mCol]
        rw [if_neg hc]

lemma mCol_facts (ctx : Option Char) (s r : List Char) (lc : Char) (rest' : List Char)
    (h : mCol ctx s = some (r, lc, rest')) :
    r = [' '] ∧ jsSpace lc = true ∧
    ∃ run, s = run ++ rest' ∧ run ≠ [] ∧ (∀ d ∈ run, jsSpace d = true) ∧
      run.getLast? = some lc ∧ (∀ d, rest'.head? = some d → jsSpace d = false) := by
  simp only [mCol] at h
  split at h
  · simp at h
  · rename_i x0 c r1
    split at h
    · rename_i hsp
      simp only [Option.some.injEq, Prod.mk.injEq] at h
      obtain ⟨rfl, rfl, rfl⟩ := h
      refine ⟨rfl, ?_, c :: r1.takeWhile jsSpace, ?_, by simp, ?_, ?_, ?_⟩
      · have hm := getLastD_mem (c :: r1.takeWhile jsSpace) ' ' (by simp)
        rcases List.mem_cons.mp hm with hh | hh
        · rw [hh]; exact hsp
        · exact List.mem_takeWhile_imp hh
      · rw [List.cons_append, List.takeWhile_append_dropWhile]
      · intro d hd
        rcases List.mem_cons.mp hd with hh | hh
        · rw [hh]; exact hsp
        · exact List.mem_takeWhile_imp hh
      · exact getLast?_of_ne_nil _ _ (by simp)
      · exact fun d hd => dropWhile_head_not jsSpace r1 d hd
    · simp at h

lemma mCol_Mlead (ctx : Option Char) (l r : List Char) (lc : Char) (rest' : List Char)
    (hm : mCol ctx l = some (r, lc, rest')) :
    wcO ctx = false ∨ ∃ d rt, r = d :: rt ∧ wordChar d = false := by
  obtain ⟨hr, -⟩ := mCol_facts ctx l r lc rest' hm
  exact Or.inr ⟨' ', [], hr, by decide⟩

lemma mCol_Mbound (ctx : Option Char) (l r : List Char) (lc : Char) (rest' : List Char)
    (hm : mCol ctx l = some (r, lc, rest')) :
    wcO ctx = false ∨ wcO l.head? = false := by
  obtain ⟨-, -, run, hseq, hne, hsp, -, -⟩ := mCol_facts ctx l r lc rest' hm
  refine Or.inr ?_
  cases run with
  | nil => exact absurd rfl hne
  | cons a run2 =>
    rw [hseq, List.cons_append]
    simp only [List.head?_cons]
    simpa [wcO] using space_not_word a (hsp a (List.mem_cons_self a run2))

lemma mCol_Mcons (ctx : Option Char) (l r : List Char) (lc : Char) (rest' : List Char)
    (hm : mCol ctx l = some (r, lc, rest')) :
    ∃ con, l = con ++ rest' ∧ con ≠ [] ∧ con.getLast? = some lc := by
  obtain ⟨-, -, run, hseq, hne, -, hlast, -⟩ := mCol_facts ctx l r lc rest' hm
  exact ⟨run, hseq, hne, hlast⟩

lemma mCol_Mjunc (ctx : Option Char) (l r : List Char) (lc : Char) (rest' : List Char)
    (hm : mCol ctx l = some (r, lc, rest')) :
    (∃ rl, r.getLast? = some rl ∧ wordChar rl = wordChar lc) ∨
    (wordChar lc = true ∧ wcO rest'.head? = false) := by
  obtain ⟨hr, hlc, -⟩ := mCol_facts ctx l r lc rest' hm
  refine Or.inl ⟨' ', by rw [hr]; rfl, ?_⟩
  rw [space_not_word lc hlc]
  decide

lemma mCol_Mrchars (P : Option Char → List Char → Option (List Char × Char × List Char))
    (hPheadW : ∀ ctx c t, wordChar c = false → P ctx (c :: t) = none)
    (ctx : Option Char) (l r : List Char) (lc : Char) (rest' : List Char)
    (hm : mCol ctx l = some (r, lc, rest')) :
    ∀ d ∈ r, ∀ ctx2 t2, P ctx2 (d :: t2) = none := by
  obtain ⟨hr, -⟩ := mCol_facts ctx l r lc rest' hm
  subst hr
  intro d hd ctx2 t2
  rcases List.mem_cons.mp hd with hh | hh
  · rw [hh]
    exact hPheadW ctx2 ' ' t2 (by decide)
  · simp at hh

lemma mCol_MreplP (P0 : Char → Bool) (h : P0 ' ' = false)
    (ctx : Option Char) (l r : List Char) (lc : Char) (rest' : List Char)
    (hm : mCol ctx l = some (r, lc, rest')) :
    ∃ dh rt, r = dh :: rt ∧ P0 dh = false := by
  obtain ⟨hr, -⟩ := mCol_facts ctx l r lc rest' hm
  exact ⟨' ', [], hr, h⟩

lemma mCol_Mrepl (a0 : Char) (ctx : Option Char) (l r : List Char) (lc : Char)
    (rest' : List Char) (hm : mCol ctx l = some (r, lc, rest')) :
    ∃ d rt, r = d :: rt ∧ (wordChar d = false ∨ ciEq a0 d = false) := by
  obtain ⟨hr, -⟩ := mCol_facts ctx l r lc rest' hm
  exact ⟨' ', [], hr, Or.inl (by decide)⟩

/-! ## C4: pulling matches back through the collapse scan -/

lemma sp_pull_col : ∀ (s : List Char), (∀ d ∈ s, jsSpace d = true) →
    ∀ (ctx : Option Char) (y out' : List Char), Tr mCol ctx y (s ++ out') →
      (∀ d, out'.head? = some d → jsSpace d = false) →
      ∃ s' y', y = s' ++ y' ∧ (∀ d ∈ s', jsSpace d = true) ∧ (s' = [] → s = []) ∧
        (s ≠ [] → ∀ d, y'.head? = some d → jsSpace d = false) ∧
        Tr mCol (ctxAfter ctx s') y' out' := by
  intro s hs ctx y out' ht hout
  cases s with
  | nil =>
    exact ⟨[], y, rfl, by simp, fun _ => rfl, fun h => absurd rfl h, ht⟩
  | cons c s2 =>
    have hcsp : jsSpace c = true := hs c (List.mem_cons_self c s2)
    rcases Tr_inv mCol ctx y ((c :: s2) ++ out') ht with ⟨h1, h2⟩ |
      ⟨d, t', out3, h1, h2, hmn, htr2⟩ | ⟨r2, lc2, rest2, out3, hm2, hzeq, htr2⟩
    · simp at h2
    · exfalso
      rw [List.cons_append] at h2
      injection h2 with h2a h2b
      rw [h1] at hmn
      have hd := mCol_none_head ctx d t' hmn
      rw [← h2a, hcsp] at hd
      exact absurd hd (by simp)
    · obtain ⟨hr2, hlcsp, run, hyeq, hrunne, hrunsp, hrunlast, hresthead⟩ :=
        mCol_facts ctx y r2 lc2 rest2 hm2
      subst hr2
      rw [List.cons_append] at hzeq
      injection hzeq with hz1 hz2
      cases s2 with
      | cons e s3 =>
        exfalso
        have he : jsSpace e = true := hs e (List.mem_cons_of_mem c (List.mem_cons_self e s3))
        rcases Tr_inv mCol (some lc2) rest2 out3 htr2 with ⟨hh1, hh2⟩ |
          ⟨d2, t2, out4, hh1, hh2, hmn2, -⟩ | ⟨r3, lc3, rest3, out4, hm3, hzeq2, -⟩
        · rw [hh2] at hz2
          simp at hz2
        · rw [hh2] at hz2
          rw [List.cons_append] at hz2
          injection hz2 with hza hzb
          have hhead := hresthead d2 (by rw [hh1]; rfl)
          rw [← hza, he] at hhead
          exact absurd hhead (by simp)
        · obtain ⟨-, -, run3, hy3, hrun3ne, hrun3sp, -, -⟩ :=
            mCol_facts _ _ _ _ _ hm3
          cases run3 with
          | nil => exact hrun3ne rfl
          | cons a3 run4 =>
            have hhead := hresthead a3 (by rw [hy3, List.cons_append]; rfl)
            rw [hrun3sp a3 (List.mem_cons_self a3 run4)] at hhead
            exact absurd hhead (by simp)
      | nil =>
        rw [List.nil_append] at hz2
        subst hz2
        refine ⟨run, rest2, hyeq, hrunsp, ?_, ?_, ?_⟩
        · intro h
          exact absurd h hrunne
        · intro _ d hd
          exact hresthead d hd
        · rw [show ctxAfter ctx run = some lc2 from by
            unfold ctxAfter
            rw [hrunlast]]
          exact htr2

/-! ## C4: collapse preserves no-match for the word-pattern rules -/

lemma presV_col : ∀ ctx l out, Tr mCol ctx l out → NoM mVirgule ctx l →
    NoM mVirgule ctx out :=
  gen_pres mVirgule mCol mVirgule_headW mVirgule_ext
    (ciword_trans mVirgule mCol 'v' "irgule".data hpw_virgule mVirgule_iffA
      mCol_Mlead (mCol_Mrepl 'v') mCol_Mbound)
    mCol_Mlead mCol_Mcons (mCol_Mrchars mVirgule mVirgule_headW) mCol_Mjunc

lemma presF_col : ∀ ctx l out, Tr mCol ctx l out → NoM mFois ctx l →
    NoM mFois ctx out :=
  gen_pres mFois mCol mFois_headW mFois_ext
    (ciword_trans mFois mCol 'f' "ois".data hpw_fois mFois_iffA
      mCol_Mlead (mCol_Mrepl 'f') mCol_Mbound)
    mCol_Mlead mCol_Mcons (mCol_Mrchars mFois mFois_headW) mCol_Mjunc

lemma gen_pres2
    (P Q M : Option Char → List Char → Option (List Char × Char × List Char))
    (hPheadW : ∀ ctx c t, wordChar c = false → P ctx (c :: t) = none)
    (hPext : ∀ p1 p2 s, wcO p1 = wcO p2 → P p1 s = none → P p2 s = none)
    (htrans2 : ∀ ctx c rest out2, Tr M (some c) rest out2 →
       P ctx (c :: rest) = none → NoM Q ctx (c :: rest) → P ctx (c :: out2) = none)
    (hMlead : ∀ ctx l r lc rest', M ctx l = some (r, lc, rest') →
       wcO ctx = false ∨ ∃ d rt, r = d :: rt ∧ wordChar d = false)
    (hMcons : ∀ ctx l r lc rest', M ctx l = some (r, lc, rest') →
       ∃ con, l = con ++ rest' ∧ con ≠ [] ∧ con.getLast? = some lc)
    (hMrchars : ∀ ctx l r lc rest', M ctx l = some (r, lc, rest') →
       ∀ d ∈ r, ∀ ctx2 t2, P ctx2 (d :: t2) = none)
    (hJunc : ∀ ctx l r lc rest', M ctx l = some (r, lc, rest') →
       (∃ rl, r.getLast? = some rl ∧ wordChar rl = wordChar lc) ∨
       (wordChar lc = true ∧ wcO rest'.head? = false)) :
    ∀ (ctx : Option Char) (l out : List Char),
      Tr M ctx l out → NoM P ctx l → NoM Q ctx l → NoM P ctx out := by
  intro ctx l out ht
  induction ht with
  | nil prev => intro h _; exact h
  | copy prev c rest out2 hm htr ih =>
    intro hN hQ
    have hNt : NoM P (some c) rest := by cases hN with | cons _ _ _ h ht2 => exact ht2
    have hNh : P prev (c :: rest) = none := by
      cases hN with | cons _ _ _ h ht2 => exact h
    have hQt : NoM Q (some c) rest := by cases hQ with | cons _ _ _ h ht2 => exact ht2
    exact NoM.cons prev c out2 (htrans2 prev c rest out2 htr hNh hQ) (ih hNt hQt)
  | repl prev c rest r lc rest' out2 hm htr ih =>
    intro hN hQ
    obtain ⟨con, hcon, hconne, hconl⟩ := hMcons _ _ _ _ _ hm
    have hNr : NoM P (some lc) rest' := by
      have h2 := NoM_drop P con prev rest' (by rw [← hcon]; exact hN)
      rwa [show ctxAfter prev con = some lc from by unfold ctxAfter; rw [hconl]] at h2
    have hQr : NoM Q (some lc) rest' := by
      have h2 := NoM_drop Q con prev rest' (by rw [← hcon]; exact hQ)
      rwa [show ctxAfter prev con = some lc from by unfold ctxAfter; rw [hconl]] at h2
    have hN2 : NoM P (some lc) out2 := ih hNr hQr
    have hJ := gen_junction P M hPheadW hPext hMlead prev r lc rest' out2
      (hJunc _ _ _ _ _ hm) htr hN2
    exact gen_splice P r prev out2 (hMrchars _ _ _ _ _ hm) hJ

lemma et_col_transport : ∀ ctx c rest out2, Tr mCol (some c) rest out2 →
    mEt ctx (c :: rest) = none → mEt ctx (c :: out2) = none := by
  intro ctx c rest out2 htr hnone
  cases hP : mEt ctx (c :: out2) with
  | none => rfl
  | some r0 =>
    exfalso
    obtain ⟨rr, lc1, rest1⟩ := r0
    obtain ⟨hctx, me, w, hce, hwne, hwsp, hs, hzh, hlook⟩ := mEt_shape ctx _ _ _ _ hP
    have hmew : ∀ e ∈ me, wordChar e = true :=
      ciEqList_word ("et".data) me (by decide) hce
    cases me with
    | nil =>
      exact absurd rfl (ciEqList_ne_nil _ _ _
        (show ciEqList ('e' :: "t".data) [] = true from hce))
    | cons cm me2 =>
      rw [List.cons_append] at hs
      injection hs with h1 h2
      subst h1
      obtain ⟨y1, hy1a, hy1b⟩ := Tr_block mCol (fun e => ciEq 'e' e) mCol_Mlead
        (mCol_Mrepl 'e') me2 (some c) rest out2 (w ++ rest1) htr h2
        (fun e he => hmew e (List.mem_cons_of_mem c he))
        (Or.inr (by simpa [wcO] using hmew c (List.mem_cons_self c me2)))
      obtain ⟨w1, y2, hy2a, hw1sp, hw1n, hy2h, hy2b⟩ :=
        sp_pull_col w hwsp _ y1 rest1 hy1b hzh
      have hw1ne : w1 ≠ [] := fun hh => hwne (hw1n hh)
      have hy2head : ∀ d, y2.head? = some d → jsSpace d = false := hy2h hwne
      have hlookY : lookNum y2 = true := by
        rcases (lookNum_iff rest1).mp hlook with ⟨dg, z2, hseq, hdgne, hdig, hz2⟩ |
          ⟨nw, hnw, m, z2, hseq, hcm, hz2⟩
        · obtain ⟨z2i, hzia, hzib⟩ := Tr_block_P0 mCol digitChar
            (mCol_MreplP digitChar (by decide)) dg _ y2 rest1 z2 hy2b hseq hdig
          have hdgw : ∀ e ∈ dg, wordChar e = true := fun e he => digit_word e (hdig e he)
          have hz2i : wcO z2i.head? = false :=
            Tr_bound mCol mCol_Mbound _ z2i z2 hzib hz2
              (ctxAfter_wcO_ne _ dg hdgne hdgw)
          exact (lookNum_iff y2).mpr (Or.inl ⟨dg, z2i, hzia, hdgne, hdig, hz2i⟩)
        · have hnwne : nw ≠ [] := by
            intro hh
            rw [hh] at hnw
            revert hnw
            decide
          have hmw : ∀ e ∈ m, wordChar e = true :=
            ciEqList_word nw m (et_nw_low nw hnw) hcm
          have hmne : m ≠ [] := by
            cases hnwc : nw with
            | nil => exact absurd hnwc hnwne
            | cons e nw2 =>
              rw [hnwc] at hcm
              exact ciEqList_ne_nil _ _ _ hcm
          obtain ⟨z2i, hzia, hzib⟩ := Tr_block mCol (fun _ => true) mCol_Mlead
            (fun ctx5 l5 r5 lc5 rest5 hm5 => by
              obtain ⟨hr5, -⟩ := mCol_facts ctx5 l5 r5 lc5 rest5 hm5
              exact ⟨' ', [], hr5, Or.inl (by decide)⟩)
            m _ y2 rest1 z2 hy2b hseq hmw (Or.inl (fun d2 hd2 => rfl))
          have hz2i : wcO z2i.head? = false :=
            Tr_bound mCol mCol_Mbound _ z2i z2 hzib hz2
              (ctxAfter_wcO_ne _ m hmne hmw)
          exact (lookNum_iff y2).mpr (Or.inr ⟨nw, hnw, m, z2i, hzia, hcm, hz2i⟩)
      have hfin := mEt_intro ctx (c :: me2) w1 y2 hctx hce hw1ne hw1sp hy2head hlookY
      refine hfin ?_
      rw [← hnone]
      congr 1
      rw [List.cons_append, hy1a, hy2a]

lemma presE_col : ∀ ctx l out, Tr mCol ctx l out → NoM mEt ctx l → NoM mEt ctx out :=
  gen_pres mEt mCol mEt_headW mEt_ext et_col_transport mCol_Mlead mCol_Mcons
    (mCol_Mrchars mEt mEt_headW) mCol_Mjunc

lemma pv_col_transport : ∀ ctx c rest out2, Tr mCol (some c) rest out2 →
    mPointVirgule ctx (c :: rest) = none → NoM mVirgule ctx (c :: rest) →
    mPointVirgule ctx (c :: out2) = none := by
  intro ctx c rest out2 htr hnone hNoV
  cases hP : mPointVirgule ctx (c :: out2) with
  | none => rfl
  | some r0 =>
    exfalso
    obtain ⟨rr, lc1, rest1⟩ := r0
    obtain ⟨hctx, hrr, hb, mp, mv, hcp, hcv, hgl, hbr⟩ :=
      mPointVirgule_shape ctx _ _ _ _ hP
    have hmpw : ∀ e ∈ mp, wordChar e = true :=
      ciEqList_word ("point".data) mp (by decide) hcp
    have hmvw : ∀ e ∈ mv, wordChar e = true :=
      ciEqList_word ("virgule".data) mv (by decide) hcv
    have hmvne : mv ≠ [] := ciEqList_ne_nil 'v' ("irgule".data) mv hcv
    have hmpne : mp ≠ [] := ciEqList_ne_nil 'p' ("oint".data) mp hcp
    have hmvhead : ∀ d2, mv.head? = some d2 → ciEq 'v' d2 = true := by
      intro d2 hd2
      cases mv with
      | nil => simp at hd2
      | cons a mv2 =>
        simp only [List.head?_cons, Option.some.injEq] at hd2
        rw [← hd2]
        exact ciEqList_head 'v' ("irgule".data) a mv2 hcv
    have hMrepl_p : ∀ ctx5 l5 r5 lc5 rest5, mCol ctx5 l5 = some (r5, lc5, rest5) →
        ∃ dh rt, r5 = dh :: rt ∧ (wordChar dh = false ∨ True = false) := by
      intro ctx5 l5 r5 lc5 rest5 hm5
      obtain ⟨hr5, -⟩ := mCol_facts ctx5 l5 r5 lc5 rest5 hm5
      exact ⟨' ', [], hr5, Or.inl (by decide)⟩
    cases mp with
    | nil => exact absurd rfl hmpne
    | cons cp mp2 =>
      rcases hbr with ⟨d, hsep, hseq⟩ | hseq
      · rw [List.cons_append] at hseq
        injection hseq with h1 h2
        obtain ⟨y1, hy1a, hy1b⟩ := Tr_block mCol (fun _ => true) mCol_Mlead
          (fun ctx5 l5 r5 lc5 rest5 hm5 => by
            obtain ⟨hr5, -⟩ := mCol_facts ctx5 l5 r5 lc5 rest5 hm5
            exact ⟨' ', [], hr5, Or.inl (by decide)⟩)
          mp2 (some c) rest out2 _ htr h2
          (fun e he => hmpw e (List.mem_cons_of_mem cp he))
          (Or.inr (by rw [h1]; simpa [wcO] using hmpw cp (List.mem_cons_self cp mp2)))
        by_cases hdsp : jsSpace d = true
        · obtain ⟨w1, y2, hy2a, hw1sp, hw1n, hy2h, hy2b⟩ := sp_pull_col [d]
            (by intro x hx
                rcases List.mem_cons.mp hx with hh | hh
                · rw [hh]; exact hdsp
                · simp at hh)
            _ y1 (mv ++ rest1) hy1b
            (by intro x hx
                cases mv with
                | nil => exact absurd rfl hmvne
                | cons a mv2 =>
                  rw [List.cons_append] at hx
                  simp only [List.head?_cons, Option.some.injEq] at hx
                  rw [← hx]
                  exact word_not_space a (hmvw a (List.mem_cons_self a mv2)))
          have hw1ne : w1 ≠ [] := by
            intro hh
            have h3 := hw1n hh
            simp at h3
          obtain ⟨y3, hy3a, hy3b⟩ := Tr_block mCol (fun e => ciEq 'v' e) mCol_Mlead
            (mCol_Mrepl 'v') mv _ y2 (mv ++ rest1) rest1 hy2b rfl hmvw
            (Or.inl hmvhead)
          have hy3bd : wcO y3.head? = false :=
            Tr_bound mCol mCol_Mbound _ y3 rest1 hy3b hb
              (ctxAfter_wcO_ne _ mv hmvne hmvw)
          have hctxw1 : wcO (ctxAfter (ctxAfter (some c) mp2) w1) = false := by
            cases hgw : w1.getLast? with
            | none => exact absurd (List.getLast?_eq_none.mp hgw) hw1ne
            | some sl =>
              rw [show ctxAfter (ctxAfter (some c) mp2) w1 = some sl from by
                unfold ctxAfter
                rw [hgw]]
              simpa [wcO] using space_not_word sl
                (hw1sp sl (List.mem_of_mem_getLast? hgw))
          obtain ⟨rv, hrv⟩ := (mVirgule_iffA (ctxAfter (ctxAfter (some c) mp2) w1)
            (mv ++ y3)).mpr ⟨hctxw1, mv, y3, rfl, hcv, hy3bd⟩
          cases mv with
          | nil => exact absurd rfl hmvne
          | cons cv mv2 =>
            have hpos : (c :: rest : List Char) =
                (c :: (mp2 ++ w1)) ++ cv :: (mv2 ++ y3) := by
              rw [show rest = mp2 ++ y1 from hy1a, show y1 = w1 ++ y2 from hy2a,
                show y2 = (cv :: mv2) ++ y3 from hy3a]
              simp [List.append_assoc]
            have hnv := NoM_at mVirgule (c :: (mp2 ++ w1)) ctx (c :: rest) cv
              (mv2 ++ y3) hNoV hpos
            rw [show ctxAfter ctx (c :: (mp2 ++ w1)) =
                ctxAfter (ctxAfter (some c) mp2) w1 from by
              rw [ctxAfter_cons, ctxAfter_append]] at hnv
            rw [List.cons_append] at hrv
            rw [hnv] at hrv
            exact absurd hrv (by simp)
        · have hdd : d = '-' := by
            simp only [Bool.or_eq_true, decide_eq_true_eq] at hsep
            rcases hsep with hh | hh
            · exact absurd hh hdsp
            · exact hh
          rcases Tr_inv mCol _ y1 (d :: (mv ++ rest1)) hy1b with ⟨hh1, hh2⟩ |
            ⟨dz, t', out3, hh1, hh2, hmn, htr3⟩ | ⟨r3, lc3, rest3, out3, hm3, hzeq3, -⟩
          · simp at hh2
          · injection hh2 with hha hhb
            obtain ⟨y3, hy3a, hy3b⟩ := Tr_block mCol (fun e => ciEq 'v' e) mCol_Mlead
              (mCol_Mrepl 'v') mv (some dz) t' out3 rest1 htr3 hhb.symm hmvw
              (Or.inl hmvhead)
            have hy3bd : wcO y3.head? = false :=
              Tr_bound mCol mCol_Mbound _ y3 rest1 hy3b hb
                (ctxAfter_wcO_ne _ mv hmvne hmvw)
            have hdzw : wcO (some dz) = false := by
              rw [show wcO (some dz) = wordChar dz from rfl, ← hha, hdd]
              decide
            obtain ⟨rv, hrv⟩ := (mVirgule_iffA (some dz) (mv ++ y3)).mpr
              ⟨hdzw, mv, y3, rfl, hcv, hy3bd⟩
            cases mv with
            | nil => exact absurd rfl hmvne
            | cons cv mv2 =>
              have hpos : (c :: rest : List Char) =
                  (c :: (mp2 ++ [dz])) ++ cv :: (mv2 ++ y3) := by
                rw [show rest = mp2 ++ y1 from hy1a, show y1 = dz :: t' from hh1,
                  show t' = (cv :: mv2) ++ y3 from hy3a]
                simp [List.append_assoc]
              have hnv := NoM_at mVirgule (c :: (mp2 ++ [dz])) ctx (c :: rest) cv
                (mv2 ++ y3) hNoV hpos
              rw [show ctxAfter ctx (c :: (mp2 ++ [dz])) = some dz from by
                rw [ctxAfter_cons, ctxAfter_append]
                rfl] at hnv
              rw [List.cons_append] at hrv
              rw [hnv] at hrv
              exact absurd hrv (by simp)
          · obtain ⟨hr3, -⟩ := mCol_facts _ _ _ _ _ hm3
            subst hr3
            rw [List.cons_append] at hzeq3
            injection hzeq3 with hza hzb
            rw [hza] at hdd
            exact absurd hdd (by decide)
      · rw [List.cons_append] at hseq
        injection hseq with h1 h2
        obtain ⟨y1, hy1a, hy1b⟩ := Tr_block mCol (fun _ => true) mCol_Mlead
          (fun ctx5 l5 r5 lc5 rest5 hm5 => by
            obtain ⟨hr5, -⟩ := mCol_facts ctx5 l5 r5 lc5 rest5 hm5
            exact ⟨' ', [], hr5, Or.inl (by decide)⟩)
          mp2 (some c) rest out2 _ htr h2
          (fun e he => hmpw e (List.mem_cons_of_mem cp he))
          (Or.inr (by rw [h1]; simpa [wcO] using hmpw cp (List.mem_cons_self cp mp2)))
        obtain ⟨y3, hy3a, hy3b⟩ := Tr_block mCol (fun e => ciEq 'v' e) mCol_Mlead
          (mCol_Mrepl 'v') mv _ y1 (mv ++ rest1) rest1 hy1b rfl hmvw (Or.inl hmvhead)
        have hy3bd : wcO y3.head? = false :=
          Tr_bound mCol mCol_Mbound _ y3 rest1 hy3b hb
            (ctxAfter_wcO_ne _ mv hmvne hmvw)
        have hcp2 : ciEqList "point".data (c :: mp2) = true := by
          rw [h1]
          exact hcp
        have hfin := mPointVirgule_intro_nosep ctx (c :: mp2) mv y3 hctx hcp2 hcv hy3bd
        refine hfin ?_
        rw [← hnone]
        congr 1
        rw [List.cons_append, hy1a, hy3a]

lemma presPV_col : ∀ ctx l out, Tr mCol ctx l out → NoM mPointVirgule ctx l →
    NoM mVirgule ctx l → NoM mPointVirgule ctx out :=
  gen_pres2 mPointVirgule mVirgule mCol mPointVirgule_headW mPointVirgule_ext
    pv_col_transport mCol_Mlead mCol_Mcons
    (mCol_Mrchars mPointVirgule mPointVirgule_headW) mCol_Mjunc

/-! ## C4: collapse preserves self-replacement of the `m`-rules -/

lemma col_selfmx : ∀ (ctx : Option Char) (l out : List Char),
    Tr mCol ctx l out → SelfAt mMx ctx l → SelfM mMx ctx out := by
  intro ctx l out ht
  induction ht with
  | nil prev => intro _; exact SelfM.nil prev
  | copy prev c rest out2 hm htr ih =>
    intro hSA
    have hsm : SelfM mMx (some c) out2 := ih (SelfAt_drop mMx [c] prev rest hSA)
    cases hP : mMx prev (c :: out2) with
    | none => exact SelfM.copy prev c out2 hP hsm
    | some v =>
      obtain ⟨r2, lc2, rest2⟩ := v
      obtain ⟨hctx, cm, s1, d1, s2, xc, s3, d2, hcm, hs1, hd1, hd1ne, hs2o, hxc, hs3,
        hd2, hd2ne, hb, hseq, hr2, hlc2⟩ := mMx_shape prev _ _ _ _ hP
      injection hseq with he1 he2
      rw [← he1] at hcm
      obtain ⟨s1i, y1, hy1a, hs1i, hs1n, hy1h, hy1b⟩ := sp_pull_col s1 hs1
        (some c) rest _ (by rw [← he2]; exact htr)
        (by intro d hd
            cases d1 with
            | nil => exact absurd rfl hd1ne
            | cons a d1t =>
              rw [List.cons_append] at hd
              simp only [List.head?_cons, Option.some.injEq] at hd
              rw [← hd]
              exact word_not_space a (digit_word a (hd1 a (List.mem_cons_self a d1t))))
      obtain ⟨y2, hy2a, hy2b⟩ := Tr_block_P0 mCol digitChar
        (mCol_MreplP digitChar (by decide)) d1 _ y1 _ _ hy1b rfl hd1
      obtain ⟨s2i, y3, hy3a, hs2i, hs2n, hy3h, hy3b⟩ := sp_pull_col s2 hs2o
        _ y2 _ hy2b
        (by intro d hd
            simp only [List.head?_cons, Option.some.injEq] at hd
            rw [← hd]
            exact xchar_not_space xc hxc)
      obtain ⟨y4, hy4a, hy4b⟩ := Tr_one mCol isXChar (mCol_MreplP isXChar (by decide))
        _ y3 _ xc _ hy3b rfl hxc
      obtain ⟨s3i, y5, hy5a, hs3i, hs3n, hy5h, hy5b⟩ := sp_pull_col s3 hs3
        _ y4 _ hy4b
        (by intro d hd
            cases d2 with
            | nil => exact absurd rfl hd2ne
            | cons a d2t =>
              rw [List.cons_append] at hd
              simp only [List.head?_cons, Option.some.injEq] at hd
              rw [← hd]
              exact word_not_space a (digit_word a (hd2 a (List.mem_cons_self a d2t))))
      obtain ⟨y6, hy6a, hy6b⟩ := Tr_block_P0 mCol digitChar
        (mCol_MreplP digitChar (by decide)) d2 _ y5 _ _ hy5b rfl hd2
      have hbz : wcO y6.head? = false :=
        Tr_bound mCol mCol_Mbound _ y6 rest2 hy6b hb
          (ctxAfter_wcO_ne _ d2 hd2ne (fun a ha => digit_word a (hd2 a ha)))
      have hrest : rest = s1i ++ (d1 ++ (s2i ++ (xc :: (s3i ++ (d2 ++ y6))))) := by
        rw [hy1a, hy2a, hy3a, hy4a, hy5a, hy6a]
      have hin : mMx prev (c :: rest) =
          some ('M' :: (d1 ++ 'x' :: d2), d2.getLastD '0', y6) := by
        rw [hrest]
        exact mMx_compute prev c xc s1i d1 s2i s3i d2 y6 hctx hcm hs1i hd1 hd1ne hs2i
          hxc hs3i hd2 hd2ne hbz
      have hself := hSA [] (c :: rest) rfl _ _ _ hin
      rw [hrest] at hself
      obtain ⟨hcM, hxX, hs1in, hs2in, hs3in⟩ :=
        mx_self_force c xc s1i s2i s3i d1 d2 y6 hself
      have hs1e : s1 = [] := hs1n hs1in
      have hs2e : s2 = [] := hs2n hs2in
      have hs3e : s3 = [] := hs3n hs3in
      subst hcM
      subst hxX
      subst hs1e
      subst hs2e
      subst hs3e
      simp only [List.nil_append] at he2
      subst hr2
      subst hlc2
      refine SelfM.self prev 'M' out2 ('M' :: (d1 ++ 'x' :: d2)) (d2.getLastD '0')
        rest2 hP ?_ (by simp) ?_
      · rw [he2]
        simp [List.append_assoc]
      · have h5 := SelfM_drop_word mMx mMx_word_ctx (d1 ++ 'x' :: d2) (some 'M') rest2
          (by rw [show (d1 ++ 'x' :: d2) ++ rest2 = d1 ++ ('x' :: (d2 ++ rest2)) from by
                simp [List.append_assoc], ← he2]
              exact hsm)
          (by decide)
          (by intro d hd
              rcases List.mem_append.mp hd with hh | hh
              · exact digit_word d (hd1 d hh)
              · rcases List.mem_cons.mp hh with hh2 | hh2
                · rw [hh2]; decide
                · exact digit_word d (hd2 d hh2))
        rwa [show ctxAfter (some 'M') (d1 ++ 'x' :: d2) = some (d2.getLastD '0') from by
          unfold ctxAfter
          rw [mxr2_getLast d1 d2 hd2ne]] at h5
  | repl prev c rest r lc rest' out2 hm htr ih =>
    intro hSA
    obtain ⟨hr, hlcsp, run, hyeq, hrunne, hrunsp, hrunlast, hresthead⟩ :=
      mCol_facts prev (c :: rest) r lc rest' hm
    have hSA2 : SelfAt mMx (some lc) rest' := by
      have h2 := SelfAt_drop mMx run prev rest' (by rw [← hyeq]; exact hSA)
      rwa [show ctxAfter prev run = some lc from by
        unfold ctxAfter
        rw [hrunlast]] at h2
    have hsm : SelfM mMx (some lc) out2 := ih hSA2
    subst hr
    show SelfM mMx prev (' ' :: out2)
    refine SelfM.copy prev ' ' out2 (mMx_head_none prev ' ' out2 (by decide)) ?_
    exact SelfM_wcO mMx mMx_congr (some lc) (some ' ') out2
      (by rw [show wcO (some lc) = wordChar lc from rfl,
        show wcO (some ' ') = wordChar ' ' from rfl, space_not_word lc hlcsp]
          decide) hsm

lemma col_selfbarem : ∀ (ctx : Option Char) (l out : List Char),
    Tr mCol ctx l out → SelfAt mBareM ctx l → SelfM mBareM ctx out := by
  intro ctx l out ht
  induction ht with
  | nil prev => intro _; exact SelfM.nil prev
  | copy prev c rest out2 hm htr ih =>
    intro hSA
    have hsm : SelfM mBareM (some c) out2 := ih (SelfAt_drop mBareM [c] prev rest hSA)
    cases hP : mBareM prev (c :: out2) with
    | none => exact SelfM.copy prev c out2 hP hsm
    | some v =>
      obtain ⟨r2, lc2, rest2⟩ := v
      obtain ⟨hctx, cm, s1, d1, hcm, hs1, hd1, hd1ne, hb, hseq, hr2, hlc2⟩ :=
        mBareM_shape prev _ _ _ _ hP
      injection hseq with he1 he2
      rw [← he1] at hcm
      obtain ⟨s1i, y1, hy1a, hs1i, hs1n, hy1h, hy1b⟩ := sp_pull_col s1 hs1
        (some c) rest _ (by rw [← he2]; exact htr)
        (by intro d hd
            cases d1 with
            | nil => exact absurd rfl hd1ne
            | cons a d1t =>
              rw [List.cons_append] at hd
              simp only [List.head?_cons, Option.some.injEq] at hd
              rw [← hd]
              exact word_not_space a (digit_word a (hd1 a (List.mem_cons_self a d1t))))
      obtain ⟨y2, hy2a, hy2b⟩ := Tr_block_P0 mCol digitChar
        (mCol_MreplP digitChar (by decide)) d1 _ y1 _ _ hy1b rfl hd1
      have hbz : wcO y2.head? = false :=
        Tr_bound mCol mCol_Mbound _ y2 rest2 hy2b hb
          (ctxAfter_wcO_ne _ d1 hd1ne (fun a ha => digit_word a (hd1 a ha)))
      have hrest : rest = s1i ++ (d1 ++ y2) := by rw [hy1a, hy2a]
      have hin : mBareM prev (c :: rest) = some ('M' :: d1, d1.getLastD '0', y2) := by
        rw [hrest]
        exact mBareM_compute prev c s1i d1 y2 hctx hcm hs1i hd1 hd1ne hbz
      have hself := hSA [] (c :: rest) rfl _ _ _ hin
      rw [hrest] at hself
      obtain ⟨hcM, hs1in⟩ := barem_self_force c s1i d1 y2 hself
      have hs1e : s1 = [] := hs1n hs1in
      subst hcM
      subst hs1e
      simp only [List.nil_append] at he2
      subst hr2
      subst hlc2
      refine SelfM.self prev 'M' out2 ('M' :: d1) (d1.getLastD '0')
        rest2 hP ?_ (by simp) ?_
      · rw [he2, List.cons_append]
      · have h5 := SelfM_drop_word mBareM mBareM_word_ctx d1 (some 'M') rest2
          (by rw [← he2]; exact hsm)
          (by decide)
          (fun d hd => digit_word d (hd1 d hd))
        rwa [show ctxAfter (some 'M') d1 = some (d1.getLastD '0') from by
          unfold ctxAfter
          rw [getLast?_of_ne_nil d1 '0' hd1ne]] at h5
  | repl prev c rest r lc rest' out2 hm htr ih =>
    intro hSA
    obtain ⟨hr, hlcsp, run, hyeq, hrunne, hrunsp, hrunlast, hresthead⟩ :=
      mCol_facts prev (c :: rest) r lc rest' hm
    have hSA2 : SelfAt mBareM (some lc) rest' := by
      have h2 := SelfAt_drop mBareM run prev rest' (by rw [← hyeq]; exact hSA)
      rwa [show ctxAfter prev run = some lc from by
        unfold ctxAfter
        rw [hrunlast]] at h2
    have hsm : SelfM mBareM (some lc) out2 := ih hSA2
    subst hr
    show SelfM mBareM prev (' ' :: out2)
    refine SelfM.copy prev ' ' out2 (mBareM_head_none prev ' ' out2 (by decide)) ?_
    exact SelfM_wcO mBareM mBareM_congr (some lc) (some ' ') out2
      (by rw [show wcO (some lc) = wordChar lc from rfl,
        show wcO (some ' ') = wordChar ' ' from rfl, space_not_word lc hlcsp]
          decide) hsm

/-! ## C4: trim preserves the canonical-form predicates -/

lemma jsTrim_decomp (l : List Char) : ∃ a b, l = a ++ (jsTrim l ++ b) ∧
    (∀ d ∈ a, jsSpace d = true) ∧ (∀ d ∈ b, jsSpace d = true) := by
  refine ⟨l.takeWhile jsSpace, ((l.dropWhile jsSpace).reverse.takeWhile jsSpace).reverse,
    ?_, fun d hd => List.mem_takeWhile_imp hd, fun d hd => ?_⟩
  · conv_lhs => rw [← List.takeWhile_append_dropWhile (p := jsSpace) (l := l),
      ← jsTrim_prefix l]
  · rw [List.mem_reverse] at hd
    exact List.mem_takeWhile_imp hd

lemma sp_ctx_align (a pre : List Char) (ha : ∀ d ∈ a, jsSpace d = true) :
    wcO (ctxAfter none (a ++ pre)) = wcO (ctxAfter none pre) := by
  rw [ctxAfter_append]
  refine wcO_ctxAfter_congr _ _ pre ?_
  unfold ctxAfter
  cases hg : a.getLast? with
  | none => rfl
  | some x =>
    simpa [wcO] using space_not_word x (ha x (List.mem_of_mem_getLast? hg))

lemma mVirgule_ext_sp (ctx : Option Char) (s b : List Char)
    (r0 : List Char × Char × List Char) (h : mVirgule ctx s = some r0)
    (hb : ∀ d ∈ b, jsSpace d = true) : mVirgule ctx (s ++ b) ≠ none := by
  intro hnone
  obtain ⟨hctx, m, z, hs, hc, hz⟩ := (mVirgule_iffA ctx s).mp ⟨r0, h⟩
  obtain ⟨r1, hr1⟩ := (mVirgule_iffA ctx (s ++ b)).mpr
    ⟨hctx, m, z ++ b, by rw [hs, List.append_assoc], hc, wcO_append_sp z b hz hb⟩
  rw [hnone] at hr1
  exact absurd hr1 (by simp)

lemma mFois_ext_sp (ctx : Option Char) (s b : List Char)
    (r0 : List Char × Char × List Char) (h : mFois ctx s = some r0)
    (hb : ∀ d ∈ b, jsSpace d = true) : mFois ctx (s ++ b) ≠ none := by
  intro hnone
  obtain ⟨hctx, m, z, hs, hc, hz⟩ := (mFois_iffA ctx s).mp ⟨r0, h⟩
  obtain ⟨r1, hr1⟩ := (mFois_iffA ctx (s ++ b)).mpr
    ⟨hctx, m, z ++ b, by rw [hs, List.append_assoc], hc, wcO_append_sp z b hz hb⟩
  rw [hnone] at hr1
  exact absurd hr1 (by simp)

lemma pv_ext_sp (ctx : Option Char) (s b : List Char)
    (r0 : List Char × Char × List Char) (h : mPointVirgule ctx s = some r0)
    (hb : ∀ d ∈ b, jsSpace d = true) : mPointVirgule ctx (s ++ b) ≠ none := by
  obtain ⟨rr, lc1, rest1⟩ := r0
  obtain ⟨hctx, -, hbnd, mp, mv, hcp, hcv, -, hbr⟩ := mPointVirgule_shape ctx _ _ _ _ h
  rcases hbr with ⟨d, hsep, hseq⟩ | hseq
  · subst hseq
    rw [show (mp ++ d :: (mv ++ rest1)) ++ b = mp ++ d :: (mv ++ (rest1 ++ b)) from by
      simp [List.append_assoc]]
    exact mPointVirgule_intro_sep ctx mp d mv (rest1 ++ b) hctx hcp hsep hcv
      (wcO_append_sp rest1 b hbnd hb)
  · subst hseq
    rw [show (mp ++ (mv ++ rest1)) ++ b = mp ++ (mv ++ (rest1 ++ b)) from by
      simp [List.append_assoc]]
    exact mPointVirgule_intro_nosep ctx mp mv (rest1 ++ b) hctx hcp hcv
      (wcO_append_sp rest1 b hbnd hb)

lemma et_ext_sp (ctx : Option Char) (s b : List Char)
    (r0 : List Char × Char × List Char) (h : mEt ctx s = some r0)
    (hb : ∀ d ∈ b, jsSpace d = true) : mEt ctx (s ++ b) ≠ none := by
  obtain ⟨rr, lc1, rest1⟩ := r0
  obtain ⟨hctx, me, w, hce, hwne, hwsp, hs, hzh, hlook⟩ := mEt_shape ctx _ _ _ _ h
  subst hs
  rw [show (me ++ (w ++ rest1)) ++ b = me ++ (w ++ (rest1 ++ b)) from by
    simp [List.append_assoc]]
  have hr1ne : rest1 ≠ [] := by
    intro hh
    rw [hh, lookNum_nil] at hlook
    exact absurd hlook (by simp)
  refine mEt_intro ctx me w (rest1 ++ b) hctx hce hwne hwsp ?_ ?_
  · intro d hd
    cases rest1 with
    | nil => exact absurd rfl hr1ne
    | cons a2 t2 =>
      rw [List.cons_append] at hd
      simp only [List.head?_cons, Option.some.injEq] at hd
      refine hzh d ?_
      simp only [List.head?_cons]
      rw [hd]
  · rcases (lookNum_iff rest1).mp hlook with ⟨dg, z2, hseq, hdgne, hdig, hz2⟩ |
      ⟨nw, hnw, m, z2, hseq, hcm, hz2⟩
    · exact (lookNum_iff _).mpr (Or.inl ⟨dg, z2 ++ b, by rw [hseq, List.append_assoc],
        hdgne, hdig, wcO_append_sp z2 b hz2 hb⟩)
    · exact (lookNum_iff _).mpr (Or.inr ⟨nw, hnw, m, z2 ++ b,
        by rw [hseq, List.append_assoc], hcm, wcO_append_sp z2 b hz2 hb⟩)

lemma trim_NoM (P : Option Char → List Char → Option (List Char × Char × List Char))
    (hext : ∀ ctx s b r0, P ctx s = some r0 → (∀ d ∈ b, jsSpace d = true) →
      P ctx (s ++ b) ≠ none)
    (hPext : ∀ p1 p2 s, wcO p1 = wcO p2 → P p1 s = none → P p2 s = none)
    (a b Y : List Char) (ha : ∀ d ∈ a, jsSpace d = true)
    (hb : ∀ d ∈ b, jsSpace d = true)
    (hN : NoM P none (a ++ (Y ++ b))) : NoM P none Y := by
  refine NoM_intro P Y none ?_
  intro pre c t heq
  cases hP : P (ctxAfter none pre) (c :: t) with
  | none => rfl
  | some r0 =>
    exfalso
    have hzeq : a ++ (Y ++ b) = (a ++ pre) ++ (c :: (t ++ b)) := by
      rw [heq]
      simp [List.append_assoc]
    have hnone := NoM_at P (a ++ pre) none _ c (t ++ b) hN hzeq
    have hwc := sp_ctx_align a pre ha
    have hsome := hext (ctxAfter none pre) (c :: t) b r0 hP hb
    exact hsome (hPext _ _ _ hwc hnone)

lemma mMx_ext_sp_val (ctx : Option Char) (s b r : List Char) (lc : Char)
    (rest' : List Char) (h : mMx ctx s = some (r, lc, rest'))
    (hb : ∀ d ∈ b, jsSpace d = true) :
    mMx ctx (s ++ b) = some (r, lc, rest' ++ b) := by
  obtain ⟨hctx, cm, s1, d1, s2, xc, s3, d2, hcm, hs1, hd1, hd1ne, hs2o, hxc, hs3,
    hd2, hd2ne, hbnd, hseq, hr, hlc⟩ := mMx_shape ctx _ _ _ _ h
  subst hseq
  subst hr
  subst hlc
  rw [show (cm :: (s1 ++ (d1 ++ (s2 ++ (xc :: (s3 ++ (d2 ++ rest'))))))) ++ b =
      cm :: (s1 ++ (d1 ++ (s2 ++ (xc :: (s3 ++ (d2 ++ (rest' ++ b))))))) from by
    simp [List.append_assoc]]
  exact mMx_compute ctx cm xc s1 d1 s2 s3 d2 (rest' ++ b) hctx hcm hs1 hd1 hd1ne hs2o
    hxc hs3 hd2 hd2ne (wcO_append_sp rest' b hbnd hb)

lemma mBareM_ext_sp_val (ctx : Option Char) (s b r : List Char) (lc : Char)
    (rest' : List Char) (h : mBareM ctx s = some (r, lc, rest'))
    (hb : ∀ d ∈ b, jsSpace d = true) :
    mBareM ctx (s ++ b) = some (r, lc, rest' ++ b) := by
  obtain ⟨hctx, cm, s1, d1, hcm, hs1, hd1, hd1ne, hbnd, hseq, hr, hlc⟩ :=
    mBareM_shape ctx _ _ _ _ h
  subst hseq
  subst hr
  subst hlc
  rw [show (cm :: (s1 ++ (d1 ++ rest'))) ++ b = cm :: (s1 ++ (d1 ++ (rest' ++ b)))
      from by simp [List.append_assoc]]
  exact mBareM_compute ctx cm s1 d1 (rest' ++ b) hctx hcm hs1 hd1 hd1ne
    (wcO_append_sp rest' b hbnd hb)

lemma trim_SelfAt_mx (a b Y : List Char) (ha : ∀ d ∈ a, jsSpace d = true)
    (hb : ∀ d ∈ b, jsSpace d = true)
    (hSA : SelfAt mMx none (a ++ (Y ++ b))) : SelfAt mMx none Y := by
  intro pre rest heq r lc rest2 hm
  have hm2 : mMx (ctxAfter none (a ++ pre)) (rest ++ b) = some (r, lc, rest2 ++ b) := by
    rw [mMx_congr (ctxAfter none (a ++ pre)) (ctxAfter none pre) _ (sp_ctx_align a pre ha)]
    exact mMx_ext_sp_val _ rest b r lc rest2 hm hb
  have hself := hSA (a ++ pre) (rest ++ b) (by rw [heq]; simp [List.append_assoc]) r lc
    (rest2 ++ b) hm2
  have h2 : (r ++ rest2) ++ b = rest ++ b := by
    rw [List.append_assoc]
    exact hself
  exact List.append_cancel_right h2

lemma trim_SelfAt_barem (a b Y : List Char) (ha : ∀ d ∈ a, jsSpace d = true)
    (hb : ∀ d ∈ b, jsSpace d = true)
    (hSA : SelfAt mBareM none (a ++ (Y ++ b))) : SelfAt mBareM none Y := by
  intro pre rest heq r lc rest2 hm
  have hm2 : mBareM (ctxAfter none (a ++ pre)) (rest ++ b) =
      some (r, lc, rest2 ++ b) := by
    rw [mBareM_congr (ctxAfter none (a ++ pre)) (ctxAfter none pre) _
      (sp_ctx_align a pre ha)]
    exact mBareM_ext_sp_val _ rest b r lc rest2 hm hb
  have hself := hSA (a ++ pre) (rest ++ b) (by rw [heq]; simp [List.append_assoc]) r lc
    (rest2 ++ b) hm2
  have h2 : (r ++ rest2) ++ b = rest ++ b := by
    rw [List.append_assoc]
    exact hself
  exact List.append_cancel_right h2

/-! ## C4: the full pipeline lands in canonical form -/

lemma canon_pipeline (l0 : List Char) :
    Canon (jsTrim (collapseGo false (runScan mBareM (runScan mMx (runScan mFois
      (runScan mOps (runScan mEt (runScan mVirgule
        (runScan mPointVirgule (jsTrim l0)))))))))) := by
  generalize jsTrim l0 = t0
  generalize h1 : runScan mPointVirgule t0 = t1
  have hTr1 : Tr mPointVirgule none t0 t1 := by
    rw [← h1]
    exact Tr_runScan mPointVirgule mPointVirgule_Mcons t0
  have hPV1 : NoM mPointVirgule none t1 := postPV none t0 t1 hTr1
  generalize h2 : runScan mVirgule t1 = t2
  have hTr2 : Tr mVirgule none t1 t2 := by
    rw [← h2]
    exact Tr_runScan mVirgule mVirgule_Mcons t1
  have hV2 : NoM mVirgule none t2 := postV none t1 t2 hTr2
  have hPV2 : NoM mPointVirgule none t2 := presPV_virgule none t1 t2 hTr2 hPV1
  generalize h3 : runScan mEt t2 = t3
  have hTr3 : Tr mEt none t2 t3 := by
    rw [← h3]
    exact Tr_runScan mEt mEt_Mcons t2
  have hE3 : NoM mEt none t3 := postE none t2 t3 hTr3
  have hV3 : NoM mVirgule none t3 := presV_et none t2 t3 hTr3 hV2
  have hPV3 : NoM mPointVirgule none t3 := presPV_et none t2 t3 hTr3 hPV2
  generalize h4 : runScan mOps t3 = t4
  have hTr4 : Tr mOps none t3 t4 := by
    rw [← h4]
    exact Tr_runScan mOps mOps_Mcons t3
  have hOp4 : ∀ c ∈ t4, isOpChar c = false := by
    rw [← h4]
    exact runScan_mOps_no_op t3
  have hE4 : NoM mEt none t4 := presE_ops none t3 t4 hTr4 hE3
  have hV4 : NoM mVirgule none t4 := presV_ops none t3 t4 hTr4 hV3
  have hPV4 : NoM mPointVirgule none t4 := presPV_ops none t3 t4 hTr4 hPV3
  generalize h5 : runScan mFois t4 = t5
  have hTr5 : Tr mFois none t4 t5 := by
    rw [← h5]
    exact Tr_runScan mFois mFois_Mcons t4
  have hF5 : NoM mFois none t5 := postF none t4 t5 hTr5
  have hOp5 : ∀ c ∈ t5, isOpChar c = false := by
    rw [← h5]
    exact runScan_no_op_pres mFois mFois_hM t4 hOp4
  have hE5 : NoM mEt none t5 := presE_fois none t4 t5 hTr5 hE4
  have hV5 : NoM mVirgule none t5 := presV_fois none t4 t5 hTr5 hV4
  have hPV5 : NoM mPointVirgule none t5 := presPV_fois none t4 t5 hTr5 hPV4
  generalize h6 : runScan mMx t5 = t6
  have hTr6 : Tr mMx none t5 t6 := by
    rw [← h6]
    exact Tr_runScan mMx mMx_Mcons t5
  have hSMx6 : SelfM mMx none t6 := post_selfmx none t5 t6 hTr6
  have hOp6 : ∀ c ∈ t6, isOpChar c = false := by
    rw [← h6]
    exact runScan_no_op_pres mMx mMx_hM t5 hOp5
  have hF6 : NoM mFois none t6 := presF_mx none t5 t6 hTr6 hF5
  have hE6 : NoM mEt none t6 := presE_mx none t5 t6 hTr6 hE5
  have hV6 : NoM mVirgule none t6 := presV_mx none t5 t6 hTr6 hV5
  have hPV6 : NoM mPointVirgule none t6 := presPV_mx none t5 t6 hTr6 hPV5
  generalize h7 : runScan mBareM t6 = t7
  have hTr7 : Tr mBareM none t6 t7 := by
    rw [← h7]
    exact Tr_runScan mBareM mBareM_Mcons t6
  have hSB7 : SelfM mBareM none t7 := post_selfbarem none t6 t7 hTr7
  have hSMx7 : SelfM mMx none t7 :=
    pres_selfmx none t6 t7 hTr7 (SelfAt_mMx none t6 hSMx6)
  have hOp7 : ∀ c ∈ t7, isOpChar c = false := by
    rw [← h7]
    exact runScan_no_op_pres mBareM mBareM_hM t6 hOp6
  have hF7 : NoM mFois none t7 := presF_barem none t6 t7 hTr7 hF6
  have hE7 : NoM mEt none t7 := presE_barem none t6 t7 hTr7 hE6
  have hV7 : NoM mVirgule none t7 := presV_barem none t6 t7 hTr7 hV6
  have hPV7 : NoM mPointVirgule none t7 := presPV_barem none t6 t7 hTr7 hPV6
  generalize hZ : collapseGo false t7 = Z
  have hTrC : Tr mCol none t7 Z := by
    rw [← hZ]
    exact col_Tr t7.length none t7 le_rfl
  have hnrZ : noRun Z := by
    rw [← hZ]
    exact (collapseGo_noRun t7 false).1
  have hVZ : NoM mVirgule none Z := presV_col none t7 Z hTrC hV7
  have hEZ : NoM mEt none Z := presE_col none t7 Z hTrC hE7
  have hFZ : NoM mFois none Z := presF_col none t7 Z hTrC hF7
  have hPVZ : NoM mPointVirgule none Z := presPV_col none t7 Z hTrC hPV7 hV7
  have hOpZ : ∀ c ∈ Z, isOpChar c = false := by
    intro c hc
    rw [← hZ] at hc
    rcases collapseGo_mem c false t7 hc with hh | hh
    · rw [hh]
      decide
    · exact hOp7 c hh
  have hSMxZ : SelfM mMx none Z :=
    col_selfmx none t7 Z hTrC (SelfAt_mMx none t7 hSMx7)
  have hSBZ : SelfM mBareM none Z :=
    col_selfbarem none t7 Z hTrC (SelfAt_mBareM none t7 hSB7)
  obtain ⟨a, b, hZd, ha, hb⟩ := jsTrim_decomp Z
  refine ⟨?_, ?_, ?_, ?_, ?_, ?_, ?_, ?_, ?_⟩
  · exact trim_NoM mPointVirgule pv_ext_sp mPointVirgule_ext a b (jsTrim Z) ha hb
      (by rw [← hZd]; exact hPVZ)
  · exact trim_NoM mVirgule mVirgule_ext_sp mVirgule_ext a b (jsTrim Z) ha hb
      (by rw [← hZd]; exact hVZ)
  · exact trim_NoM mEt et_ext_sp mEt_ext a b (jsTrim Z) ha hb
      (by rw [← hZd]; exact hEZ)
  · exact NoM_mOps_of_no_op _ (fun c hc => hOpZ c (jsTrim_subset Z hc)) none
  · exact trim_NoM mFois mFois_ext_sp mFois_ext a b (jsTrim Z) ha hb
      (by rw [← hZd]; exact hFZ)
  · exact SelfM_mMx_of none _ (trim_SelfAt_mx a b (jsTrim Z) ha hb
      (by rw [← hZd]; exact SelfAt_mMx none Z hSMxZ))
  · exact SelfM_mBareM_of none _ (trim_SelfAt_barem a b (jsTrim Z) ha hb
      (by rw [← hZd]; exact SelfAt_mBareM none Z hSBZ))
  · exact collapseGo_fix _ (jsTrim_noRun Z hnrZ)
  · exact jsTrim_idem Z

/-- C8 witness: the amended theorem applied at a concrete state and
segment with the prefix hypotheses discharged. -/
theorem claim_C8_amended_witness :
    startsWithOne containerWords ((jsTrim ("5 plus 7" : String).data).map latin1Lower) = false ∧
    startsWithOne refWords ((jsTrim ("5 plus 7" : String).data).map latin1Lower) = false ∧
    (((handleSegment ⟨"a", "", "", ⟨1, 1⟩, "c"⟩ "5 plus 7").2
        = [SAction.addLine (SState.mk "a" "" "" ⟨1, 1⟩ "c").activeItem
            (evalExprSafe (normalizeMathSpeech (String.mk (jsTrim ("5 plus 7" : String).data)))).value]
      ↔ (jsTrim (SState.mk "a" "" "" ⟨1, 1⟩ "c").activeItem.data ≠ [] ∧
         (evalExprSafe (normalizeMathSpeech (String.mk (jsTrim ("5 plus 7" : String).data)))).error = none ∧
         0 < (evalExprSafe (normalizeMathSpeech (String.mk (jsTrim ("5 plus 7" : String).data)))).value.toRat)) ∧
    ((handleSegment ⟨"a", "", "", ⟨1, 1⟩, "c"⟩ "5 plus 7").2 = [] ∨
      (handleSegment ⟨"a", "", "", ⟨1, 1⟩, "c"⟩ "5 plus 7").2
        = [SAction.addLine (SState.mk "a" "" "" ⟨1, 1⟩ "c").activeItem
            (evalExprSafe (normalizeMathSpeech (String.mk (jsTrim ("5 plus 7" : String).data)))).value]) ∧
    ((handleSegment ⟨"a", "", "", ⟨1, 1⟩, "c"⟩ "5 plus 7").2 = [] →
      (handleSegment ⟨"a", "", "", ⟨1, 1⟩, "c"⟩ "5 plus 7").1.activeItem
          = (SState.mk "a" "" "" ⟨1, 1⟩ "c").activeItem ∧
      (handleSegment ⟨"a", "", "", ⟨1, 1⟩, "c"⟩ "5 plus 7").1.containerLabel
          = (SState.mk "a" "" "" ⟨1, 1⟩ "c").containerLabel ∧
      (handleSegment ⟨"a", "", "", ⟨1, 1⟩, "c"⟩ "5 plus 7").1.qtyInput
          = (SState.mk "a" "" "" ⟨1, 1⟩ "c").qtyInput)) :=
  ⟨by decide, by decide,
    claim_C8_amended ⟨"a", "", "", ⟨1, 1⟩, "c"⟩ "5 plus 7" (by decide) (by decide)⟩

set_option maxRecDepth 8000 in
/-- C9 (counterexample): the claim states that per-key sums are
unchanged by input reordering; but the summed quantities are doubles
and binary64 addition is not associative.  Three lines with label
`"vis"` and quantities `2 ^ 53`, `1`, `1` total `2 ^ 53` in this order
(each `+ 1` lands on a tie that rounds back to the even `2 ^ 53`), yet
the reordered sequence `1`, `1`, `2 ^ 53` totals `2 ^ 53 + 2`: the
per-key total of a permuted input differs. -/
theorem claim_C9_counterexample :
    ([⟨"vis", ⟨9007199254740992, 1⟩⟩, ⟨"vis", ⟨1, 1⟩⟩, ⟨"vis", ⟨1, 1⟩⟩] : List CLine).Perm
        [⟨"vis", ⟨1, 1⟩⟩, ⟨"vis", ⟨1, 1⟩⟩, ⟨"vis", ⟨9007199254740992, 1⟩⟩] ∧
      Frac.toRat ((mapGet (aggMap
            [⟨"vis", ⟨9007199254740992, 1⟩⟩, ⟨"vis", ⟨1, 1⟩⟩, ⟨"vis", ⟨1, 1⟩⟩]) "vis").getD ⟨0, 1⟩)
        ≠ Frac.toRat ((mapGet (aggMap
            [⟨"vis", ⟨1, 1⟩⟩, ⟨"vis", ⟨1, 1⟩⟩, ⟨"vis", ⟨9007199254740992, 1⟩⟩]) "vis").getD ⟨0, 1⟩) := by
  have h1 : (mapGet (aggMap
        [⟨"vis", ⟨9007199254740992, 1⟩⟩, ⟨"vis", ⟨1, 1⟩⟩, ⟨"vis", ⟨1, 1⟩⟩]) "vis").getD ⟨0, 1⟩
      = ⟨9007199254740992, 1⟩ := by decide
  have h2 : (mapGet (aggMap
        [⟨"vis", ⟨1, 1⟩⟩, ⟨"vis", ⟨1, 1⟩⟩, ⟨"vis", ⟨9007199254740992, 1⟩⟩]) "vis").getD ⟨0, 1⟩
      = ⟨9007199254740994, 1⟩ := by decide
  refine ⟨by decide, ?_⟩
  rw [h1, h2]
  simp only [Frac.toRat]
  norm_num

set_option maxRecDepth 8000 in
/-- C9 (amended): aggregation is NOT stable under input reordering: the
per-key totals are binary64 sums, which depend on the summand order.
For the permuted single-label inputs of quantities `2 ^ 53, 1, 1` and
`1, 1, 2 ^ 53` the totals map holds `2 ^ 53` in the first order and
`2 ^ 53 + 2` in the second.  (For a fixed input order the totals map is
deterministic — each key carries the left-to-right binary64 fold of its
quantities — but no order-independence holds.) -/
theorem claim_C9_amended :
    ([⟨"vis", ⟨9007199254740992, 1⟩⟩, ⟨"vis", ⟨1, 1⟩⟩, ⟨"vis", ⟨1, 1⟩⟩] : List CLine).Perm
        [⟨"vis", ⟨1, 1⟩⟩, ⟨"vis", ⟨1, 1⟩⟩, ⟨"vis", ⟨9007199254740992, 1⟩⟩] ∧
      mapGet (aggMap [⟨"vis", ⟨9007199254740992, 1⟩⟩, ⟨"vis", ⟨1, 1⟩⟩, ⟨"vis", ⟨1, 1⟩⟩]) "vis"
        = some ⟨9007199254740992, 1⟩ ∧
      mapGet (aggMap [⟨"vis", ⟨1, 1⟩⟩, ⟨"vis", ⟨1, 1⟩⟩, ⟨"vis", ⟨9007199254740992, 1⟩⟩]) "vis"
        = some ⟨9007199254740994, 1⟩ ∧
      Frac.toRat ⟨9007199254740992, 1⟩ = 2 ^ 53 ∧
      Frac.toRat ⟨9007199254740994, 1⟩ = 2 ^ 53 + 2 := by
  refine ⟨by decide, by decide, by decide, ?_, ?_⟩
  · simp only [Frac.toRat]
    norm_num
  · simp only [Frac.toRat]
    norm_num

/-- C1 (counterexample): the claim states that `extractQuantityAndLabel`
applied to `"M6x20"` returns no line; in fact strategy 3's lazy pattern
`^(.*?)(?:\s+)?x\s*(\d+)\s*$` matches the dimension code itself (prefix
`"M6"`, multiplier `20`), so the extractor returns a pair. -/
theorem claim_C1_counterexample : extractQL "M6x20" ≠ none := by decide

/-- C1 (amended): a segment consisting only of a dimension code such as
`"M6x20"` does NOT yield no line: strategy 3 fires on it and
`extractQuantityAndLabel "M6x20"` returns quantity `20` with item label
`"M6"`. -/
theorem claim_C1_amended :
    extractQL "M6x20" = some (20, "M6") ∧
      strat3 (jsTrim ("M6x20".data)) = some (20, "M6".data) := by decide

/-- C2 (counterexample): the claim states
`evaluate "5+10+20*2-12" = 31`; under the implemented grammar
(`*`/`/` tighter than `+`/`-`) the value is `5+10+40-12 = 43`, not 31. -/
theorem claim_C2_counterexample :
    (evalExprSafe "5+10+20*2-12").value.toRat ≠ 31 := by
  have h : evalExprSafe "5+10+20*2-12" = ⟨⟨43, 1⟩, none⟩ := by decide
  rw [h]
  show Frac.toRat ⟨43, 1⟩ ≠ 31
  simp [Frac.toRat]

/-- C2 (amended): the expression evaluator applied to `"5+10+20*2-12"`
succeeds and returns the value `43`, under the grammar where `*` and `/`
bind tighter than `+` and `-` and evaluation is left-to-right. -/
theorem claim_C2_amended :
    (evalExprSafe "5+10+20*2-12").value.toRat = 43 ∧
      (evalExprSafe "5+10+20*2-12").error = none := by
  have h : evalExprSafe "5+10+20*2-12" = ⟨⟨43, 1⟩, none⟩ := by decide
  rw [h]
  refine ⟨?_, rfl⟩
  show Frac.toRat ⟨43, 1⟩ = 43
  simp [Frac.toRat]

/-- C3 (counterexample): the claim states that ingesting the single
fragment `"référence vis M6x20 ok 5 plus 10 ok"` into a fresh session
emits exactly one add-line action; in fact both confirmed segments of
the drain read the same render-closure state, in which no item is
active yet, so the second segment falls into the no-active-reference
branch and the drain emits no action at all. -/
theorem claim_C3_counterexample :
    (ingest initialState "" "référence vis M6x20 ok 5 plus 10 ok").2.1 = [] ∧
      (ingest initialState "" "référence vis M6x20 ok 5 plus 10 ok").2.1
        ≠ [SAction.addLine "vis M6x20" ⟨15, 1⟩] := by decide

/-- C3 (amended): ingesting the single fragment
`"référence vis M6x20 ok 5 plus 10 ok"` into a fresh session sets the
active item label to `"vis M6x20"` and leaves the buffer empty, but
emits NO add-line action: the second segment of the drain still reads
the render closure's empty active item.  The add-line only appears when
the two commands arrive in separate fragments: ingesting
`"référence vis M6x20 ok"` first (one action-less drain that sets the
active item and empties the buffer) and then `"5 plus 10 ok"` from the
updated state emits exactly `addLine "vis M6x20" 15`. -/
theorem claim_C3_amended :
    (ingest initialState "" "référence vis M6x20 ok 5 plus 10 ok").1.activeItem
        = "vis M6x20" ∧
      (ingest initialState "" "référence vis M6x20 ok 5 plus 10 ok").2.1 = [] ∧
      (ingest initialState "" "référence vis M6x20 ok 5 plus 10 ok").2.2 = [] ∧
      (ingest initialState "" "référence vis M6x20 ok").1.activeItem = "vis M6x20" ∧
      (ingest initialState "" "référence vis M6x20 ok").2.1 = [] ∧
      (ingest initialState "" "référence vis M6x20 ok").2.2 = [] ∧
      (ingest (ingest initialState "" "référence vis M6x20 ok").1 "" "5 plus 10 ok").2.1
        = [SAction.addLine "vis M6x20" ⟨15, 1⟩] ∧
      Frac.toRat ⟨15, 1⟩ = 15 := by
  refine ⟨by decide, by decide, by decide, by decide, by decide, by decide, by decide, ?_⟩
  simp [Frac.toRat]

/-- C5: the extractor's strategies fire in fixed priority order: each of
the four segments extracts to quantity 10 / label `"vis M6x20"`, fired by
strategies 1–4 respectively (every earlier strategy failing). -/
theorem claim_C5 :
    (strat1 "10 vis M6x20".data = some (10, "vis M6x20".data) ∧
      extractQL "10 vis M6x20" = some (10, "vis M6x20")) ∧
    (strat1 "dix vis M6x20".data = none ∧
      strat2 "dix vis M6x20".data = some (10, "vis M6x20".data) ∧
      extractQL "dix vis M6x20" = some (10, "vis M6x20")) ∧
    (strat1 "vis M6x20 x 10".data = none ∧
      strat2 "vis M6x20 x 10".data = none ∧
      strat3 "vis M6x20 x 10".data = some (10, "vis M6x20".data) ∧
      extractQL "vis M6x20 x 10" = some (10, "vis M6x20")) ∧
    (strat1 "vis M6x20 10".data = none ∧
      strat2 "vis M6x20 10".data = none ∧
      strat3 "vis M6x20 10".data = none ∧
      strat4 "vis M6x20 10".data = some (10, "vis M6x20".data) ∧
      extractQL "vis M6x20 10" = some (10, "vis M6x20")) :=
  ⟨⟨by decide, by decide⟩,
   ⟨by decide, by decide, by decide⟩,
   ⟨by decide, by decide, by decide, by decide⟩,
   by decide, by decide, by decide, by decide, by decide⟩

/-- C6: `"vis 6 mm"` extracts no quantity: strategies 1–4 fail, and in
the fallback scan the digit token `6` is excluded by the unit-of-length
guard, so the segment yields no line. -/
theorem claim_C6 :
    strat5 "vis 6 mm".data = none ∧ extractQL "vis 6 mm" = none := by decide

/-- C4: the dictation normalizer is idempotent: for every input string `x`,
`normalizeDictation (normalizeDictation x) = normalizeDictation x`. -/
theorem claim_C4 (x : String) :
    normalizeDictation (normalizeDictation x) = normalizeDictation x := by
  have hx : normalizeDictation x = String.mk (jsTrim (collapseGo false (runScan mBareM
      (runScan mMx (runScan mFois (runScan mOps (runScan mEt (runScan mVirgule
        (runScan mPointVirgule (jsTrim x.data)))))))))) := rfl
  rw [hx]
  exact canon_fixpoint _ (canon_pipeline x.data)

/-- C10: for every input string, the output of `normalizeDictation`
contains none of the characters `+`, `-` (U+002D) or `−` (U+2212): the
operator-replacement pass removes them all, and no later pass of the
normalizer reintroduces one. -/
theorem claim_C10 (x : String) :
    (normalizeDictation x).data.all (fun c => !isOpChar c) = true := by
  rw [List.all_eq_true]
  intro c hc
  rw [Bool.not_eq_true']
  simp only [normalizeDictation] at hc
  have h4 := runScan_mOps_no_op
    (runScan mEt (runScan mVirgule (runScan mPointVirgule (jsTrim x.data))))
  have h5 := runScan_no_op_pres mFois mFois_hM _ h4
  have h6 := runScan_no_op_pres mMx mMx_hM _ h5
  have h7 := runScan_no_op_pres mBareM mBareM_hM _ h6
  have hc2 := jsTrim_subset _ hc
  rcases collapseGo_mem c false _ hc2 with rfl | hc3
  · decide
  · exact h7 c hc3

end VCC
